import Mathlib

/-!
# Timeloop point sets (axis-aligned hyper-rectangles) and consumer-based tile-shape inference

A shallow embedding of

* `timeloop/src/loop-analysis/point-set-aahr.cpp` (classes `Gradient` and
  `AxisAlignedHyperRectangle`), and
* `timeloop/include/loop-analysis/mapping-to-isl/tile-shape-inference-impl/producer-consumer.hpp`
  (`ConsumerBasedTileShapeInference`),

followed by theorems about them.

Modelling conventions.

* A `Point` is the list of its coordinates; its order is the length of the list.
  Coordinates are mathematical integers (the specification calls them "signed integers";
  the `Coordinate` typedef lives in `point.hpp`, which is not among the sources).
* `size()` computes in `std::size_t`: every product is taken modulo `2^64`, so `size()` is
  the volume of the box modulo `2^64`, and `empty()` holds for every box whose volume is a
  multiple of `2^64`. The exact product of the extents is `volume`.
* `ASSERT(..)` and `assert(..)` are fatal: a function that can hit one returns an `Option`,
  and `none` stands for the aborted call.
* A C++ member function that mutates `*this` becomes a function returning the new value
  of `*this` (together with the C++ return value, if any).
* `for (dim = 0; dim < order_; dim++)` loops run over the list of dimensions
  `List.range order_`, carrying the loop state explicitly: a fold of the loop body (in
  `Option` or `Except` where the body can abort or return), or a recursive function.
* The `while` loop of the inference is run with a bound on the number of iterations
  (fuel); the relational library and the workload graph are parameters.
-/

set_option autoImplicit false

/-! ## Point -/

/-- Modelled from the spec: the class `Point` of `point.hpp` (not among the sources): "an
ordered tuple of integer coordinates with a fixed dimensionality (order)". -/
abbrev Point := List Int

namespace Point

/-- Modelled from the spec: `Point::Order()`. -/
def Order (p : Point) : Nat := p.length

/-- Modelled from the spec: coordinate access `p[d]` (reads `0` outside the tuple, where the
C++ behaviour is undefined). -/
def coord (p : Point) (d : Nat) : Int := p.getD d 0

/-- Modelled from the spec: coordinate assignment `p[d] = v`. -/
def setCoord (p : Point) (d : Nat) (v : Int) : Point := p.set d v

/-- Modelled from the spec: `Point(order)` and `Point::Reset()`, all coordinates zero. -/
def zero (order : Nat) : Point := List.replicate order 0

/-- Modelled from the spec: `Point::IncrementAllDimensions()`. -/
def IncrementAllDimensions (p : Point) : Point := p.map (fun c => c + 1)

end Point

/-! ## Gradient -/

/-- The class `Gradient`: a displacement `value` along the axis `dimension`. -/
structure Gradient where
  order : Nat
  dimension : Nat
  value : Int
deriving DecidableEq, Repr

namespace Gradient

/-- The constructor `Gradient::Gradient(order)`: it calls `Reset()`. -/
def new (order : Nat) : Gradient := { order := order, dimension := 0, value := 0 }

/-- The method `Gradient::Reset()`. -/
def Reset (g : Gradient) : Gradient := { g with dimension := 0, value := 0 }

/-- The method `Gradient::Sign()`. -/
def Sign (g : Gradient) : Int :=
  if g.value < 0 then -1 else if g.value = 0 then 0 else 1

end Gradient

/-! ## AxisAlignedHyperRectangle -/

/-- The class `AxisAlignedHyperRectangle`: the half-open box `[min_, max_)` with the
gradient it carries. -/
structure AxisAlignedHyperRectangle where
  order_ : Nat
  min_ : Point
  max_ : Point
  gradient_ : Gradient
deriving DecidableEq, Repr

namespace AxisAlignedHyperRectangle

/-- The method `Reset()`: `min_.Reset(); max_.Reset(); gradient_.Reset();`. -/
def Reset (a : AxisAlignedHyperRectangle) : AxisAlignedHyperRectangle :=
  { a with min_ := Point.zero a.min_.Order, max_ := Point.zero a.max_.Order,
           gradient_ := a.gradient_.Reset }

/-- The constructor `AxisAlignedHyperRectangle(order)`: the empty box. -/
def new (order : Nat) : AxisAlignedHyperRectangle :=
  Reset { order_ := order, min_ := Point.zero order, max_ := Point.zero order,
          gradient_ := Gradient.new order }

/-- The constructor `AxisAlignedHyperRectangle(order, unit)`: the unit box at `unit`. -/
def newUnit (order : Nat) (unit : Point) : Option AxisAlignedHyperRectangle :=
  if order ≠ unit.Order then none
  else some { new order with min_ := unit, max_ := unit.map (fun c => c + 1) }

/-- The constructor `AxisAlignedHyperRectangle(order, min, max)`. -/
def newMinMax (order : Nat) (min max : Point) : AxisAlignedHyperRectangle :=
  { new order with min_ := min, max_ := max }

/-- The statement `min_[dim] = v`. -/
def setMin (a : AxisAlignedHyperRectangle) (dim : Nat) (v : Int) : AxisAlignedHyperRectangle :=
  { a with min_ := a.min_.setCoord dim v }

/-- The statement `max_[dim] = v`. -/
def setMax (a : AxisAlignedHyperRectangle) (dim : Nat) (v : Int) : AxisAlignedHyperRectangle :=
  { a with max_ := a.max_.setCoord dim v }

/-- The method `size()`: `std::size_t size = max_[0] - min_[0]`, then
`size *= max_[i] - min_[i]` for `i = 1 .. order_ - 1`. The variable is a `std::size_t`, so
the initial value and every product are reduced modulo `2^64`. -/
def size (a : AxisAlignedHyperRectangle) : Int :=
  (List.range' 1 (a.order_ - 1)).foldl
    (fun sz i => (sz * (a.max_.coord i - a.min_.coord i)) % 2 ^ 64)
    ((a.max_.coord 0 - a.min_.coord 0) % 2 ^ 64)

/-- The method `empty()`. -/
def empty (a : AxisAlignedHyperRectangle) : Bool := a.size == 0

/-- The loop of `operator==`: fails at the first dimension whose bounds differ. -/
def eqLoop (a s : AxisAlignedHyperRectangle) : List Nat → Bool
  | [] => true
  | dim :: dims =>
    if a.min_.coord dim ≠ s.min_.coord dim ∨ a.max_.coord dim ≠ s.max_.coord dim then false
    else eqLoop a s dims

/-- The method `operator==`: compares the bounds only, `none` when the orders differ. -/
def eq (a s : AxisAlignedHyperRectangle) : Option Bool :=
  if a.order_ ≠ s.order_ then none else some (eqLoop a s (List.range a.order_))

/-- The loop of `Contains`: fails at the first rank on which `p` is outside `[min_, max_)`. -/
def containsLoop (a : AxisAlignedHyperRectangle) (p : Point) : List Nat → Bool
  | [] => true
  | rank :: ranks =>
    if p.coord rank < a.min_.coord rank ∨ p.coord rank ≥ a.max_.coord rank then false
    else containsLoop a p ranks

/-- The method `Contains(p)`, `none` when the order of `p` is not the order of the box. -/
def Contains (a : AxisAlignedHyperRectangle) (p : Point) : Option Bool :=
  if p.Order ≠ a.order_ then none else some (containsLoop a p (List.range a.order_))

/-! ### MultiSubtract -/

/-- The quick check of `MultiSubtract`: is there a rank without overlap? -/
def noOverlapLoop (a b : AxisAlignedHyperRectangle) : List Nat → Bool
  | [] => false
  | rank :: ranks =>
    if a.max_.coord rank ≤ b.min_.coord rank ∨ b.max_.coord rank ≤ a.min_.coord rank then true
    else noOverlapLoop a b ranks

/-- One iteration of the main loop of `MultiSubtract`, on the loop state `(middle, retval)`:
the left slice, then the right slice. -/
def multiSubtractStep (b : AxisAlignedHyperRectangle)
    (st : AxisAlignedHyperRectangle × List AxisAlignedHyperRectangle) (rank : Nat) :
    AxisAlignedHyperRectangle × List AxisAlignedHyperRectangle :=
  let middle := st.1
  let retval := st.2
  -- Left slice.
  let st1 : AxisAlignedHyperRectangle × List AxisAlignedHyperRectangle :=
    if middle.min_.coord rank < b.min_.coord rank then
      (middle.setMin rank (b.min_.coord rank),
       retval ++ [middle.setMax rank (b.min_.coord rank)])
    else (middle, retval)
  let middle := st1.1
  let retval := st1.2
  -- Right slice.
  if b.max_.coord rank < middle.max_.coord rank then
    (middle.setMax rank (b.max_.coord rank),
     retval ++ [middle.setMin rank (b.max_.coord rank)])
  else (middle, retval)

/-- The method `MultiSubtract(b)`: the quick check, then the main loop over all ranks
starting from `middle = *this` and an empty `retval`. -/
def MultiSubtract (a b : AxisAlignedHyperRectangle) : List AxisAlignedHyperRectangle :=
  if noOverlapLoop a b (List.range a.order_) then [a]
  else ((List.range a.order_).foldl (multiSubtractStep b) (a, [])).2

/-! ### Add -/

/-- One iteration of the loop of `Add`, on the loop state `(*this, found)`; `none` is one of
the three `assert(false)`. -/
def addStep (s : AxisAlignedHyperRectangle) (extrude_if_discontiguous : Bool)
    (st : AxisAlignedHyperRectangle × Bool) (dim : Nat) :
    Option (AxisAlignedHyperRectangle × Bool) :=
  let this := st.1
  let found := st.2
  if s.max_.coord dim ≥ this.min_.coord dim ∧ this.max_.coord dim ≥ s.min_.coord dim then
    let u := this
    let need_update := false
    let un : AxisAlignedHyperRectangle × Bool :=
      if s.min_.coord dim < this.min_.coord dim then (u.setMin dim (s.min_.coord dim), true)
      else (u, need_update)
    let un : AxisAlignedHyperRectangle × Bool :=
      if s.max_.coord dim > this.max_.coord dim then (un.1.setMax dim (s.max_.coord dim), true)
      else un
    if un.2 then
      if found then none   -- "AAHR Add error: non-HR shape"
      else some (un.1, true)
    else some (this, found)
  else
    if !extrude_if_discontiguous then
      none   -- "AAHR Add error: discontiguous volumes (and extrude is disabled)"
    else
      let u := this
      let u : AxisAlignedHyperRectangle :=
        if s.max_.coord dim < this.min_.coord dim then u.setMin dim (s.min_.coord dim)
        else u.setMax dim (s.max_.coord dim)
      -- need_update is true on both branches
      if found then none   -- "AAHR Add error: non-HR shape"
      else some (u, true)

/-- The loop state of `Add` after the dimensions `0 .. k-1`. -/
def addState (a s : AxisAlignedHyperRectangle) (extrude_if_discontiguous : Bool) (k : Nat) :
    Option (AxisAlignedHyperRectangle × Bool) :=
  (List.range k).foldlM (addStep s extrude_if_discontiguous) (a, false)

/-- The method `Add(s, extrude_if_discontiguous)`: the new value of `*this`, or `none` when
an assertion fails. -/
def Add (a s : AxisAlignedHyperRectangle) (extrude_if_discontiguous : Bool) :
    Option AxisAlignedHyperRectangle :=
  if a.order_ ≠ s.order_ then none
  else if a.size = 0 then some s
  else if s.size = 0 then some a
  else
    match a.eq s with
    | none => none
    | some true => some a
    | some false => (addState a s extrude_if_discontiguous a.order_).map Prod.fst

/-! ### Subtract -/

/-- The first loop of `Subtract`: is there a dimension without overlap? -/
def subtractNoOverlapLoop (a s : AxisAlignedHyperRectangle) : List Nat → Bool
  | [] => false
  | dim :: dims =>
    if s.max_.coord dim ≤ a.min_.coord dim ∨ s.min_.coord dim ≥ a.max_.coord dim then true
    else subtractNoOverlapLoop a s dims

/-- The test at the end of an iteration of the second loop of `Subtract`: when the update
shrank the box to nothing on `dim`, `*this` is reset and a zero gradient is returned. -/
def subtractFinish (a : AxisAlignedHyperRectangle) (dim : Nat)
    (updated : AxisAlignedHyperRectangle) (gradient : Gradient) :
    Except (Option (Gradient × AxisAlignedHyperRectangle))
      (AxisAlignedHyperRectangle × Gradient × Bool) :=
  if updated.min_.coord dim = updated.max_.coord dim then
    Except.error (some (Gradient.new a.order_, a.Reset))
  else Except.ok (updated, gradient, true)

/-- One iteration of the second loop of `Subtract`, on the loop state
`(updated, gradient, found)`. `Except.error r` leaves the function: `r = some (g, this)` is a
`return g` with the value of `*this` at that point, `r = none` is an `assert(false)`. -/
def subtractStep (a s : AxisAlignedHyperRectangle)
    (st : AxisAlignedHyperRectangle × Gradient × Bool) (dim : Nat) :
    Except (Option (Gradient × AxisAlignedHyperRectangle))
      (AxisAlignedHyperRectangle × Gradient × Bool) :=
  let updated := st.1
  let gradient := st.2.1
  let found := st.2.2
  if a.min_.coord dim ≠ s.min_.coord dim ∨ a.max_.coord dim ≠ s.max_.coord dim then
    if found then
      -- Torpedo everything, set delta to source, gradient to 0.
      Except.error (some (Gradient.new a.order_, a))
    else
      if s.min_.coord dim ≤ a.min_.coord dim then
        if s.max_.coord dim ≤ a.max_.coord dim then
          subtractFinish a dim (updated.setMin dim (s.max_.coord dim))
            { gradient with dimension := dim, value := s.max_.coord dim - a.min_.coord dim }
        else
          subtractFinish a dim (updated.setMax dim (a.min_.coord dim)) gradient.Reset
      else if s.min_.coord dim > a.min_.coord dim then
        if s.max_.coord dim < a.max_.coord dim then
          Except.error none   -- assert(false): fracture
        else
          subtractFinish a dim (updated.setMax dim (s.min_.coord dim))
            { gradient with dimension := dim, value := s.min_.coord dim - a.max_.coord dim }
      else Except.error none   -- assert(false)
  else Except.ok st

/-- The state of the second loop of `Subtract` after the dimensions `0 .. k-1`. -/
def subtractState (a s : AxisAlignedHyperRectangle) (k : Nat) :
    Except (Option (Gradient × AxisAlignedHyperRectangle))
      (AxisAlignedHyperRectangle × Gradient × Bool) :=
  (List.range k).foldlM (subtractStep a s) (a, Gradient.new a.order_, false)

/-- The method `Subtract(s)`: the returned gradient and the new value of `*this`, or `none`
when an assertion fails. -/
def Subtract (a s : AxisAlignedHyperRectangle) : Option (Gradient × AxisAlignedHyperRectangle) :=
  if a.order_ ≠ s.order_ then none
  else if a.size = 0 ∨ s.size = 0 then some (Gradient.new a.order_, a)
  else
    match a.eq s with
    | none => none
    | some true => some (Gradient.new a.order_, a.Reset)
    | some false =>
      if subtractNoOverlapLoop a s (List.range a.order_) then some (Gradient.new a.order_, a)
      else
        match subtractState a s a.order_ with
        | Except.error r => r
        | Except.ok (updated, gradient, found) =>
          if found then some (gradient, updated) else none   -- assert(found)

/-! ### The trend-aware `operator-` -/

/-- The method `operator-(s)`, with the global flag `gResetOnStrideChange` as a parameter:
the returned `delta` and the new value of `*this`, or `none` when `Subtract` aborts. -/
def minus (gResetOnStrideChange : Bool) (a s : AxisAlignedHyperRectangle) :
    Option (AxisAlignedHyperRectangle × AxisAlignedHyperRectangle) :=
  let delta := a
  match delta.Subtract s with
  | none => none
  | some (g, delta) =>
    let r : AxisAlignedHyperRectangle × AxisAlignedHyperRectangle :=
      if gResetOnStrideChange then
        if s.gradient_.value = 0 then
          -- Gradient was zero. Use newly-computed gradient.
          (delta, { a with gradient_ := g })
        else if g.value = 0 ∧ delta.size = 0 then
          (delta, { a with gradient_ := g })
        else if s.gradient_.dimension = g.dimension ∧ s.gradient_.Sign = g.Sign then
          -- New gradient is in the same direction as current gradient.
          (delta, { a with gradient_ := g })
        else
          -- Discard my residual state, and re-initialize gradient.
          (a, { a with gradient_ := Gradient.new a.order_ })
      else (delta, a)
    -- The delta itself doesn't carry a gradient.
    some ({ r.1 with gradient_ := Gradient.new a.order_ }, r.2)

/-! ### MergeIfAdjacent -/

/-- The loop of `MergeIfAdjacent`, with the loop state `(matched, matching_rank)`; it returns
`(success, matched, matching_rank)`, and leaves early (`break`) with `success = false`. -/
def mergeLoop (a : AxisAlignedHyperRectangle) (p : Point) :
    List Nat → Bool → Nat → Bool × Bool × Nat
  | [], matched, matching_rank => (true, matched, matching_rank)
  | rank :: ranks, matched, matching_rank =>
    if p.coord rank = a.min_.coord rank - 1 ∨ p.coord rank = a.max_.coord rank then
      -- Matching rank found.
      if matched then (false, matched, matching_rank)   -- Oops, cannot match twice.
      else mergeLoop a p ranks true rank
    else if p.coord rank = a.min_.coord rank ∧ a.min_.coord rank + 1 = a.max_.coord rank then
      mergeLoop a p ranks matched matching_rank
    else (false, matched, matching_rank)

/-- The method `MergeIfAdjacent(p)`: the returned flag and the new value of `*this`, or `none`
when the order of `p` is not the order of the box. The variable `matching_rank`, which the
source leaves uninitialised, starts at `0`; it is read only after it was assigned. -/
def MergeIfAdjacent (a : AxisAlignedHyperRectangle) (p : Point) :
    Option (Bool × AxisAlignedHyperRectangle) :=
  if p.Order ≠ a.order_ then none
  else if a.empty then
    some (true, { a with min_ := p, max_ := p.IncrementAllDimensions })
  else
    let r := mergeLoop a p (List.range a.order_) false 0
    let success := r.1 && r.2.1
    let matching_rank := r.2.2
    if success then
      if p.coord matching_rank = a.min_.coord matching_rank - 1 then
        some (success, a.setMin matching_rank (a.min_.coord matching_rank - 1))
      else if p.coord matching_rank = a.max_.coord matching_rank then
        some (success, a.setMax matching_rank (a.max_.coord matching_rank + 1))
      else some (success, a)
    else some (success, a)

/-! ### Translate -/

/-- One iteration of the loop of `Translate`. -/
def translateStep (p : Point) (a : AxisAlignedHyperRectangle) (dim : Nat) :
    AxisAlignedHyperRectangle :=
  (a.setMin dim (a.min_.coord dim + p.coord dim)).setMax dim (a.max_.coord dim + p.coord dim)

/-- The method `Translate(p)`: the new value of `*this`, or `none` when the order of `p` is
not the order of the box. -/
def Translate (a : AxisAlignedHyperRectangle) (p : Point) : Option AxisAlignedHyperRectangle :=
  if a.order_ ≠ p.Order then none
  else some ((List.range a.order_).foldl (translateStep p) a)

/-! ### Specification-level notions used to state the properties -/

/-- Well-formedness: both corners have `order_` coordinates. -/
def WF (a : AxisAlignedHyperRectangle) : Prop :=
  a.min_.length = a.order_ ∧ a.max_.length = a.order_

/-- The bounds are ordered on every axis: `min[d] <= max[d]`. -/
def Ordered (a : AxisAlignedHyperRectangle) : Prop :=
  ∀ d, d < a.order_ → a.min_.coord d ≤ a.max_.coord d

instance (a : AxisAlignedHyperRectangle) : Decidable (WF a) := by
  unfold WF; infer_instance

instance (a : AxisAlignedHyperRectangle) : Decidable (Ordered a) := by
  unfold Ordered; infer_instance

/-- The box of the points common to `a` and `b` (a notion of the specification, there is no
such method): on every axis from the larger minimum to the smaller maximum, or an empty
range at the larger minimum when the two ranges do not meet. -/
def intersection (a b : AxisAlignedHyperRectangle) : AxisAlignedHyperRectangle :=
  { order_ := a.order_
    min_ := (List.range a.order_).map
      (fun d => max (a.min_.coord d) (b.min_.coord d))
    max_ := (List.range a.order_).map
      (fun d => max (max (a.min_.coord d) (b.min_.coord d))
                    (min (a.max_.coord d) (b.max_.coord d)))
    gradient_ := Gradient.new a.order_ }

/-- The point `p` lies in `[min_, max_)` on every axis of the box. -/
def inBox (x : AxisAlignedHyperRectangle) (p : Point) : Prop :=
  ∀ i, i < x.order_ → x.min_.coord i ≤ p.coord i ∧ p.coord i < x.max_.coord i

/-- The volume of the box as the specification defines it, "product over d of
`(max[d]-min[d])`", in exact integers: the value that `size()` computes modulo `2^64`,
accumulated in the same order. -/
def volume (a : AxisAlignedHyperRectangle) : Int :=
  (List.range' 1 (a.order_ - 1)).foldl
    (fun sz i => sz * (a.max_.coord i - a.min_.coord i))
    (a.max_.coord 0 - a.min_.coord 0)

/-- The product of the extents over all axes (it is `volume` when the order is positive). -/
def vol (x : AxisAlignedHyperRectangle) : Int :=
  ∏ i ∈ Finset.range x.order_, (x.max_.coord i - x.min_.coord i)

/-- The loop state of `MultiSubtract` after the ranks `0 .. k-1`. -/
def msState (a b : AxisAlignedHyperRectangle) (k : Nat) :
    AxisAlignedHyperRectangle × List AxisAlignedHyperRectangle :=
  (List.range k).foldl (multiSubtractStep b) (a, [])

/-- The loop invariant of `MultiSubtract` after the ranks `0 .. k-1`: `middle` is `a` cut down
to the range of `b` on the ranks done so far, and `retval` holds disjoint boxes covering
exactly the points of `a` that leave the range of `b` on one of those ranks. -/
structure MSInv (a b : AxisAlignedHyperRectangle) (k : Nat)
    (st : AxisAlignedHyperRectangle × List AxisAlignedHyperRectangle) : Prop where
  ord : st.1.order_ = a.order_
  lmin : st.1.min_.length = a.order_
  lmax : st.1.max_.length = a.order_
  cmin : ∀ i, i < a.order_ → st.1.min_.coord i =
    if i < k then max (a.min_.coord i) (b.min_.coord i) else a.min_.coord i
  cmax : ∀ i, i < a.order_ → st.1.max_.coord i =
    if i < k then min (a.max_.coord i) (b.max_.coord i) else a.max_.coord i
  rord : ∀ x ∈ st.2, x.order_ = a.order_
  sound : ∀ x ∈ st.2, ∀ p, inBox x p →
    inBox a p ∧ ∃ i, i < k ∧ ¬ (b.min_.coord i ≤ p.coord i ∧ p.coord i < b.max_.coord i)
  complete : ∀ p, inBox a p →
    (∃ i, i < k ∧ ¬ (b.min_.coord i ≤ p.coord i ∧ p.coord i < b.max_.coord i)) →
    ∃ x ∈ st.2, inBox x p
  disj : st.2.Pairwise (fun x y => ∀ p, ¬ (inBox x p ∧ inBox y p))
  volsum : (st.2.map vol).sum + vol st.1 = vol a

/-- The box `s` reaches beyond the box `a` on the axis `d`, below or above. -/
def Extends (a s : AxisAlignedHyperRectangle) (d : Nat) : Prop :=
  s.min_.coord d < a.min_.coord d ∨ s.max_.coord d > a.max_.coord d

/-- The ranges of `a` and `s` on the axis `d` overlap or are adjacent (the test of `Add`). -/
def Touches (a s : AxisAlignedHyperRectangle) (d : Nat) : Prop :=
  s.max_.coord d ≥ a.min_.coord d ∧ a.max_.coord d ≥ s.min_.coord d

instance (a s : AxisAlignedHyperRectangle) (d : Nat) : Decidable (Extends a s d) := by
  unfold Extends; infer_instance

instance (a s : AxisAlignedHyperRectangle) (d : Nat) : Decidable (Touches a s d) := by
  unfold Touches; infer_instance

/-- The loop invariant of `Add` after the dimensions `0 .. k-1`: `*this` is `a` widened to
the hull of `a` and `s` on the dimensions done so far, and `found` tells whether `s` reached
beyond `a` on one of them. -/
structure AddInv (a s : AxisAlignedHyperRectangle) (k : Nat)
    (st : AxisAlignedHyperRectangle × Bool) : Prop where
  ord : st.1.order_ = a.order_
  lmin : st.1.min_.length = a.order_
  lmax : st.1.max_.length = a.order_
  grad : st.1.gradient_ = a.gradient_
  cmin : ∀ i, i < a.order_ → st.1.min_.coord i =
    if i < k then min (a.min_.coord i) (s.min_.coord i) else a.min_.coord i
  cmax : ∀ i, i < a.order_ → st.1.max_.coord i =
    if i < k then max (a.max_.coord i) (s.max_.coord i) else a.max_.coord i
  found : st.2 = true ↔ ∃ d, d < k ∧ Extends a s d

/-- The box invariant of the specification: the bounds are ordered on every axis, and an
empty box (zero volume) has `min[d] == max[d]` on every axis. -/
def BoxInv (a : AxisAlignedHyperRectangle) : Prop :=
  WF a ∧ Ordered a ∧
  (a.volume = 0 → ∀ d, d < a.order_ → a.min_.coord d = a.max_.coord d)

instance (a : AxisAlignedHyperRectangle) : Decidable (BoxInv a) := by
  unfold BoxInv; infer_instance

/-- What the second loop of `Subtract` can produce from the box `a`: an abort, an early
return leaving `a` unchanged or reset, or a loop state whose `updated` box satisfies the box
invariant and is still `a` as long as no differing dimension was found. -/
def SubOut (a : AxisAlignedHyperRectangle) :
    Except (Option (Gradient × AxisAlignedHyperRectangle))
      (AxisAlignedHyperRectangle × Gradient × Bool) → Prop
  | Except.error none => True
  | Except.error (some r) => r.2 = a ∨ r.2 = a.Reset
  | Except.ok st => (st.2.2 = false → st.1 = a) ∧ BoxInv st.1

/-- What the second loop of `Subtract` can produce from the box `a`, as far as the gradient is
concerned: an abort, an early return with a zero gradient leaving `a` unchanged or reset, or
a loop state in which the gradient is still the initial one and `updated` is still `a` as
long as no differing dimension was found, and whenever the value of the gradient is zero. -/
def GradOut (a : AxisAlignedHyperRectangle) :
    Except (Option (Gradient × AxisAlignedHyperRectangle))
      (AxisAlignedHyperRectangle × Gradient × Bool) → Prop
  | Except.error none => True
  | Except.error (some r) => r.1 = Gradient.new a.order_ ∧ (r.2 = a ∨ r.2 = a.Reset)
  | Except.ok st =>
    (st.2.2 = false → st.1 = a ∧ st.2.1 = Gradient.new a.order_) ∧
    (st.2.1.value = 0 → st.2.1 = Gradient.new a.order_ ∧ st.1 = a)

/-- The box `b'` has the bounds of the box `b` shifted by `delta` along the axis `a` (its
stored gradient is not constrained). -/
def IsShift (b b' : AxisAlignedHyperRectangle) (a : Nat) (delta : Int) : Prop :=
  b'.order_ = b.order_ ∧ WF b' ∧
  ∀ j, j < b.order_ →
    b'.min_.coord j = b.min_.coord j + (if j = a then delta else 0) ∧
    b'.max_.coord j = b.max_.coord j + (if j = a then delta else 0)

instance (b b' : AxisAlignedHyperRectangle) (a : Nat) (delta : Int) :
    Decidable (IsShift b b' a delta) := by
  unfold IsShift WF; infer_instance

/-- Evaluating `B(1) - B(0)`, `B(2) - B(1)`, ... in order with the trend-aware `operator-`
(flag `gResetOnStrideChange` on): the value of `B(i)` after the evaluation of `B(i) - B(i-1)`,
which has stored a gradient in it; `none` when an evaluation aborted. -/
def trendRun (Bs : Nat → AxisAlignedHyperRectangle) : Nat → Option AxisAlignedHyperRectangle
  | 0 => some (Bs 0)
  | i + 1 =>
    match trendRun Bs i with
    | none => none
    | some prev => (minus true (Bs (i + 1)) prev).map Prod.snd

end AxisAlignedHyperRectangle


/-! ## Consumer-based tile-shape inference -/

/-- Modelled from the spec: `problem::EinsumId`, a "stable einsum identifier" (the type is
declared outside the sources). -/
abbrev EinsumId := Nat

/-- Modelled from the spec: `problem::DataSpaceId`, the identifier of a tensor. -/
abbrev DataSpaceId := Nat

/-- Modelled from the spec: the operations consumed from the relational set/map library
(`isl`, not among the sources) on the type `M` of maps and the type `S` of sets: "map
composition, intersection, domain/range restriction, reversal, and coalescing", the set
difference, the input-dimensionality query, and the "prior tile" projection
`isl::MapToPriorData`. -/
structure IslOps (M S : Type) where
  apply_range : M → M → M
  reverse : M → M
  intersect_range : M → S → M
  intersect : M → M → M
  subtract : M → M → M
  coalesce : M → M
  dim_in : M → Nat
  MapToPriorData : Nat → Nat → M

/-- Modelled from the spec: the part of `problem::FusedWorkload` (declared outside the
sources) that the inference consumes: "enumerate tensors read by an einsum; get a tensor's
unique writer einsum (optional); get read/write access relations between an einsum and a
tensor; get an einsum's legal iteration-space bound". -/
structure FusedWorkload (M S : Type) where
  TensorsReadByEinsum : EinsumId → List DataSpaceId
  WriterEinsum : DataSpaceId → Option EinsumId
  ReadAccesses : EinsumId → DataSpaceId → M
  WriteAccesses : EinsumId → DataSpaceId → M
  EinsumOspaceBound : EinsumId → S

/-- The tiling-assignment table `std::map<problem::EinsumId, isl::map>`: `none` where the map
has no entry. -/
abbrev TilingInfo (M : Type) := EinsumId → Option M

/-- The statement `tiling_info.at(e) = m` on an existing entry. -/
def TilingInfo.assign {M : Type} (t : TilingInfo M) (e : EinsumId) (m : M) : TilingInfo M :=
  fun x => if x = e then some m else t x

/-- How a run of the inference ends: the queue drained (with the final table), an exception
was thrown (`std::map::at` on a missing entry), or the fuel of the model ran out. -/
inductive Outcome (M : Type) where
  | finished : TilingInfo M → Outcome M
  | threw : Outcome M
  | outOfFuel : Outcome M

/-- The body of the loop over the tensors read by `einsum`, on the state
`(tiling_info, queue)`; `none` when `tiling_info.at` throws. `tiling` is a reference to the
entry of `einsum`, so it is read from the current table. -/
def tensorStep {M S : Type} (ops : IslOps M S) (workload : FusedWorkload M S)
    (dspace_to_reuse_level : DataSpaceId → Option Nat) (einsums : List EinsumId)
    (einsum : EinsumId) (st : TilingInfo M × List EinsumId) (tensor : DataSpaceId) :
    Option (TilingInfo M × List EinsumId) :=
  match workload.WriterEinsum tensor with
  | none => some st   -- Not an intermediate tensor
  | some prod_einsum =>
    if ¬ einsums.contains prod_einsum then some st   -- Not in this fusion set
    else
      match st.1 einsum with
      | none => none
      | some tiling =>
        let read_accesses := workload.ReadAccesses einsum tensor
        let required_data := ops.apply_range tiling read_accesses
        let computed_data :=
          match dspace_to_reuse_level tensor with
          | none => required_data
          | some reuse_level =>
            let shifter := ops.MapToPriorData (ops.dim_in tiling) reuse_level
            let buffered_data := ops.apply_range shifter required_data
            ops.coalesce (ops.subtract required_data buffered_data)
        let producer_write_dep := workload.WriteAccesses prod_einsum tensor
        let required_ops := ops.apply_range computed_data (ops.reverse producer_write_dep)
        let required_ops :=
          ops.intersect_range required_ops (workload.EinsumOspaceBound prod_einsum)
        -- WARNING: mutation!
        match st.1 prod_einsum with
        | none => none   -- tiling_info.at(prod_einsum) throws
        | some prod_tiling =>
          some (st.1.assign prod_einsum (ops.intersect prod_tiling required_ops),
                st.2 ++ [prod_einsum])

/-- The function `ConsumerBasedTileShapeInference`, as the `while` loop over the queue, run
for at most `fuel` iterations from the table `tiling_info` and the queue `queue`. -/
def inferLoop {M S : Type} (ops : IslOps M S) (workload : FusedWorkload M S)
    (dspace_to_reuse_level : DataSpaceId → Option Nat) (einsums : List EinsumId) :
    Nat → TilingInfo M → List EinsumId → Outcome M
  | _, tiling_info, [] => Outcome.finished tiling_info
  | 0, _, _ :: _ => Outcome.outOfFuel
  | fuel + 1, tiling_info, einsum :: queue =>
    match tiling_info einsum with
    | none => Outcome.threw   -- tiling_info.at(einsum) throws
    | some _ =>
      match (workload.TensorsReadByEinsum einsum).foldlM
          (tensorStep ops workload dspace_to_reuse_level einsums einsum)
          (tiling_info, queue) with
      | none => Outcome.threw
      | some st => inferLoop ops workload dspace_to_reuse_level einsums fuel st.1 st.2

/-- The function `ConsumerBasedTileShapeInference`: the loop started from the queue
`{tiled_einsum}`. -/
def ConsumerBasedTileShapeInference {M S : Type} (ops : IslOps M S)
    (tiling_info : TilingInfo M) (dspace_to_reuse_level : DataSpaceId → Option Nat)
    (einsums : List EinsumId) (workload : FusedWorkload M S) (tiled_einsum : EinsumId)
    (fuel : Nat) : Outcome M :=
  inferLoop ops workload dspace_to_reuse_level einsums fuel tiling_info [tiled_einsum]

/-! ### Specification-level notions for the inference -/

/-- The writer of `tensor`, when it has one and the writer is in the fusion set. -/
def inFusionWriter {M S : Type} (workload : FusedWorkload M S) (einsums : List EinsumId)
    (tensor : DataSpaceId) : Option EinsumId :=
  match workload.WriterEinsum tensor with
  | none => none
  | some p => if einsums.contains p then some p else none

/-- The in-fusion-set writers of the tensors read by `e`, in the order of the tensors: the
producers that a visit of `e` enqueues. -/
def producers {M S : Type} (workload : FusedWorkload M S) (einsums : List EinsumId)
    (e : EinsumId) : List EinsumId :=
  (workload.TensorsReadByEinsum e).filterMap (inFusionWriter workload einsums)

/-- The einsums that the propagation started at `start` can visit. -/
inductive Reach {M S : Type} (workload : FusedWorkload M S) (einsums : List EinsumId)
    (start : EinsumId) : EinsumId → Prop where
  | start : Reach workload einsums start start
  | step (e p : EinsumId) : Reach workload einsums start e →
      p ∈ producers workload einsums e → Reach workload einsums start p

/-- The number of visits that one visit of `e` causes, itself included, when no chain of
producers from `e` is longer than `n`. -/
def visitCost {M S : Type} (workload : FusedWorkload M S) (einsums : List EinsumId) :
    Nat → EinsumId → Nat
  | 0, _ => 1
  | n + 1, e => 1 + ((producers workload einsums e).map (visitCost workload einsums n)).sum

/-- Modelled from the spec: the relational library on relations between integer tuples, with
maps as binary relations and sets as predicates: composition, reversal, range restriction,
intersection and difference have their set-theoretic meaning and coalescing does not change
the relation. The input dimensionality and the prior-tile projection are not described by
the specification and are parameters. -/
def relOps (dim_in : (Point → Point → Prop) → Nat)
    (MapToPriorData : Nat → Nat → Point → Point → Prop) :
    IslOps (Point → Point → Prop) (Point → Prop) where
  apply_range := fun m r x z => ∃ y, m x y ∧ r y z
  reverse := fun m x y => m y x
  intersect_range := fun m s x y => m x y ∧ s y
  intersect := fun m r x y => m x y ∧ r x y
  subtract := fun m r x y => m x y ∧ ¬ r x y
  coalesce := fun m => m
  dim_in := dim_in
  MapToPriorData := MapToPriorData

/-- The producer/consumer relation between einsums: `p` is an in-fusion-set writer of a
tensor read by `c`. -/
def IsProducer {M S : Type} (workload : FusedWorkload M S) (einsums : List EinsumId)
    (p c : EinsumId) : Prop :=
  p ∈ producers workload einsums c

/-! ### A two-stage pipeline for concrete runs -/

/-- A two-stage fused pipeline: the consumer einsum `1` reads the tensor `0`, which the
producer einsum `0` writes; maps and sets carry no information. -/
def twoStage : FusedWorkload Unit Unit where
  TensorsReadByEinsum := fun e => if e = 1 then [0] else []
  WriterEinsum := fun tensor => if tensor = 0 then some 0 else none
  ReadAccesses := fun _ _ => ()
  WriteAccesses := fun _ _ => ()
  EinsumOspaceBound := fun _ => ()

/-- The trivial operations on maps and sets that carry no information. -/
def unitOps : IslOps Unit Unit where
  apply_range := fun _ _ => ()
  reverse := fun _ => ()
  intersect_range := fun _ _ => ()
  intersect := fun _ _ => ()
  subtract := fun _ _ => ()
  coalesce := fun _ => ()
  dim_in := fun _ => 0
  MapToPriorData := fun _ _ => ()

/-- The two-stage pipeline over relations between integer tuples: the consumer einsum `1`
reads the tensor `0` at the coordinate of its iteration, the producer einsum `0` writes it
with the identity, and the producer's legal iterations are `[0, 3)`. -/
def twoStageRel : FusedWorkload (Point → Point → Prop) (Point → Prop) where
  TensorsReadByEinsum := fun e => if e = 1 then [0] else []
  WriterEinsum := fun tensor => if tensor = 0 then some 0 else none
  ReadAccesses := fun _ _ i x => x = i
  WriteAccesses := fun _ _ i x => x = i
  EinsumOspaceBound := fun _ i => ∃ k : Int, i = [k] ∧ 0 ≤ k ∧ k < 3
/-! ## Basic facts about points and boxes -/

namespace Point

theorem coord_setCoord (p : Point) (d j : Nat) (v : Int) :
    (p.setCoord d v).coord j = if d = j ∧ d < p.length then v else p.coord j := by
  unfold coord setCoord
  by_cases h : d = j
  · subst h
    by_cases hd : d < p.length
    · simp [List.getD_eq_getElem?_getD, hd]
    · have : p.length ≤ d := by omega
      simp [List.getD_eq_getElem?_getD, hd, List.set_eq_of_length_le this]
  · simp [List.getD_eq_getElem?_getD, h, List.getElem?_set_ne h]

theorem length_setCoord (p : Point) (d : Nat) (v : Int) :
    (p.setCoord d v).length = p.length := by
  simp [setCoord]

theorem coord_zero (n d : Nat) : (Point.zero n).coord d = 0 := by
  unfold coord zero
  by_cases h : d < n
  · simp [List.getD_eq_getElem?_getD, List.getElem?_replicate, h]
  · simp [List.getD_eq_getElem?_getD, List.getElem?_replicate, h]

theorem coord_map_range (f : Nat → Int) (n d : Nat) (h : d < n) :
    Point.coord ((List.range n).map f) d = f d := by
  unfold coord
  simp [List.getD_eq_getElem?_getD, List.getElem?_map, List.getElem?_range h]

end Point

namespace AxisAlignedHyperRectangle

theorem containsLoop_iff (a : AxisAlignedHyperRectangle) (p : Point) (l : List Nat) :
    containsLoop a p l = true ↔
      ∀ r ∈ l, a.min_.coord r ≤ p.coord r ∧ p.coord r < a.max_.coord r := by
  induction l with
  | nil => simp [containsLoop]
  | cons r l ih =>
    unfold containsLoop
    split
    · rename_i h
      simp only [List.mem_cons, forall_eq_or_imp]
      constructor
      · intro hf; exact absurd hf (by simp)
      · rintro ⟨h1, -⟩; omega
    · rename_i h
      rw [ih]
      simp only [List.mem_cons, forall_eq_or_imp]
      constructor
      · intro hl; exact ⟨by omega, hl⟩
      · rintro ⟨-, hl⟩; exact hl

theorem Contains_eq_some_true (a : AxisAlignedHyperRectangle) (p : Point) :
    a.Contains p = some true ↔ p.length = a.order_ ∧ inBox a p := by
  unfold Contains inBox Point.Order
  by_cases h : p.length = a.order_
  · simp [h, containsLoop_iff]
  · simp [h]

theorem Contains_eq_some_false (a : AxisAlignedHyperRectangle) (p : Point) :
    a.Contains p = some false ↔ p.length = a.order_ ∧ ¬ inBox a p := by
  unfold Contains Point.Order
  by_cases h : p.length = a.order_
  · have := containsLoop_iff a p (List.range a.order_)
    simp only [List.mem_range] at this
    unfold inBox
    rw [← this]
    simp [h]
  · simp [h]

theorem noOverlapLoop_iff (a b : AxisAlignedHyperRectangle) (l : List Nat) :
    noOverlapLoop a b l = true ↔
      ∃ r ∈ l, a.max_.coord r ≤ b.min_.coord r ∨ b.max_.coord r ≤ a.min_.coord r := by
  induction l with
  | nil => simp [noOverlapLoop]
  | cons r l ih =>
    unfold noOverlapLoop
    split
    · rename_i h
      simp only [List.mem_cons, exists_eq_or_imp, true_iff]
      exact Or.inl h
    · rename_i h
      rw [ih]
      simp only [List.mem_cons, exists_eq_or_imp]
      constructor
      · intro hl; exact Or.inr hl
      · rintro (h1 | hl)
        · exact absurd h1 h
        · exact hl

theorem foldl_range'_mul (f : Nat → Int) (k : Nat) (init : Int) :
    (List.range' 1 k).foldl (fun sz i => sz * f i) init
      = init * ∏ i ∈ Finset.range k, f (i + 1) := by
  induction k generalizing init with
  | zero => simp
  | succ k ih =>
    rw [List.range'_concat, List.foldl_append, ih, Finset.prod_range_succ]
    simp only [List.foldl_cons, List.foldl_nil]
    have : 1 + 1 * k = k + 1 := by omega
    rw [this]; ring

theorem volume_eq_vol (a : AxisAlignedHyperRectangle) (h : 0 < a.order_) :
    a.volume = vol a := by
  unfold volume vol
  rw [foldl_range'_mul (fun i => a.max_.coord i - a.min_.coord i)]
  obtain ⟨n, hn⟩ : ∃ n, a.order_ = n + 1 := ⟨a.order_ - 1, by omega⟩
  rw [hn, Finset.prod_range_succ']
  simp only [Nat.add_sub_cancel]
  ring

/-- Reducing after every multiplication gives the product reduced once. -/
theorem foldl_mul_emod (f : Nat → Int) (m : Int) (l : List Nat) (init : Int) :
    l.foldl (fun sz i => (sz * f i) % m) (init % m)
      = (l.foldl (fun sz i => sz * f i) init) % m := by
  induction l generalizing init with
  | nil => rfl
  | cons i l ih =>
    simp only [List.foldl_cons]
    have h : init % m * f i % m = init * f i % m := by
      rw [Int.mul_emod, Int.emod_emod, ← Int.mul_emod]
    rw [← ih (init * f i), h]

/-- The method `size()` returns the volume modulo `2^64`. -/
theorem size_eq_volume_emod (a : AxisAlignedHyperRectangle) : a.size = a.volume % 2 ^ 64 := by
  unfold size volume
  exact foldl_mul_emod (fun i => a.max_.coord i - a.min_.coord i) (2 ^ 64) _ _

theorem size_eq_zero_of_volume_eq_zero (a : AxisAlignedHyperRectangle) (h : a.volume = 0) :
    a.size = 0 := by
  rw [size_eq_volume_emod, h]; rfl

theorem volume_ne_zero_of_size_ne_zero (a : AxisAlignedHyperRectangle) (h : a.size ≠ 0) :
    a.volume ≠ 0 :=
  fun hv => h (size_eq_zero_of_volume_eq_zero a hv)

/-- A box whose volume lies strictly between `0` and `2^64` has `size()` equal to its
volume. -/
theorem size_eq_volume_of_lt (a : AxisAlignedHyperRectangle) (h0 : 0 ≤ a.volume)
    (h1 : a.volume < 2 ^ 64) : a.size = a.volume := by
  rw [size_eq_volume_emod]
  exact Int.emod_eq_of_lt h0 h1

/-- A non-empty box whose volume is below `2^64` has a non-zero `size()`. -/
theorem size_ne_zero_of_volume_lt (a : AxisAlignedHyperRectangle) (h0 : 0 < a.volume)
    (h1 : a.volume < 2 ^ 64) : a.size ≠ 0 := by
  rw [size_eq_volume_of_lt a (le_of_lt h0) h1]
  exact ne_of_gt h0

/-- The sizes of the boxes of a list add up, modulo `2^64`, to the sum of their volumes. -/
theorem sum_map_size_emod (l : List AxisAlignedHyperRectangle) :
    (l.map size).sum % 2 ^ 64 = (l.map volume).sum % 2 ^ 64 := by
  induction l with
  | nil => rfl
  | cons x l ih =>
    simp only [List.map_cons, List.sum_cons]
    rw [Int.add_emod, ih, size_eq_volume_emod, Int.emod_emod, ← Int.add_emod]

end AxisAlignedHyperRectangle

namespace AxisAlignedHyperRectangle

theorem msState_succ (a b : AxisAlignedHyperRectangle) (k : Nat) :
    msState a b (k + 1) = multiSubtractStep b (msState a b k) k := by
  unfold msState
  rw [List.range_succ, List.foldl_append]
  rfl

@[simp] theorem setMin_order (x : AxisAlignedHyperRectangle) (k : Nat) (v : Int) :
    (x.setMin k v).order_ = x.order_ := rfl
@[simp] theorem setMax_order (x : AxisAlignedHyperRectangle) (k : Nat) (v : Int) :
    (x.setMax k v).order_ = x.order_ := rfl
@[simp] theorem setMin_max (x : AxisAlignedHyperRectangle) (k : Nat) (v : Int) :
    (x.setMin k v).max_ = x.max_ := rfl
@[simp] theorem setMax_min (x : AxisAlignedHyperRectangle) (k : Nat) (v : Int) :
    (x.setMax k v).min_ = x.min_ := rfl
@[simp] theorem setMin_gradient (x : AxisAlignedHyperRectangle) (k : Nat) (v : Int) :
    (x.setMin k v).gradient_ = x.gradient_ := rfl
@[simp] theorem setMax_gradient (x : AxisAlignedHyperRectangle) (k : Nat) (v : Int) :
    (x.setMax k v).gradient_ = x.gradient_ := rfl

theorem setMin_min_coord (x : AxisAlignedHyperRectangle) (k i : Nat) (v : Int) :
    (x.setMin k v).min_.coord i = if k = i ∧ k < x.min_.length then v else x.min_.coord i := by
  simp [setMin, Point.coord_setCoord]

theorem setMax_max_coord (x : AxisAlignedHyperRectangle) (k i : Nat) (v : Int) :
    (x.setMax k v).max_.coord i = if k = i ∧ k < x.max_.length then v else x.max_.coord i := by
  simp [setMax, Point.coord_setCoord]

@[simp] theorem setMin_min_length (x : AxisAlignedHyperRectangle) (k : Nat) (v : Int) :
    (x.setMin k v).min_.length = x.min_.length := by
  simp [setMin, Point.length_setCoord]

@[simp] theorem setMax_max_length (x : AxisAlignedHyperRectangle) (k : Nat) (v : Int) :
    (x.setMax k v).max_.length = x.max_.length := by
  simp [setMax, Point.length_setCoord]

/-- Two boxes of the same order that agree off the axis `k` have volumes that differ only by
the factor of the axis `k`. -/
theorem vol_of_agree (x y : AxisAlignedHyperRectangle) (k : Nat) (hk : k < x.order_)
    (ho : y.order_ = x.order_)
    (h : ∀ i, i < x.order_ → i ≠ k →
      y.min_.coord i = x.min_.coord i ∧ y.max_.coord i = x.max_.coord i) :
    vol y = (y.max_.coord k - y.min_.coord k) *
      ∏ i ∈ (Finset.range x.order_).erase k, (x.max_.coord i - x.min_.coord i) := by
  unfold vol
  rw [ho, ← Finset.mul_prod_erase (Finset.range x.order_) _ (Finset.mem_range.mpr hk)]
  congr 1
  apply Finset.prod_congr rfl
  intro i hi
  rw [Finset.mem_erase, Finset.mem_range] at hi
  obtain ⟨h1, h2⟩ := h i hi.2 hi.1
  rw [h1, h2]

end AxisAlignedHyperRectangle

namespace AxisAlignedHyperRectangle

theorem setMin_setMin (x : AxisAlignedHyperRectangle) (k : Nat) (v w : Int) :
    (x.setMin k v).setMin k w = x.setMin k w := by
  simp [setMin, Point.setCoord, List.set_set]

theorem multiSubtractStep_snd (b : AxisAlignedHyperRectangle)
    (st : AxisAlignedHyperRectangle × List AxisAlignedHyperRectangle) (k : Nat) :
    (multiSubtractStep b st k).2 =
      st.2 ++ (if st.1.min_.coord k < b.min_.coord k
                then [st.1.setMax k (b.min_.coord k)] else [])
           ++ (if b.max_.coord k < st.1.max_.coord k
                then [st.1.setMin k (b.max_.coord k)] else []) := by
  unfold multiSubtractStep
  by_cases h1 : st.1.min_.coord k < b.min_.coord k <;>
  by_cases h2 : b.max_.coord k < st.1.max_.coord k <;>
  simp [h1, h2, setMin_setMin]

theorem multiSubtractStep_fst (b : AxisAlignedHyperRectangle)
    (st : AxisAlignedHyperRectangle × List AxisAlignedHyperRectangle) (k : Nat) :
    (multiSubtractStep b st k).1.order_ = st.1.order_ ∧
    (multiSubtractStep b st k).1.min_.length = st.1.min_.length ∧
    (multiSubtractStep b st k).1.max_.length = st.1.max_.length ∧
    (multiSubtractStep b st k).1.gradient_ = st.1.gradient_ ∧
    (∀ i, (multiSubtractStep b st k).1.min_.coord i =
      if k = i ∧ k < st.1.min_.length ∧ st.1.min_.coord k < b.min_.coord k
      then b.min_.coord k else st.1.min_.coord i) ∧
    (∀ i, (multiSubtractStep b st k).1.max_.coord i =
      if k = i ∧ k < st.1.max_.length ∧ b.max_.coord k < st.1.max_.coord k
      then b.max_.coord k else st.1.max_.coord i) := by
  unfold multiSubtractStep
  by_cases h1 : st.1.min_.coord k < b.min_.coord k <;>
  by_cases h2 : b.max_.coord k < st.1.max_.coord k <;>
  simp [h1, h2, setMin_min_coord, setMax_max_coord]

end AxisAlignedHyperRectangle

namespace AxisAlignedHyperRectangle

theorem MSInv.inBox_middle {a b : AxisAlignedHyperRectangle} {k : Nat}
    {st : AxisAlignedHyperRectangle × List AxisAlignedHyperRectangle}
    (h : MSInv a b k st) (p : Point) :
    inBox st.1 p ↔ inBox a p ∧
      ∀ i, i < k → i < a.order_ → b.min_.coord i ≤ p.coord i ∧ p.coord i < b.max_.coord i := by
  unfold inBox
  rw [h.ord]
  constructor
  · intro H
    refine ⟨fun i hi => ?_, fun i hik hi => ?_⟩
    · have Hi := H i hi
      rw [h.cmin i hi, h.cmax i hi] at Hi
      split_ifs at Hi <;> omega
    · have Hi := H i hi
      rw [h.cmin i hi, h.cmax i hi, if_pos hik, if_pos hik] at Hi
      omega
  · rintro ⟨H1, H2⟩ i hi
    rw [h.cmin i hi, h.cmax i hi]
    have Hi := H1 i hi
    split_ifs with hik
    · have := H2 i hik hi
      omega
    · exact Hi

theorem inBox_setMax_iff (x : AxisAlignedHyperRectangle) (k : Nat) (v : Int) (p : Point)
    (hk : k < x.order_) (hl : x.max_.length = x.order_) (hv : v ≤ x.max_.coord k) :
    inBox (x.setMax k v) p ↔ inBox x p ∧ p.coord k < v := by
  unfold inBox
  simp only [setMax_order, setMax_min, setMax_max_coord]
  constructor
  · intro H
    have Hk := H k hk
    simp only [hl, hk, and_self, if_true] at Hk
    refine ⟨fun i hi => ?_, Hk.2⟩
    have Hi := H i hi
    by_cases hik : k = i
    · subst hik; omega
    · simpa [hik] using Hi
  · rintro ⟨H, hp⟩ i hi
    have Hi := H i hi
    by_cases hik : k = i
    · subst hik; simp only [hl, hk, and_self, if_true]; omega
    · simpa [hik] using Hi

theorem inBox_setMin_iff (x : AxisAlignedHyperRectangle) (k : Nat) (v : Int) (p : Point)
    (hk : k < x.order_) (hl : x.min_.length = x.order_) (hv : x.min_.coord k ≤ v) :
    inBox (x.setMin k v) p ↔ inBox x p ∧ v ≤ p.coord k := by
  unfold inBox
  simp only [setMin_order, setMin_max, setMin_min_coord]
  constructor
  · intro H
    have Hk := H k hk
    simp only [hl, hk, and_self, if_true] at Hk
    refine ⟨fun i hi => ?_, Hk.1⟩
    have Hi := H i hi
    by_cases hik : k = i
    · subst hik; omega
    · simpa [hik] using Hi
  · rintro ⟨H, hp⟩ i hi
    have Hi := H i hi
    by_cases hik : k = i
    · subst hik; simp only [hl, hk, and_self, if_true]; omega
    · simpa [hik] using Hi

end AxisAlignedHyperRectangle

namespace AxisAlignedHyperRectangle

theorem MSInv_step (a b : AxisAlignedHyperRectangle) (k : Nat)
    (st : AxisAlignedHyperRectangle × List AxisAlignedHyperRectangle)
    (hk : k < a.order_)
    (hov : b.min_.coord k < a.max_.coord k ∧ a.min_.coord k < b.max_.coord k)
    (hb : b.min_.coord k ≤ b.max_.coord k)
    (h : MSInv a b k st) : MSInv a b (k + 1) (multiSubtractStep b st k) := by
  have hmk : st.1.min_.coord k = a.min_.coord k := by
    rw [h.cmin k hk, if_neg (lt_irrefl k)]
  have hMk : st.1.max_.coord k = a.max_.coord k := by
    rw [h.cmax k hk, if_neg (lt_irrefl k)]
  have hk1 : k < st.1.order_ := by rw [h.ord]; exact hk
  have hl1 : st.1.min_.length = st.1.order_ := by rw [h.ord, h.lmin]
  have hl2 : st.1.max_.length = st.1.order_ := by rw [h.ord, h.lmax]
  obtain ⟨fo, fl1, fl2, -, fmin, fmax⟩ := multiSubtractStep_fst b st k
  have hL : ∀ p, inBox (st.1.setMax k (b.min_.coord k)) p ↔
      inBox st.1 p ∧ p.coord k < b.min_.coord k :=
    fun p => inBox_setMax_iff st.1 k _ p hk1 hl2 (by omega)
  have hR : ∀ p, inBox (st.1.setMin k (b.max_.coord k)) p ↔
      inBox st.1 p ∧ b.max_.coord k ≤ p.coord k :=
    fun p => inBox_setMin_iff st.1 k _ p hk1 hl1 (by omega)
  have hmem : ∀ x, x ∈ (multiSubtractStep b st k).2 ↔
      x ∈ st.2 ∨ (st.1.min_.coord k < b.min_.coord k ∧ x = st.1.setMax k (b.min_.coord k)) ∨
        (b.max_.coord k < st.1.max_.coord k ∧ x = st.1.setMin k (b.max_.coord k)) := by
    intro x
    rw [multiSubtractStep_snd]
    by_cases h1 : st.1.min_.coord k < b.min_.coord k <;>
    by_cases h2 : b.max_.coord k < st.1.max_.coord k <;>
    simp [h1, h2]
  have hold : ∀ x ∈ st.2, ∀ p, inBox x p → ¬ inBox st.1 p := by
    intro x hx p hxp hmp
    obtain ⟨-, i, hik, hni⟩ := h.sound x hx p hxp
    exact hni (((h.inBox_middle p).1 hmp).2 i hik (by omega))
  refine ⟨fo.trans h.ord, fl1.trans h.lmin, fl2.trans h.lmax, ?_, ?_, ?_, ?_, ?_, ?_, ?_⟩
  · -- cmin
    intro i hi
    rw [fmin i, h.lmin]
    by_cases hik : k = i
    · subst hik
      rw [hmk]
      simp only [hk, true_and, Nat.lt_succ_self, if_true]
      split_ifs <;> omega
    · simp only [hik, false_and, if_false]
      rw [h.cmin i hi]
      by_cases hlt : i < k
      · rw [if_pos hlt, if_pos (by omega)]
      · rw [if_neg hlt, if_neg (by omega)]
  · -- cmax
    intro i hi
    rw [fmax i, h.lmax]
    by_cases hik : k = i
    · subst hik
      rw [hMk]
      simp only [hk, true_and, Nat.lt_succ_self, if_true]
      split_ifs <;> omega
    · simp only [hik, false_and, if_false]
      rw [h.cmax i hi]
      by_cases hlt : i < k
      · rw [if_pos hlt, if_pos (by omega)]
      · rw [if_neg hlt, if_neg (by omega)]
  · -- rord
    intro x hx
    rcases (hmem x).1 hx with hx | ⟨-, rfl⟩ | ⟨-, rfl⟩
    · exact h.rord x hx
    · exact h.ord
    · exact h.ord
  · -- sound
    intro x hx p hxp
    rcases (hmem x).1 hx with hx | ⟨-, rfl⟩ | ⟨-, rfl⟩
    · obtain ⟨h1, i, hik, hni⟩ := h.sound x hx p hxp
      exact ⟨h1, i, by omega, hni⟩
    · obtain ⟨h1, h2⟩ := (hL p).1 hxp
      exact ⟨((h.inBox_middle p).1 h1).1, k, by omega, by omega⟩
    · obtain ⟨h1, h2⟩ := (hR p).1 hxp
      exact ⟨((h.inBox_middle p).1 h1).1, k, by omega, by omega⟩
  · -- complete
    intro p hap hex
    by_cases hold' : ∃ i, i < k ∧
        ¬ (b.min_.coord i ≤ p.coord i ∧ p.coord i < b.max_.coord i)
    · obtain ⟨x, hx, hxp⟩ := h.complete p hap hold'
      exact ⟨x, (hmem x).2 (Or.inl hx), hxp⟩
    · have hall : ∀ i, i < k → i < a.order_ →
          b.min_.coord i ≤ p.coord i ∧ p.coord i < b.max_.coord i := by
        intro i hik _
        by_contra hc
        exact hold' ⟨i, hik, hc⟩
      have hmp : inBox st.1 p := (h.inBox_middle p).2 ⟨hap, hall⟩
      obtain ⟨i, hik, hni⟩ := hex
      have hik' : i = k := by
        by_contra hc
        exact hold' ⟨i, by omega, hni⟩
      subst hik'
      have hpk := hap i hk
      by_cases hlow : p.coord i < b.min_.coord i
      · exact ⟨_, (hmem _).2 (Or.inr (Or.inl ⟨by omega, rfl⟩)), (hL p).2 ⟨hmp, hlow⟩⟩
      · have hhigh : b.max_.coord i ≤ p.coord i := by omega
        exact ⟨_, (hmem _).2 (Or.inr (Or.inr ⟨by omega, rfl⟩)), (hR p).2 ⟨hmp, hhigh⟩⟩
  · -- disj
    rw [multiSubtractStep_snd]
    by_cases h1 : st.1.min_.coord k < b.min_.coord k <;>
    by_cases h2 : b.max_.coord k < st.1.max_.coord k <;>
    simp only [h1, h2, if_true, if_false, List.append_nil, List.pairwise_append,
      List.pairwise_singleton, List.mem_append, List.mem_singleton, true_and,
      forall_eq, and_true]
    · refine ⟨⟨h.disj, ?_⟩, ?_⟩
      · intro x hx p hp
        exact hold x hx p hp.1 ((hL p).1 hp.2).1
      · rintro x (hx | rfl) p hp
        · exact hold x hx p hp.1 ((hR p).1 hp.2).1
        · have := ((hL p).1 hp.1).2
          have := ((hR p).1 hp.2).2
          omega
    · refine ⟨h.disj, ?_⟩
      intro x hx p hp
      exact hold x hx p hp.1 ((hL p).1 hp.2).1
    · refine ⟨h.disj, ?_⟩
      intro x hx p hp
      exact hold x hx p hp.1 ((hR p).1 hp.2).1
    · exact h.disj
  · -- volsum
    have hvm := vol_of_agree st.1 st.1 k hk1 rfl (fun i _ _ => ⟨rfl, rfl⟩)
    have hvL := vol_of_agree st.1 (st.1.setMax k (b.min_.coord k)) k hk1 rfl (by
      intro i _ hik
      refine ⟨rfl, ?_⟩
      rw [setMax_max_coord, if_neg (by rintro ⟨h', -⟩; exact hik h'.symm)])
    have hvR := vol_of_agree st.1 (st.1.setMin k (b.max_.coord k)) k hk1 rfl (by
      intro i _ hik
      refine ⟨?_, rfl⟩
      rw [setMin_min_coord, if_neg (by rintro ⟨h', -⟩; exact hik h'.symm)])
    have hvN := vol_of_agree st.1 (multiSubtractStep b st k).1 k hk1 fo (by
      intro i _ hik
      rw [fmin i, fmax i, if_neg (by rintro ⟨h', -⟩; exact hik h'.symm),
        if_neg (by rintro ⟨h', -⟩; exact hik h'.symm)]
      exact ⟨rfl, rfl⟩)
    rw [setMax_max_coord, setMax_min] at hvL
    rw [setMin_min_coord, setMin_max] at hvR
    rw [fmin k, fmax k] at hvN
    simp only [hl1, hl2, hk1, true_and, and_self, if_true] at hvL hvR hvN
    have hsum := h.volsum
    rw [hvN, multiSubtractStep_snd]
    rw [hvm] at hsum
    rw [← hsum]
    by_cases h1 : st.1.min_.coord k < b.min_.coord k <;>
    by_cases h2 : b.max_.coord k < st.1.max_.coord k <;>
    simp only [h1, h2, if_true, if_false, List.append_nil, List.map_append, List.sum_append,
      List.map_cons, List.map_nil, List.sum_cons, List.sum_nil, hvL, hvR] <;>
    ring

end AxisAlignedHyperRectangle

namespace AxisAlignedHyperRectangle

theorem MSInv_zero (a b : AxisAlignedHyperRectangle) (ha : WF a) : MSInv a b 0 (a, []) := by
  refine ⟨rfl, ha.1, ha.2, ?_, ?_, ?_, ?_, ?_, ?_, ?_⟩
  · intro i _; simp
  · intro i _; simp
  · intro x hx; simp at hx
  · intro x hx; simp at hx
  · rintro p - ⟨i, hi, -⟩; omega
  · exact List.Pairwise.nil
  · simp

theorem MSInv_msState (a b : AxisAlignedHyperRectangle) (ha : WF a)
    (hov : ∀ i, i < a.order_ →
      b.min_.coord i < a.max_.coord i ∧ a.min_.coord i < b.max_.coord i)
    (hb : ∀ i, i < a.order_ → b.min_.coord i ≤ b.max_.coord i) :
    ∀ k, k ≤ a.order_ → MSInv a b k (msState a b k) := by
  intro k
  induction k with
  | zero => intro _; exact MSInv_zero a b ha
  | succ k ih =>
    intro hk
    rw [msState_succ]
    exact MSInv_step a b k _ (by omega) (hov k (by omega)) (hb k (by omega)) (ih (by omega))

/-- When the quick check of `MultiSubtract` finds no rank without overlap, the two ranges
overlap strictly on every rank. -/
theorem overlap_of_noOverlapLoop (a b : AxisAlignedHyperRectangle)
    (h : ¬ noOverlapLoop a b (List.range a.order_) = true) :
    ∀ i, i < a.order_ →
      b.min_.coord i < a.max_.coord i ∧ a.min_.coord i < b.max_.coord i := by
  intro i hi
  rw [noOverlapLoop_iff] at h
  by_contra hc
  exact h ⟨i, List.mem_range.mpr hi, by omega⟩

theorem MultiSubtract_of_overlap (a b : AxisAlignedHyperRectangle)
    (h : ¬ noOverlapLoop a b (List.range a.order_) = true) :
    a.MultiSubtract b = (msState a b a.order_).2 := by
  unfold MultiSubtract msState
  rw [if_neg h]

theorem MultiSubtract_of_noOverlap (a b : AxisAlignedHyperRectangle)
    (h : noOverlapLoop a b (List.range a.order_) = true) :
    a.MultiSubtract b = [a] := by
  unfold MultiSubtract
  rw [if_pos h]

theorem intersection_order (a b : AxisAlignedHyperRectangle) :
    (intersection a b).order_ = a.order_ := rfl

theorem intersection_min_coord (a b : AxisAlignedHyperRectangle) (i : Nat)
    (hi : i < a.order_) :
    (intersection a b).min_.coord i = max (a.min_.coord i) (b.min_.coord i) := by
  unfold intersection
  simp only
  rw [Point.coord_map_range _ _ _ hi]

theorem intersection_max_coord (a b : AxisAlignedHyperRectangle) (i : Nat)
    (hi : i < a.order_) :
    (intersection a b).max_.coord i =
      max (max (a.min_.coord i) (b.min_.coord i)) (min (a.max_.coord i) (b.max_.coord i)) := by
  unfold intersection
  simp only
  rw [Point.coord_map_range _ _ _ hi]

/-- The box `intersection a b` holds exactly the points that lie in both `a` and `b`. -/
theorem Contains_intersection (a b : AxisAlignedHyperRectangle) (ho : b.order_ = a.order_)
    (p : Point) :
    (intersection a b).Contains p = some true ↔
      a.Contains p = some true ∧ b.Contains p = some true := by
  simp only [Contains_eq_some_true, intersection_order, ho]
  unfold inBox
  rw [intersection_order, ho]
  constructor
  · rintro ⟨hl, H⟩
    refine ⟨⟨hl, fun i hi => ?_⟩, ⟨hl, fun i hi => ?_⟩⟩ <;>
    · have Hi := H i hi
      rw [intersection_min_coord a b i hi, intersection_max_coord a b i hi] at Hi
      omega
  · rintro ⟨⟨hl, H1⟩, ⟨-, H2⟩⟩
    refine ⟨hl, fun i hi => ?_⟩
    have := H1 i hi
    have := H2 i hi
    rw [intersection_min_coord a b i hi, intersection_max_coord a b i hi]
    omega

theorem volume_of_order_zero (a : AxisAlignedHyperRectangle) (ha : WF a) (h : a.order_ = 0) :
    a.volume = 0 := by
  have h1 : a.min_ = [] := List.length_eq_zero.mp (by rw [ha.1, h])
  have h2 : a.max_ = [] := List.length_eq_zero.mp (by rw [ha.2, h])
  unfold volume
  rw [h, h1, h2]
  simp [Point.coord]

theorem size_of_order_zero (a : AxisAlignedHyperRectangle) (ha : WF a) (h : a.order_ = 0) :
    a.size = 0 :=
  size_eq_zero_of_volume_eq_zero a (volume_of_order_zero a ha h)

end AxisAlignedHyperRectangle

namespace AxisAlignedHyperRectangle

theorem addState_succ (a s : AxisAlignedHyperRectangle) (e : Bool) (k : Nat) :
    addState a s e (k + 1) = (addState a s e k).bind (fun st => addStep s e st k) := by
  unfold addState
  rw [List.range_succ, List.foldlM_append]
  cases h : List.foldlM (addStep s e) (a, false) (List.range k) with
  | none => rfl
  | some st =>
    simp only [Option.bind_eq_bind, Option.some_bind, List.foldlM_cons, List.foldlM_nil]
    cases addStep s e st k <;> rfl

theorem addState_none_mono (a s : AxisAlignedHyperRectangle) (e : Bool) (k m : Nat)
    (hkm : k ≤ m) (h : addState a s e k = none) : addState a s e m = none := by
  induction m with
  | zero =>
    have : k = 0 := by omega
    rw [← this]; exact h
  | succ m ih =>
    by_cases hk : k = m + 1
    · rw [← hk]; exact h
    · rw [addState_succ, ih (by omega)]; rfl

theorem AddInv_zero (a s : AxisAlignedHyperRectangle) (ha : WF a) : AddInv a s 0 (a, false) := by
  refine ⟨rfl, ha.1, ha.2, rfl, ?_, ?_, ?_⟩
  · intro i _; simp
  · intro i _; simp
  · simp

/-- What an iteration of the loop of `Add` that does not abort does to the state. -/
theorem addStep_some (s : AxisAlignedHyperRectangle) (e : Bool) (k : Nat)
    (st st' : AxisAlignedHyperRectangle × Bool) (hl1 : k < st.1.min_.length)
    (hl2 : k < st.1.max_.length)
    (hak : st.1.min_.coord k ≤ st.1.max_.coord k) (hsk : s.min_.coord k ≤ s.max_.coord k)
    (h : addStep s e st k = some st') :
    st'.1.order_ = st.1.order_ ∧ st'.1.min_.length = st.1.min_.length ∧
    st'.1.max_.length = st.1.max_.length ∧ st'.1.gradient_ = st.1.gradient_ ∧
    (∀ i, st'.1.min_.coord i =
      if k = i then min (st.1.min_.coord k) (s.min_.coord k) else st.1.min_.coord i) ∧
    (∀ i, st'.1.max_.coord i =
      if k = i then max (st.1.max_.coord k) (s.max_.coord k) else st.1.max_.coord i) ∧
    (st'.2 = true ↔ (st.2 = true ∨ Extends st.1 s k)) ∧
    (Touches st.1 s k ∨ e = true) ∧ ¬ (Extends st.1 s k ∧ st.2 = true) := by
  unfold addStep at h
  unfold Extends Touches
  by_cases hT : s.max_.coord k ≥ st.1.min_.coord k ∧ st.1.max_.coord k ≥ s.min_.coord k
  · by_cases c1 : s.min_.coord k < st.1.min_.coord k <;>
    by_cases c2 : s.max_.coord k > st.1.max_.coord k <;>
    by_cases hf : st.2 = true <;>
    simp only [hT, c1, c2, hf, and_self, if_true, if_false, Bool.false_eq_true,
      Option.some.injEq, reduceCtorEq] at h <;>
    subst h <;>
    simp only [setMin_order, setMax_order, setMin_min_length, setMax_max_length, setMin_max,
      setMax_min, setMin_gradient, setMax_gradient, setMin_min_coord, setMax_max_coord, hl1, hl2,
      and_true, true_and, hT, c1, c2, hf, or_true, true_or, or_false, false_or, not_true,
      not_false_eq_true, and_false, false_and, Bool.false_eq_true, iff_false, true_iff,
      iff_true] <;>
    (first
      | done
      | (refine ⟨fun i => ?_, fun i => ?_⟩ <;>
          (by_cases hik : k = i
           · subst hik; simp only [if_true]; omega
           · simp only [hik, if_false])))
  · have hE : s.min_.coord k < st.1.min_.coord k ∨ s.max_.coord k > st.1.max_.coord k := by
      omega
    by_cases c1 : s.max_.coord k < st.1.min_.coord k <;>
    by_cases hf : st.2 = true <;>
    cases e <;>
    simp only [hT, c1, hf, if_true, if_false, Bool.false_eq_true, Bool.not_true, Bool.not_false,
      Option.some.injEq, reduceCtorEq] at h <;>
    subst h <;>
    simp only [setMin_order, setMax_order, setMin_min_length, setMax_max_length, setMin_max,
      setMax_min, setMin_gradient, setMax_gradient, setMin_min_coord, setMax_max_coord, hl1, hl2,
      and_true, true_and, hT, c1, hE, hf, or_true, true_or, or_false, false_or, not_true,
      not_false_eq_true, and_false, false_and, Bool.false_eq_true, iff_false, true_iff,
      iff_true] <;>
    (first
      | done
      | (refine ⟨fun i => ?_, fun i => ?_⟩ <;>
          (by_cases hik : k = i
           · subst hik; simp only [if_true]; omega
           · simp only [hik, if_false])))

end AxisAlignedHyperRectangle

namespace AxisAlignedHyperRectangle

/-- When an iteration of the loop of `Add` aborts. -/
theorem addStep_eq_none_iff (s : AxisAlignedHyperRectangle) (e : Bool) (k : Nat)
    (st : AxisAlignedHyperRectangle × Bool) :
    addStep s e st k = none ↔
      (¬ Touches st.1 s k ∧ e = false) ∨ ((Extends st.1 s k ∨ ¬ Touches st.1 s k) ∧ st.2 = true) := by
  unfold addStep Extends Touches
  by_cases hT : s.max_.coord k ≥ st.1.min_.coord k ∧ st.1.max_.coord k ≥ s.min_.coord k
  · by_cases c1 : s.min_.coord k < st.1.min_.coord k <;>
    by_cases c2 : s.max_.coord k > st.1.max_.coord k <;>
    by_cases hf : st.2 = true <;>
    simp [hT, c1, c2, hf]
  · by_cases hf : st.2 = true <;>
    cases e <;>
    simp [hT, hf]

theorem AddInv_step (a s : AxisAlignedHyperRectangle) (e : Bool) (k : Nat)
    (st st' : AxisAlignedHyperRectangle × Bool) (hk : k < a.order_)
    (hak : a.min_.coord k ≤ a.max_.coord k) (hsk : s.min_.coord k ≤ s.max_.coord k)
    (h : AddInv a s k st) (hst : addStep s e st k = some st') :
    AddInv a s (k + 1) st' ∧ (Touches a s k ∨ e = true) ∧
      ¬ (Extends a s k ∧ ∃ d, d < k ∧ Extends a s d) := by
  have hmk : st.1.min_.coord k = a.min_.coord k := by
    rw [h.cmin k hk, if_neg (lt_irrefl k)]
  have hMk : st.1.max_.coord k = a.max_.coord k := by
    rw [h.cmax k hk, if_neg (lt_irrefl k)]
  obtain ⟨fo, fl1, fl2, fg, fmin, fmax, ff, fT, fE⟩ :=
    addStep_some s e k st st' (by rw [h.lmin]; exact hk) (by rw [h.lmax]; exact hk)
      (by rw [hmk, hMk]; exact hak) hsk hst
  have hE : Extends st.1 s k ↔ Extends a s k := by unfold Extends; rw [hmk, hMk]
  have hT : Touches st.1 s k ↔ Touches a s k := by unfold Touches; rw [hmk, hMk]
  refine ⟨⟨fo.trans h.ord, fl1.trans h.lmin, fl2.trans h.lmax, fg.trans h.grad, ?_, ?_, ?_⟩,
    ?_, ?_⟩
  · intro i hi
    rw [fmin i]
    by_cases hik : k = i
    · subst hik
      rw [if_pos rfl, if_pos (Nat.lt_succ_self _), hmk]
    · rw [if_neg hik, h.cmin i hi]
      by_cases hlt : i < k
      · rw [if_pos hlt, if_pos (by omega)]
      · rw [if_neg hlt, if_neg (by omega)]
  · intro i hi
    rw [fmax i]
    by_cases hik : k = i
    · subst hik
      rw [if_pos rfl, if_pos (Nat.lt_succ_self _), hMk]
    · rw [if_neg hik, h.cmax i hi]
      by_cases hlt : i < k
      · rw [if_pos hlt, if_pos (by omega)]
      · rw [if_neg hlt, if_neg (by omega)]
  · rw [ff, h.found, hE]
    constructor
    · rintro (⟨d, hd, hEd⟩ | hEk)
      · exact ⟨d, by omega, hEd⟩
      · exact ⟨k, by omega, hEk⟩
    · rintro ⟨d, hd, hEd⟩
      by_cases hdk : d = k
      · subst hdk; exact Or.inr hEd
      · exact Or.inl ⟨d, by omega, hEd⟩
  · rw [← hT]; exact fT
  · rw [← hE, ← h.found]; exact fE

/-- Whenever the loop of `Add` has reached the dimension `k` without aborting, its state
satisfies the invariant, the ranges touched on every earlier dimension unless extrusion is on,
and `s` reached beyond `a` on at most one earlier dimension. -/
theorem addState_inv (a s : AxisAlignedHyperRectangle) (e : Bool) (ha : WF a)
    (hao : Ordered a) (hso : ∀ d, d < a.order_ → s.min_.coord d ≤ s.max_.coord d) :
    ∀ k, k ≤ a.order_ → ∀ st, addState a s e k = some st →
      AddInv a s k st ∧ (∀ d, d < k → Touches a s d ∨ e = true) ∧
      (∀ d1 d2, d1 < d2 → d2 < k → ¬ (Extends a s d1 ∧ Extends a s d2)) := by
  intro k
  induction k with
  | zero =>
    intro _ st hst
    unfold addState at hst
    simp only [List.range_zero, List.foldlM_nil, Option.pure_def, Option.some.injEq] at hst
    subst hst
    exact ⟨AddInv_zero a s ha, fun d hd => absurd hd (by omega),
      fun d1 d2 _ hd => absurd hd (by omega)⟩
  | succ k ih =>
    intro hk st' hst'
    rw [addState_succ] at hst'
    cases hprev : addState a s e k with
    | none => rw [hprev] at hst'; simp at hst'
    | some st =>
      rw [hprev] at hst'
      simp only [Option.some_bind] at hst'
      obtain ⟨hinv, hT, hE⟩ := ih (by omega) st hprev
      obtain ⟨hinv', hTk, hEk⟩ :=
        AddInv_step a s e k st st' (by omega) (hao k (by omega)) (hso k (by omega)) hinv hst'
      refine ⟨hinv', ?_, ?_⟩
      · intro d hd
        by_cases hdk : d = k
        · subst hdk; exact hTk
        · exact hT d (by omega)
      · intro d1 d2 h12 h2 hc
        by_cases hdk : d2 = k
        · subst hdk; exact hEk ⟨hc.2, d1, h12, hc.1⟩
        · exact hE d1 d2 h12 (by omega) hc

/-- The loop of `Add` runs through when the ranges touch on every dimension (or extrusion is
on) and `s` reaches beyond `a` on at most one dimension. -/
theorem addState_some (a s : AxisAlignedHyperRectangle) (e : Bool) (ha : WF a)
    (hao : Ordered a) (hso : ∀ d, d < a.order_ → s.min_.coord d ≤ s.max_.coord d)
    (hT : ∀ d, d < a.order_ → Touches a s d ∨ e = true)
    (hE : ∀ d1 d2, d1 < d2 → d2 < a.order_ → ¬ (Extends a s d1 ∧ Extends a s d2)) :
    ∀ k, k ≤ a.order_ → ∃ st, addState a s e k = some st := by
  intro k
  induction k with
  | zero => intro _; exact ⟨(a, false), rfl⟩
  | succ k ih =>
    intro hk
    obtain ⟨st, hst⟩ := ih (by omega)
    obtain ⟨hinv, -, -⟩ := addState_inv a s e ha hao hso k (by omega) st hst
    have hmk : st.1.min_.coord k = a.min_.coord k := by
      rw [hinv.cmin k (by omega), if_neg (lt_irrefl k)]
    have hMk : st.1.max_.coord k = a.max_.coord k := by
      rw [hinv.cmax k (by omega), if_neg (lt_irrefl k)]
    have hE' : Extends st.1 s k ↔ Extends a s k := by unfold Extends; rw [hmk, hMk]
    have hT' : Touches st.1 s k ↔ Touches a s k := by unfold Touches; rw [hmk, hMk]
    rw [addState_succ, hst]
    simp only [Option.some_bind]
    cases hstep : addStep s e st k with
    | some st' => exact ⟨st', rfl⟩
    | none =>
      exfalso
      rw [addStep_eq_none_iff, hE', hT', hinv.found] at hstep
      have hak := hao k (by omega)
      have hsk := hso k (by omega)
      rcases hstep with ⟨hnT, he⟩ | ⟨hEk, d, hd, hEd⟩
      · rcases hT k (by omega) with h | h
        · exact hnT h
        · rw [he] at h; exact absurd h (by simp)
      · have hEk' : Extends a s k := by
          rcases hEk with h | h
          · exact h
          · unfold Touches at h; unfold Extends; omega
        exact hE d k hd (by omega) ⟨hEd, hEk'⟩

/-- The loop of `Add` aborts when `s` reaches beyond `a` on two dimensions. -/
theorem addState_none_of_two (a s : AxisAlignedHyperRectangle) (e : Bool) (ha : WF a)
    (hao : Ordered a) (hso : ∀ d, d < a.order_ → s.min_.coord d ≤ s.max_.coord d)
    (d1 d2 : Nat) (h12 : d1 < d2) (h2 : d2 < a.order_)
    (hE1 : Extends a s d1) (hE2 : Extends a s d2) :
    addState a s e a.order_ = none := by
  cases h : addState a s e a.order_ with
  | none => rfl
  | some st =>
    exfalso
    obtain ⟨-, -, hE⟩ := addState_inv a s e ha hao hso a.order_ (le_refl _) st h
    exact hE d1 d2 h12 h2 ⟨hE1, hE2⟩

end AxisAlignedHyperRectangle

namespace AxisAlignedHyperRectangle

theorem eqLoop_iff (a s : AxisAlignedHyperRectangle) (l : List Nat) :
    eqLoop a s l = true ↔
      ∀ d ∈ l, a.min_.coord d = s.min_.coord d ∧ a.max_.coord d = s.max_.coord d := by
  induction l with
  | nil => simp [eqLoop]
  | cons r l ih =>
    unfold eqLoop
    split
    · rename_i h
      simp only [List.mem_cons, forall_eq_or_imp]
      constructor
      · intro hf; exact absurd hf (by simp)
      · rintro ⟨h1, -⟩
        rcases h with h | h
        · exact absurd h1.1 h
        · exact absurd h1.2 h
    · rename_i h
      rw [ih]
      simp only [List.mem_cons, forall_eq_or_imp]
      push_neg at h
      exact ⟨fun hl => ⟨h, hl⟩, fun hl => hl.2⟩

theorem eq_eq_some_true (a s : AxisAlignedHyperRectangle) (ho : a.order_ = s.order_)
    (h : ∀ d, d < a.order_ → a.min_.coord d = s.min_.coord d ∧ a.max_.coord d = s.max_.coord d) :
    a.eq s = some true := by
  unfold eq
  rw [if_neg (by simpa using ho)]
  congr 1
  rw [eqLoop_iff]
  intro d hd
  exact h d (List.mem_range.mp hd)

theorem eq_eq_some_false (a s : AxisAlignedHyperRectangle) (ho : a.order_ = s.order_)
    (d : Nat) (hd : d < a.order_)
    (h : a.min_.coord d ≠ s.min_.coord d ∨ a.max_.coord d ≠ s.max_.coord d) :
    a.eq s = some false := by
  unfold eq
  rw [if_neg (by simpa using ho)]
  congr 1
  cases hl : eqLoop a s (List.range a.order_) with
  | false => rfl
  | true =>
    exfalso
    have := (eqLoop_iff a s _).1 hl d (List.mem_range.mpr hd)
    rcases h with h | h
    · exact h this.1
    · exact h this.2

/-- A box of non-zero volume has a positive order and a non-empty range on every axis. -/
theorem coord_ne_of_volume_ne_zero (a : AxisAlignedHyperRectangle) (ha : WF a)
    (h : a.volume ≠ 0) :
    0 < a.order_ ∧ ∀ d, d < a.order_ → a.min_.coord d ≠ a.max_.coord d := by
  have hpos : 0 < a.order_ := by
    by_contra hc
    exact h (volume_of_order_zero a ha (by omega))
  refine ⟨hpos, fun d hd heq => h ?_⟩
  rw [volume_eq_vol a hpos]
  unfold vol
  apply Finset.prod_eq_zero (Finset.mem_range.mpr hd)
  rw [heq]; ring

/-- A box of non-zero size has a positive order and a non-empty range on every axis. -/
theorem coord_ne_of_size_ne_zero (a : AxisAlignedHyperRectangle) (ha : WF a)
    (h : a.size ≠ 0) : 0 < a.order_ ∧ ∀ d, d < a.order_ → a.min_.coord d ≠ a.max_.coord d :=
  coord_ne_of_volume_ne_zero a ha (volume_ne_zero_of_size_ne_zero a h)

/-- A box of positive order with a non-empty range on every axis has a non-zero volume. -/
theorem volume_ne_zero_of_coord_ne (a : AxisAlignedHyperRectangle) (hpos : 0 < a.order_)
    (h : ∀ d, d < a.order_ → a.min_.coord d ≠ a.max_.coord d) : a.volume ≠ 0 := by
  rw [volume_eq_vol a hpos]
  unfold vol
  rw [Finset.prod_ne_zero_iff]
  intro d hd
  have := h d (Finset.mem_range.mp hd)
  omega

/-- The general case of `Add`: both boxes non-empty and not equal. -/
theorem Add_general (a s : AxisAlignedHyperRectangle) (e : Bool) (ho : a.order_ = s.order_)
    (ha : a.size ≠ 0) (hs : s.size ≠ 0) (heq : a.eq s = some false) :
    a.Add s e = (addState a s e a.order_).map Prod.fst := by
  unfold Add
  rw [if_neg (by simpa using ho), if_neg ha, if_neg hs, heq]

end AxisAlignedHyperRectangle

namespace AxisAlignedHyperRectangle

theorem subtractState_succ (a s : AxisAlignedHyperRectangle) (k : Nat) :
    subtractState a s (k + 1) =
      (subtractState a s k).bind (fun st => subtractStep a s st k) := by
  unfold subtractState
  rw [List.range_succ, List.foldlM_append]
  cases h : List.foldlM (subtractStep a s) (a, Gradient.new a.order_, false) (List.range k) with
  | error r => rfl
  | ok st =>
    simp only [List.foldlM_cons, List.foldlM_nil, Except.bind]
    show (subtractStep a s st k >>= pure) = _
    rw [bind_pure]

/-- Once the second loop of `Subtract` has left the function, later dimensions are not
looked at. -/
theorem subtractState_error_mono (a s : AxisAlignedHyperRectangle) (k m : Nat)
    (r : Option (Gradient × AxisAlignedHyperRectangle)) (hkm : k ≤ m)
    (h : subtractState a s k = Except.error r) : subtractState a s m = Except.error r := by
  induction m with
  | zero =>
    have : k = 0 := by omega
    rw [← this]; exact h
  | succ m ih =>
    by_cases hk : k = m + 1
    · rw [← hk]; exact h
    · rw [subtractState_succ, ih (by omega)]; rfl

/-- A dimension on which the bounds agree leaves the loop state of `Subtract` unchanged. -/
theorem subtractStep_same (a s : AxisAlignedHyperRectangle)
    (st : AxisAlignedHyperRectangle × Gradient × Bool) (k : Nat)
    (h : a.min_.coord k = s.min_.coord k ∧ a.max_.coord k = s.max_.coord k) :
    subtractStep a s st k = Except.ok st := by
  unfold subtractStep
  rw [if_neg (by rw [h.1, h.2]; simp)]

/-- Dimensions on which the bounds agree leave the loop state of `Subtract` unchanged. -/
theorem subtractState_same_range (a s : AxisAlignedHyperRectangle) (k m : Nat)
    (st : AxisAlignedHyperRectangle × Gradient × Bool) (hkm : k ≤ m)
    (hsame : ∀ i, k ≤ i → i < m →
      a.min_.coord i = s.min_.coord i ∧ a.max_.coord i = s.max_.coord i)
    (h : subtractState a s k = Except.ok st) : subtractState a s m = Except.ok st := by
  induction m with
  | zero =>
    have : k = 0 := by omega
    rw [← this]; exact h
  | succ m ih =>
    by_cases hk : k = m + 1
    · rw [← hk]; exact h
    · rw [subtractState_succ, ih (by omega) (fun i h1 h2 => hsame i h1 (by omega))]
      exact subtractStep_same a s st m (hsame m (by omega) (by omega))

theorem subtractState_zero (a s : AxisAlignedHyperRectangle) :
    subtractState a s 0 = Except.ok (a, Gradient.new a.order_, false) := rfl

theorem subtractNoOverlapLoop_iff (a s : AxisAlignedHyperRectangle) (l : List Nat) :
    subtractNoOverlapLoop a s l = true ↔
      ∃ r ∈ l, s.max_.coord r ≤ a.min_.coord r ∨ s.min_.coord r ≥ a.max_.coord r := by
  induction l with
  | nil => simp [subtractNoOverlapLoop]
  | cons r l ih =>
    unfold subtractNoOverlapLoop
    split
    · rename_i h
      simp only [List.mem_cons, exists_eq_or_imp, true_iff]
      exact Or.inl h
    · rename_i h
      rw [ih]
      simp only [List.mem_cons, exists_eq_or_imp]
      constructor
      · intro hl; exact Or.inr hl
      · rintro (h1 | hl)
        · exact absurd h1 h
        · exact hl

/-- The general case of `Subtract`: both boxes non-empty, not equal, and overlapping on every
dimension. -/
theorem Subtract_general (a s : AxisAlignedHyperRectangle) (ho : a.order_ = s.order_)
    (ha : a.size ≠ 0) (hs : s.size ≠ 0) (heq : a.eq s = some false)
    (hov : ∀ i, i < a.order_ →
      s.min_.coord i < a.max_.coord i ∧ a.min_.coord i < s.max_.coord i) :
    a.Subtract s =
      match subtractState a s a.order_ with
      | Except.error r => r
      | Except.ok (updated, gradient, found) =>
        if found then some (gradient, updated) else none := by
  have hno : ¬ subtractNoOverlapLoop a s (List.range a.order_) = true := by
    rw [subtractNoOverlapLoop_iff]
    rintro ⟨r, hr, h⟩
    have := hov r (List.mem_range.mp hr)
    omega
  unfold Subtract
  rw [if_neg (by simpa using ho), if_neg (by simp [ha, hs]), heq]
  simp only [hno, if_false, Bool.false_eq_true]

/-- The iteration of the second loop of `Subtract` at the first dimension on which the bounds
differ. -/
theorem subtractStep_first (a s : AxisAlignedHyperRectangle) (g : Gradient) (d : Nat)
    (hd1 : d < a.min_.length) (hd2 : d < a.max_.length)
    (hdiff : a.min_.coord d ≠ s.min_.coord d ∨ a.max_.coord d ≠ s.max_.coord d) :
    subtractStep a s (a, g, false) d =
      if s.min_.coord d ≤ a.min_.coord d then
        if s.max_.coord d < a.max_.coord d then
          Except.ok (a.setMin d (s.max_.coord d),
            { g with dimension := d, value := s.max_.coord d - a.min_.coord d }, true)
        else Except.error (some (Gradient.new a.order_, a.Reset))
      else
        if s.max_.coord d < a.max_.coord d then Except.error none
        else Except.ok (a.setMax d (s.min_.coord d),
            { g with dimension := d, value := s.min_.coord d - a.max_.coord d }, true) := by
  unfold subtractStep subtractFinish
  simp only [hdiff, if_true, Bool.false_eq_true, if_false, setMin_min_coord, setMax_max_coord,
    setMin_max, setMax_min, hd1, hd2, and_self]
  by_cases c1 : s.min_.coord d ≤ a.min_.coord d
  · by_cases c2 : s.max_.coord d ≤ a.max_.coord d
    · by_cases c3 : s.max_.coord d = a.max_.coord d
      · simp [c1, c2, c3]
      · have c4 : s.max_.coord d < a.max_.coord d := by omega
        simp [c1, c2, c3, c4]
    · have c4 : ¬ s.max_.coord d < a.max_.coord d := by omega
      simp [c1, c2, c4]
  · have c2 : s.min_.coord d > a.min_.coord d := by omega
    by_cases c3 : s.max_.coord d < a.max_.coord d
    · simp [c1, c2, c3]
    · have : ¬ a.min_.coord d = s.min_.coord d := by omega
      simp [c1, c2, c3, this]

end AxisAlignedHyperRectangle

namespace AxisAlignedHyperRectangle

/-- The result of `Subtract` when the boxes are non-empty, overlap on every dimension, and
their bounds differ on the dimension `d` only. -/
theorem Subtract_single (a s : AxisAlignedHyperRectangle) (d : Nat)
    (ha : WF a) (ho : a.order_ = s.order_) (hane : a.size ≠ 0) (hsne : s.size ≠ 0)
    (hd : d < a.order_)
    (hov : ∀ i, i < a.order_ →
      s.min_.coord i < a.max_.coord i ∧ a.min_.coord i < s.max_.coord i)
    (hsame : ∀ i, i < a.order_ → i ≠ d →
      a.min_.coord i = s.min_.coord i ∧ a.max_.coord i = s.max_.coord i)
    (hdiff : a.min_.coord d ≠ s.min_.coord d ∨ a.max_.coord d ≠ s.max_.coord d) :
    a.Subtract s =
      if s.min_.coord d ≤ a.min_.coord d then
        if s.max_.coord d < a.max_.coord d then
          some ({ Gradient.new a.order_ with
                  dimension := d, value := s.max_.coord d - a.min_.coord d },
                a.setMin d (s.max_.coord d))
        else some (Gradient.new a.order_, a.Reset)
      else
        if s.max_.coord d < a.max_.coord d then none
        else
          some ({ Gradient.new a.order_ with
                  dimension := d, value := s.min_.coord d - a.max_.coord d },
                a.setMax d (s.min_.coord d)) := by
  rw [Subtract_general a s ho hane hsne (eq_eq_some_false a s ho d hd hdiff) hov]
  have h0 : subtractState a s d = Except.ok (a, Gradient.new a.order_, false) :=
    subtractState_same_range a s 0 d _ (Nat.zero_le _)
      (fun i _ hi => hsame i (by omega) (by omega)) (subtractState_zero a s)
  have h1 : subtractState a s (d + 1) = subtractStep a s (a, Gradient.new a.order_, false) d := by
    rw [subtractState_succ, h0]; rfl
  rw [subtractStep_first a s _ d (by rw [ha.1]; exact hd) (by rw [ha.2]; exact hd) hdiff] at h1
  by_cases c1 : s.min_.coord d ≤ a.min_.coord d <;>
  by_cases c2 : s.max_.coord d < a.max_.coord d <;>
  simp only [c1, c2, if_true, if_false] at h1 ⊢
  · rw [subtractState_same_range a s (d + 1) a.order_ _ (by omega)
      (fun i h1 h2 => hsame i h2 (by omega)) h1]
    rfl
  · rw [subtractState_error_mono a s (d + 1) a.order_ _ (by omega) h1]
  · rw [subtractState_error_mono a s (d + 1) a.order_ _ (by omega) h1]
  · rw [subtractState_same_range a s (d + 1) a.order_ _ (by omega)
      (fun i h1 h2 => hsame i h2 (by omega)) h1]
    rfl

theorem Reset_min_coord (a : AxisAlignedHyperRectangle) (i : Nat) :
    a.Reset.min_.coord i = 0 := by
  unfold Reset; exact Point.coord_zero _ _

theorem Reset_max_coord (a : AxisAlignedHyperRectangle) (i : Nat) :
    a.Reset.max_.coord i = 0 := by
  unfold Reset; exact Point.coord_zero _ _

end AxisAlignedHyperRectangle

namespace AxisAlignedHyperRectangle

end AxisAlignedHyperRectangle

namespace AxisAlignedHyperRectangle

/-- Boxes of non-zero volume with ordered bounds have a non-empty range on every axis. -/
theorem lt_of_volume_ne_zero (a : AxisAlignedHyperRectangle) (ha : WF a) (hao : Ordered a)
    (h : a.volume ≠ 0) : ∀ i, i < a.order_ → a.min_.coord i < a.max_.coord i := by
  intro i hi
  have := (coord_ne_of_volume_ne_zero a ha h).2 i hi
  have := hao i hi
  omega

/-- Non-empty boxes with ordered bounds have a non-empty range on every axis. -/
theorem lt_of_size_ne_zero (a : AxisAlignedHyperRectangle) (ha : WF a) (hao : Ordered a)
    (h : a.size ≠ 0) : ∀ i, i < a.order_ → a.min_.coord i < a.max_.coord i :=
  lt_of_volume_ne_zero a ha hao (volume_ne_zero_of_size_ne_zero a h)

/-- The result of `Add` for non-empty boxes whose bounds differ on the axis `d` only and whose
ranges touch on that axis: the hull of the two boxes. -/
theorem Add_single (a s : AxisAlignedHyperRectangle) (e : Bool) (d : Nat)
    (ha : WF a) (ho : a.order_ = s.order_) (hao : Ordered a) (hso : Ordered s)
    (hane : a.size ≠ 0) (hsne : s.size ≠ 0) (hd : d < a.order_)
    (hsame : ∀ i, i < a.order_ → i ≠ d →
      a.min_.coord i = s.min_.coord i ∧ a.max_.coord i = s.max_.coord i)
    (hdiff : a.min_.coord d ≠ s.min_.coord d ∨ a.max_.coord d ≠ s.max_.coord d)
    (htouch : Touches a s d) :
    ∃ u, a.Add s e = some u ∧ u.order_ = a.order_ ∧ WF u ∧ u.gradient_ = a.gradient_ ∧
      (∀ i, i < a.order_ → u.min_.coord i = min (a.min_.coord i) (s.min_.coord i)) ∧
      (∀ i, i < a.order_ → u.max_.coord i = max (a.max_.coord i) (s.max_.coord i)) := by
  have hso' : ∀ i, i < a.order_ → s.min_.coord i ≤ s.max_.coord i :=
    fun i hi => hso i (by rw [← ho]; exact hi)
  have hneq : a.eq s = some false := eq_eq_some_false a s ho d hd hdiff
  have hT : ∀ i, i < a.order_ → Touches a s i ∨ e = true := by
    intro i hi
    by_cases hij : i = d
    · subst hij; exact Or.inl htouch
    · left
      have := hsame i hi hij
      have := hao i hi
      unfold Touches
      omega
  have hE : ∀ d1 d2, d1 < d2 → d2 < a.order_ → ¬ (Extends a s d1 ∧ Extends a s d2) := by
    rintro d1 d2 h12 h2 ⟨hE1, hE2⟩
    unfold Extends at hE1 hE2
    by_cases h1j : d1 = d
    · have := hsame d2 h2 (by omega)
      omega
    · have := hsame d1 (by omega) h1j
      omega
  obtain ⟨st, hst⟩ := addState_some a s e ha hao hso' hT hE a.order_ (le_refl _)
  obtain ⟨hinv, -, -⟩ := addState_inv a s e ha hao hso' a.order_ (le_refl _) st hst
  refine ⟨st.1, ?_, hinv.ord, ⟨by rw [hinv.lmin, hinv.ord], by rw [hinv.lmax, hinv.ord]⟩,
    hinv.grad, fun i hi => ?_, fun i hi => ?_⟩
  · rw [Add_general a s e ho hane hsne hneq, hst]; rfl
  · rw [hinv.cmin i hi, if_pos hi]
  · rw [hinv.cmax i hi, if_pos hi]

theorem foldl_mul_zero (f : Nat → Int) (l : List Nat) :
    l.foldl (fun sz i => sz * f i) 0 = 0 := by
  induction l with
  | nil => rfl
  | cons i l ih => simp only [List.foldl_cons, zero_mul, ih]

/-- The canonical empty box has volume zero. -/
theorem volume_Reset (a : AxisAlignedHyperRectangle) : a.Reset.volume = 0 := by
  unfold volume
  rw [Reset_min_coord, Reset_max_coord, sub_self]
  exact foldl_mul_zero _ _

theorem size_Reset (a : AxisAlignedHyperRectangle) : a.Reset.size = 0 :=
  size_eq_zero_of_volume_eq_zero _ (volume_Reset a)

end AxisAlignedHyperRectangle

namespace AxisAlignedHyperRectangle

/-- `Subtract` of a box with the same bounds: the canonical empty box and a zero gradient. -/
theorem Subtract_equal (a s : AxisAlignedHyperRectangle) (ho : a.order_ = s.order_)
    (hane : a.size ≠ 0) (hsne : s.size ≠ 0)
    (h : ∀ d, d < a.order_ → a.min_.coord d = s.min_.coord d ∧ a.max_.coord d = s.max_.coord d) :
    a.Subtract s = some (Gradient.new a.order_, a.Reset) := by
  unfold Subtract
  rw [if_neg (by simpa using ho), if_neg (by simp [hane, hsne]), eq_eq_some_true a s ho h]

/-- `Subtract` of a box that does not overlap on some dimension: nothing changes. -/
theorem Subtract_noOverlap (a s : AxisAlignedHyperRectangle) (ho : a.order_ = s.order_)
    (d : Nat) (hd : d < a.order_)
    (h : s.max_.coord d ≤ a.min_.coord d ∨ s.min_.coord d ≥ a.max_.coord d)
    (hlt : a.min_.coord d < a.max_.coord d ∨ s.min_.coord d < s.max_.coord d) :
    a.Subtract s = some (Gradient.new a.order_, a) := by
  unfold Subtract
  rw [if_neg (by simpa using ho)]
  by_cases hz : a.size = 0 ∨ s.size = 0
  · rw [if_pos hz]
  · rw [if_neg hz, eq_eq_some_false a s ho d hd (by omega)]
    have : subtractNoOverlapLoop a s (List.range a.order_) = true := by
      rw [subtractNoOverlapLoop_iff]
      exact ⟨d, List.mem_range.mpr hd, h⟩
    simp only [this, if_true]

/-- The trend-aware `operator-` in terms of the result of `Subtract`. -/
theorem minus_true_of_Subtract (a s : AxisAlignedHyperRectangle) (g : Gradient)
    (delta : AxisAlignedHyperRectangle) (h : a.Subtract s = some (g, delta)) :
    (minus true a s).map Prod.snd =
      some (if s.gradient_.value = 0 then { a with gradient_ := g }
        else if g.value = 0 ∧ delta.size = 0 then { a with gradient_ := g }
        else if s.gradient_.dimension = g.dimension ∧ s.gradient_.Sign = g.Sign then
          { a with gradient_ := g }
        else { a with gradient_ := Gradient.new a.order_ }) := by
  unfold minus
  simp only [h, if_true, Option.map_some']
  split_ifs <;> rfl

theorem Sign_pos (g : Gradient) (h : 0 < g.value) : g.Sign = 1 := by
  unfold Gradient.Sign
  rw [if_neg (by omega), if_neg (by omega)]

theorem Sign_neg (g : Gradient) (h : g.value < 0) : g.Sign = -1 := by
  unfold Gradient.Sign
  rw [if_pos h]

theorem Sign_zero (g : Gradient) (h : g.value = 0) : g.Sign = 0 := by
  unfold Gradient.Sign
  rw [if_neg (by omega), if_pos h]

end AxisAlignedHyperRectangle

namespace AxisAlignedHyperRectangle

/-- The value of `size()` depends on the order and the bounds only. -/
theorem size_congr (x y : AxisAlignedHyperRectangle) (ho : y.order_ = x.order_)
    (hmin : y.min_ = x.min_) (hmax : y.max_ = x.max_) : y.size = x.size := by
  unfold size
  rw [ho, hmin, hmax]

/-- A shifted box has the same `size()`. -/
theorem size_of_shift (b b' : AxisAlignedHyperRectangle) (a : Nat) (delta : Int)
    (hpos : 0 < b.order_) (h : IsShift b b' a delta) : b'.size = b.size := by
  obtain ⟨hord, -, hco⟩ := h
  rw [size_eq_volume_emod, size_eq_volume_emod, volume_eq_vol b hpos,
    volume_eq_vol b' (by omega)]
  congr 1
  unfold vol
  rw [hord]
  apply Finset.prod_congr rfl
  intro i hi
  have := hco i (Finset.mem_range.mp hi)
  omega

/-- The trend-aware difference of a box and its predecessor, when the box is the predecessor
shifted along the axis `a` by a non-zero offset smaller than the extent, and the predecessor
stores no gradient or one along `a` with the value this step computes: the step stores the
gradient along `a` whose value is the signed width of the overlap. -/
theorem minus_shift_step (s this : AxisAlignedHyperRectangle) (a : Nat) (delta : Int)
    (hlt : ∀ j, j < s.order_ → s.min_.coord j < s.max_.coord j)
    (hsz : s.size ≠ 0)
    (ha : a < s.order_) (hd0 : delta ≠ 0)
    (hsmall : -(s.max_.coord a - s.min_.coord a) < delta ∧
      delta < s.max_.coord a - s.min_.coord a)
    (hshift : IsShift s this a delta)
    (hg : s.gradient_.value = 0 ∨
      (s.gradient_.dimension = a ∧ s.gradient_.value =
        if 0 < delta then s.max_.coord a - s.min_.coord a - delta
        else -(s.max_.coord a - s.min_.coord a) - delta)) :
    (minus true this s).map Prod.snd =
      some { this with gradient_ :=
        { order := this.order_, dimension := a,
          value := if 0 < delta then s.max_.coord a - s.min_.coord a - delta
                   else -(s.max_.coord a - s.min_.coord a) - delta } } := by
  obtain ⟨hord, hwf, hco⟩ := hshift
  have hca := hco a ha
  simp only [if_true] at hca
  have hoff : ∀ i, i < this.order_ → i ≠ a →
      this.min_.coord i = s.min_.coord i ∧ this.max_.coord i = s.max_.coord i := by
    intro i hi hia
    have := hco i (by omega)
    simp only [hia, if_false, add_zero] at this
    exact this
  have hthis_ne : this.size ≠ 0 := by
    rw [size_of_shift s this a delta (by omega) ⟨hord, hwf, hco⟩]
    exact hsz
  have hs_ne : s.size ≠ 0 := hsz
  have hS := Subtract_single this s a hwf hord hthis_ne hs_ne (by omega)
    (by
      intro i hi
      by_cases hia : i = a
      · subst hia; omega
      · have := hoff i hi hia
        have := hlt i (by omega)
        omega)
    hoff (by omega)
  by_cases hpos : 0 < delta
  · rw [if_pos (by omega), if_pos (by omega)] at hS
    rw [minus_true_of_Subtract this s _ _ hS]
    simp only [hpos, if_true]
    have hval : s.max_.coord a - this.min_.coord a = s.max_.coord a - s.min_.coord a - delta := by
      omega
    rw [hval]
    rcases hg with h0 | ⟨hdim, hv⟩
    · rw [if_pos h0]; rfl
    · rw [if_pos hpos] at hv
      have hne : ¬ s.gradient_.value = 0 := by omega
      rw [if_neg hne, if_neg (by simp only [not_and]; intro h; omega)]
      rw [if_pos ⟨hdim, by rw [Sign_pos _ (by omega), Sign_pos _ (by simp only; omega)]⟩]
      rfl
  · rw [if_neg (by omega), if_neg (by omega)] at hS
    rw [minus_true_of_Subtract this s _ _ hS]
    simp only [hpos, if_false]
    have hval : s.min_.coord a - this.max_.coord a
        = -(s.max_.coord a - s.min_.coord a) - delta := by
      omega
    rw [hval]
    rcases hg with h0 | ⟨hdim, hv⟩
    · rw [if_pos h0]; rfl
    · rw [if_neg hpos] at hv
      have hne : ¬ s.gradient_.value = 0 := by omega
      rw [if_neg hne, if_neg (by simp only [not_and]; intro h; omega)]
      rw [if_pos ⟨hdim, by rw [Sign_neg _ (by omega), Sign_neg _ (by simp only; omega)]⟩]
      rfl

end AxisAlignedHyperRectangle

namespace AxisAlignedHyperRectangle

/-- The trend-aware difference of a box and its predecessor, when the predecessor stores a
non-zero gradient along the axis `a` and the box is the predecessor shifted along another
axis `b`: the stored gradient is reset to zero. -/
theorem minus_shift_break (s X : AxisAlignedHyperRectangle) (a b : Nat) (eps : Int)
    (hlt : ∀ j, j < s.order_ → s.min_.coord j < s.max_.coord j)
    (hsz : s.size ≠ 0)
    (hb : b < s.order_) (hab : b ≠ a)
    (hshift : IsShift s X b eps)
    (hg : s.gradient_.dimension = a ∧ s.gradient_.value ≠ 0) :
    ∃ delta X', minus true X s = some (delta, X') ∧ X'.gradient_ = Gradient.new X.order_ := by
  obtain ⟨hord, hwf, hco⟩ := hshift
  have hcb := hco b hb
  simp only [if_true] at hcb
  have hoff : ∀ i, i < X.order_ → i ≠ b →
      X.min_.coord i = s.min_.coord i ∧ X.max_.coord i = s.max_.coord i := by
    intro i hi hib
    have := hco i (by omega)
    simp only [hib, if_false, add_zero] at this
    exact this
  have hX_ne : X.size ≠ 0 := by
    rw [size_of_shift s X b eps (by omega) ⟨hord, hwf, hco⟩]
    exact hsz
  have hs_ne : s.size ≠ 0 := hsz
  have hltb := hlt b hb
  have hsign : s.gradient_.Sign ≠ 0 := by
    unfold Gradient.Sign
    split_ifs <;> omega
  have key : ∀ g delta, X.Subtract s = some (g, delta) →
      (g.value = 0 ∧ delta.size = 0 → g = Gradient.new X.order_) →
      (s.gradient_.dimension = g.dimension ∧ s.gradient_.Sign = g.Sign → False) →
      ∃ delta X', minus true X s = some (delta, X') ∧ X'.gradient_ = Gradient.new X.order_ := by
    intro g delta hS h2 h3
    have hm := minus_true_of_Subtract X s g delta hS
    rw [if_neg hg.2] at hm
    obtain ⟨⟨d', X'⟩, hpair, hX'⟩ := Option.map_eq_some'.mp hm
    refine ⟨d', X', hpair, ?_⟩
    simp only at hX'
    rw [hX']
    by_cases c2 : g.value = 0 ∧ delta.size = 0
    · rw [if_pos c2]; exact h2 c2
    · rw [if_neg c2, if_neg (fun h => h3 h)]
  by_cases h0 : eps = 0
  · -- the same box: the difference is empty and the gradient is zero
    have hS := Subtract_equal X s hord hX_ne hs_ne (by
      intro i hi
      by_cases hib : i = b
      · subst hib; omega
      · exact hoff i hi hib)
    exact key _ _ hS (fun _ => rfl) (fun h => hsign (by rw [h.2]; exact Sign_zero _ rfl))
  · by_cases hov : -(s.max_.coord b - s.min_.coord b) < eps ∧
        eps < s.max_.coord b - s.min_.coord b
    · -- the boxes overlap: `Subtract` computes a gradient along `b`
      have hS := Subtract_single X s b hwf hord hX_ne hs_ne (by omega)
        (by
          intro i hi
          by_cases hib : i = b
          · subst hib; omega
          · have := hoff i hi hib
            have := hlt i (by omega)
            omega)
        hoff (by omega)
      by_cases hpos : 0 < eps
      · rw [if_pos (by omega), if_pos (by omega)] at hS
        exact key _ _ hS (fun h => absurd h.1 (by simp only; omega))
          (fun h => hab (by rw [← hg.1, h.1]))
      · rw [if_neg (by omega), if_neg (by omega)] at hS
        exact key _ _ hS (fun h => absurd h.1 (by simp only; omega))
          (fun h => hab (by rw [← hg.1, h.1]))
    · -- the boxes do not overlap: `Subtract` changes nothing and returns a zero gradient
      have hS := Subtract_noOverlap X s hord b (by omega) (by omega) (Or.inr hltb)
      exact key _ _ hS (fun _ => rfl) (fun h => hsign (by rw [h.2]; exact Sign_zero _ rfl))

end AxisAlignedHyperRectangle

namespace AxisAlignedHyperRectangle

/-- The run of the trend-aware differences along a sequence of boxes, each the previous one
shifted by `delta` along the axis `a`: every evaluation completes, keeps the bounds of the
box, and from the first difference on stores the same gradient along `a`. -/
theorem trendRun_spec (Bs : Nat → AxisAlignedHyperRectangle) (n a : Nat) (delta : Int)
    (h0lt : ∀ j, j < (Bs 0).order_ → (Bs 0).min_.coord j < (Bs 0).max_.coord j)
    (h0sz : (Bs 0).size ≠ 0)
    (h0g : (Bs 0).gradient_.value = 0)
    (ha : a < (Bs 0).order_) (hd0 : delta ≠ 0)
    (hsmall : -((Bs 0).max_.coord a - (Bs 0).min_.coord a) < delta ∧
      delta < (Bs 0).max_.coord a - (Bs 0).min_.coord a)
    (hseq : ∀ i, i < n → IsShift (Bs i) (Bs (i + 1)) a delta) :
    ∀ i, i ≤ n → ∃ B', trendRun Bs i = some B' ∧
      B'.order_ = (Bs i).order_ ∧ B'.min_ = (Bs i).min_ ∧ B'.max_ = (Bs i).max_ ∧
      (Bs i).order_ = (Bs 0).order_ ∧ (Bs i).size ≠ 0 ∧
      (∀ j, j < (Bs 0).order_ → (Bs i).min_.coord j < (Bs i).max_.coord j) ∧
      (Bs i).max_.coord a - (Bs i).min_.coord a = (Bs 0).max_.coord a - (Bs 0).min_.coord a ∧
      (i = 0 → B'.gradient_.value = 0) ∧
      (0 < i → B'.gradient_.dimension = a ∧ B'.gradient_.value =
        if 0 < delta then (Bs 0).max_.coord a - (Bs 0).min_.coord a - delta
        else -((Bs 0).max_.coord a - (Bs 0).min_.coord a) - delta) := by
  intro i
  induction i with
  | zero =>
    intro _
    exact ⟨Bs 0, rfl, rfl, rfl, rfl, rfl, h0sz, h0lt, rfl, fun _ => h0g,
      fun h => absurd h (by omega)⟩
  | succ i ih =>
    intro hi
    obtain ⟨B', hrun, hBo, hBmin, hBmax, hord, hsz, hlt, hext, hg0, hgv⟩ := ih (by omega)
    have hsh := hseq i (by omega)
    have hsz1 : (Bs (i + 1)).size ≠ 0 := by
      rw [size_of_shift (Bs i) (Bs (i + 1)) a delta (by omega) hsh]
      exact hsz
    have hsh' : IsShift B' (Bs (i + 1)) a delta := by
      unfold IsShift at hsh ⊢
      rw [hBo, hBmin, hBmax]
      exact hsh
    obtain ⟨hord1, -, hco⟩ := hsh
    have hstep := minus_shift_step B' (Bs (i + 1)) a delta
      (by rw [hBo, hBmin, hBmax, hord]; exact hlt)
      (by rw [size_congr (Bs i) B' hBo hBmin hBmax]; exact hsz)
      (by rw [hBo, hord]; exact ha) hd0
      (by rw [hBmin, hBmax, hext]; exact hsmall) hsh'
      (by
        rw [hBmin, hBmax, hext]
        by_cases hi0 : i = 0
        · exact Or.inl (hg0 hi0)
        · exact Or.inr (hgv (by omega)))
    rw [hBmin, hBmax, hext] at hstep
    refine ⟨{ Bs (i + 1) with gradient_ :=
        { order := (Bs (i + 1)).order_, dimension := a,
          value := if 0 < delta then (Bs 0).max_.coord a - (Bs 0).min_.coord a - delta
                   else -((Bs 0).max_.coord a - (Bs 0).min_.coord a) - delta } },
      ?_, rfl, rfl, rfl, by rw [hord1, hord], hsz1, ?_, ?_, fun h => absurd h (by omega),
      fun _ => ⟨rfl, rfl⟩⟩
    · show (match trendRun Bs i with
        | none => none
        | some prev => (minus true (Bs (i + 1)) prev).map Prod.snd) = _
      rw [hrun]
      exact hstep
    · intro j hj
      have h1 := hco j (by rw [hord]; exact hj)
      have h2 := hlt j hj
      omega
    · have h1 := hco a (by rw [hord]; exact ha)
      simp only [if_true] at h1
      omega

end AxisAlignedHyperRectangle

namespace AxisAlignedHyperRectangle

/-- The box invariant says that the box is well formed and either every range is non-empty
or every range is empty. -/
theorem BoxInv_iff (a : AxisAlignedHyperRectangle) :
    BoxInv a ↔ WF a ∧ ((∀ d, d < a.order_ → a.min_.coord d < a.max_.coord d) ∨
      (∀ d, d < a.order_ → a.min_.coord d = a.max_.coord d)) := by
  constructor
  · rintro ⟨hwf, hord, hemp⟩
    refine ⟨hwf, ?_⟩
    by_cases hz : a.volume = 0
    · exact Or.inr (hemp hz)
    · exact Or.inl (lt_of_volume_ne_zero a hwf hord hz)
  · rintro ⟨hwf, h | h⟩
    · refine ⟨hwf, fun d hd => le_of_lt (h d hd), fun hz d hd => ?_⟩
      exfalso
      exact volume_ne_zero_of_coord_ne a (by omega) (fun i hi => ne_of_lt (h i hi)) hz
    · exact ⟨hwf, fun d hd => le_of_eq (h d hd), fun _ => h⟩

/-- The box invariant only looks at the order and the two corners. -/
theorem BoxInv_congr (a b : AxisAlignedHyperRectangle) (ho : b.order_ = a.order_)
    (hmin : b.min_ = a.min_) (hmax : b.max_ = a.max_) (h : BoxInv a) : BoxInv b := by
  rw [BoxInv_iff] at h ⊢
  unfold WF at h ⊢
  rw [ho, hmin, hmax]
  exact h

theorem BoxInv_Reset (a : AxisAlignedHyperRectangle) (ha : WF a) : BoxInv a.Reset := by
  rw [BoxInv_iff]
  refine ⟨?_, Or.inr (fun d _ => by rw [Reset_min_coord, Reset_max_coord])⟩
  unfold WF Reset Point.zero Point.Order
  simp only [List.length_replicate]
  exact ha

theorem BoxInv_new (n : Nat) : BoxInv (new n) := by
  unfold new
  apply BoxInv_Reset
  unfold WF Point.zero
  simp

theorem coord_map_succ (p : Point) (i : Nat) (hi : i < p.length) :
    Point.coord (p.map (fun c => c + 1)) i = p.coord i + 1 := by
  unfold Point.coord
  simp [List.getD_eq_getElem?_getD, List.getElem?_map, List.getElem?_eq_getElem hi]

theorem BoxInv_unit (a : AxisAlignedHyperRectangle) (p : Point) (hp : p.length = a.order_) :
    BoxInv { a with min_ := p, max_ := p.map (fun c => c + 1) } := by
  rw [BoxInv_iff]
  refine ⟨⟨hp, by simp only [List.length_map]; exact hp⟩, Or.inl (fun d hd => ?_)⟩
  simp only at hd ⊢
  rw [coord_map_succ p d (by omega)]
  omega

theorem BoxInv_newUnit (n : Nat) (p : Point) (x : AxisAlignedHyperRectangle)
    (h : newUnit n p = some x) : BoxInv x := by
  unfold newUnit at h
  by_cases hn : n = p.Order
  · rw [if_neg (by simpa using hn)] at h
    simp only [Option.some.injEq] at h
    subst h
    exact BoxInv_unit (new n) p (by unfold Point.Order at hn; rw [← hn]; rfl)
  · rw [if_pos hn] at h
    exact absurd h (by simp)

/-- The state of the loop of `Translate` after the dimensions `0 .. k-1`. -/
theorem translate_foldl (a : AxisAlignedHyperRectangle) (p : Point) (ha : WF a) (k : Nat)
    (hk : k ≤ a.order_) :
    ((List.range k).foldl (translateStep p) a).order_ = a.order_ ∧
    WF ((List.range k).foldl (translateStep p) a) ∧
    ((List.range k).foldl (translateStep p) a).gradient_ = a.gradient_ ∧
    ∀ i, ((List.range k).foldl (translateStep p) a).min_.coord i
          = a.min_.coord i + (if i < k then p.coord i else 0) ∧
         ((List.range k).foldl (translateStep p) a).max_.coord i
          = a.max_.coord i + (if i < k then p.coord i else 0) := by
  induction k with
  | zero => exact ⟨rfl, ha, rfl, fun i => by simp⟩
  | succ k ih =>
    obtain ⟨ho, hwf, hg, hc⟩ := ih (by omega)
    rw [List.range_succ, List.foldl_append]
    simp only [List.foldl_cons, List.foldl_nil]
    generalize (List.range k).foldl (translateStep p) a = t at ho hwf hg hc
    unfold translateStep
    refine ⟨ho, ⟨?_, ?_⟩, hg, fun i => ?_⟩
    · simp only [setMax_min, setMin_min_length, setMax_order, setMin_order]; exact hwf.1
    · simp only [setMax_max_length, setMin_max, setMax_order, setMin_order]; exact hwf.2
    · simp only [setMax_min, setMin_min_coord, setMax_max_coord, setMin_max]
      have h1 : k < t.min_.length := by rw [hwf.1, ho]; omega
      have h2 : k < t.max_.length := by rw [hwf.2, ho]; omega
      by_cases hik : k = i
      · subst hik
        simp only [h1, h2, and_self, if_true, Nat.lt_succ_self]
        rw [(hc k).1, (hc k).2]
        simp
      · simp only [hik, false_and, if_false]
        rw [(hc i).1, (hc i).2]
        by_cases hlt : i < k
        · simp only [hlt, if_true]
          rw [if_pos (by omega)]
          exact ⟨rfl, rfl⟩
        · simp only [hlt, if_false]
          rw [if_neg (by omega)]
          exact ⟨rfl, rfl⟩

theorem BoxInv_Translate (a : AxisAlignedHyperRectangle) (p : Point)
    (r : AxisAlignedHyperRectangle) (ha : BoxInv a) (h : a.Translate p = some r) :
    BoxInv r := by
  unfold Translate at h
  by_cases ho : a.order_ = p.Order
  · rw [if_neg (by simpa using ho)] at h
    simp only [Option.some.injEq] at h
    subst h
    rw [BoxInv_iff] at ha ⊢
    obtain ⟨hwf, hcases⟩ := ha
    obtain ⟨fo, fwf, -, fc⟩ := translate_foldl a p hwf a.order_ (le_refl _)
    refine ⟨fwf, ?_⟩
    rw [fo]
    rcases hcases with h | h
    · left; intro d hd
      rw [(fc d).1, (fc d).2]
      have := h d hd
      omega
    · right; intro d hd
      rw [(fc d).1, (fc d).2]
      have := h d hd
      omega
  · rw [if_pos ho] at h
    exact absurd h (by simp)

end AxisAlignedHyperRectangle

namespace AxisAlignedHyperRectangle

theorem empty_eq_true_iff (a : AxisAlignedHyperRectangle) : a.empty = true ↔ a.size = 0 := by
  unfold empty
  simp

/-- Lowering the minimum or raising the maximum of a non-empty box keeps the invariant. -/
theorem BoxInv_grow (a : AxisAlignedHyperRectangle) (ha : BoxInv a) (hne : a.size ≠ 0)
    (r : Nat) (v : Int) :
    (v ≤ a.min_.coord r → BoxInv (a.setMin r v)) ∧
    (a.max_.coord r ≤ v → BoxInv (a.setMax r v)) := by
  have hlt := lt_of_size_ne_zero a ha.1 ha.2.1 hne
  constructor
  · intro hv
    rw [BoxInv_iff]
    refine ⟨⟨by rw [setMin_min_length]; exact ha.1.1, ha.1.2⟩, Or.inl (fun d hd => ?_)⟩
    rw [setMin_min_coord, setMin_max]
    have := hlt d hd
    split_ifs with h
    · obtain ⟨rfl, -⟩ := h; omega
    · exact this
  · intro hv
    rw [BoxInv_iff]
    refine ⟨⟨ha.1.1, by rw [setMax_max_length]; exact ha.1.2⟩, Or.inl (fun d hd => ?_)⟩
    rw [setMax_max_coord, setMax_min]
    have := hlt d hd
    split_ifs with h
    · obtain ⟨rfl, -⟩ := h; omega
    · exact this

theorem BoxInv_MergeIfAdjacent (a : AxisAlignedHyperRectangle) (p : Point) (ok : Bool)
    (r : AxisAlignedHyperRectangle) (ha : BoxInv a)
    (h : a.MergeIfAdjacent p = some (ok, r)) : BoxInv r := by
  unfold MergeIfAdjacent at h
  by_cases ho : p.Order = a.order_
  · rw [if_neg (by simpa using ho)] at h
    by_cases he : a.empty = true
    · rw [if_pos he] at h
      simp only [Option.some.injEq, Prod.mk.injEq] at h
      rw [← h.2]
      exact BoxInv_unit a p ho
    · rw [if_neg he] at h
      have hne : a.size ≠ 0 := fun hz => he ((empty_eq_true_iff a).2 hz)
      have hg := BoxInv_grow a ha hne
      simp only at h
      split_ifs at h <;>
        simp only [Option.some.injEq, Prod.mk.injEq] at h <;>
        rw [← h.2]
      · exact (hg _ _).1 (by omega)
      · exact (hg _ _).2 (by omega)
      · exact ha
      · exact ha
  · rw [if_pos ho] at h
    exact absurd h (by simp)

/-- The hull computed by the loop of `Add` from two non-empty boxes satisfies the
invariant. -/
theorem BoxInv_Add (a s : AxisAlignedHyperRectangle) (e : Bool)
    (r : AxisAlignedHyperRectangle) (ha : BoxInv a) (hs : BoxInv s)
    (h : a.Add s e = some r) : BoxInv r := by
  unfold Add at h
  by_cases ho : a.order_ = s.order_
  · rw [if_neg (by simpa using ho)] at h
    by_cases haz : a.size = 0
    · rw [if_pos haz] at h
      simp only [Option.some.injEq] at h
      rw [← h]; exact hs
    · rw [if_neg haz] at h
      by_cases hsz : s.size = 0
      · rw [if_pos hsz] at h
        simp only [Option.some.injEq] at h
        rw [← h]; exact ha
      · rw [if_neg hsz] at h
        cases heq : a.eq s with
        | none => rw [heq] at h; exact absurd h (by simp)
        | some b =>
          rw [heq] at h
          cases b with
          | true =>
            simp only [Option.some.injEq] at h
            rw [← h]; exact ha
          | false =>
            simp only at h
            obtain ⟨st, hst, hr⟩ := Option.map_eq_some'.mp h
            have hso : ∀ d, d < a.order_ → s.min_.coord d ≤ s.max_.coord d :=
              fun d hd => hs.2.1 d (by rw [← ho]; exact hd)
            obtain ⟨hinv, -, -⟩ :=
              addState_inv a s e ha.1 ha.2.1 hso a.order_ (le_refl _) st hst
            have halt := lt_of_size_ne_zero a ha.1 ha.2.1 haz
            rw [← hr, BoxInv_iff]
            refine ⟨⟨by rw [hinv.lmin, hinv.ord], by rw [hinv.lmax, hinv.ord]⟩,
              Or.inl (fun d hd => ?_)⟩
            rw [hinv.ord] at hd
            rw [hinv.cmin d hd, hinv.cmax d hd, if_pos hd, if_pos hd]
            have := halt d hd
            omega
  · rw [if_pos ho] at h
    exact absurd h (by simp)

end AxisAlignedHyperRectangle

namespace AxisAlignedHyperRectangle

theorem SubOut_finish (a : AxisAlignedHyperRectangle) (k : Nat)
    (updated : AxisAlignedHyperRectangle) (g : Gradient)
    (h : updated.min_.coord k ≠ updated.max_.coord k → BoxInv updated) :
    SubOut a (subtractFinish a k updated g) := by
  unfold subtractFinish
  split_ifs with hc
  · exact Or.inr rfl
  · exact ⟨fun hf => absurd hf (by simp), h hc⟩

theorem SubOut_step (a s : AxisAlignedHyperRectangle) (k : Nat)
    (st : AxisAlignedHyperRectangle × Gradient × Bool)
    (ha : BoxInv a) (hne : a.size ≠ 0) (hk : k < a.order_)
    (h : SubOut a (Except.ok st)) : SubOut a (subtractStep a s st k) := by
  obtain ⟨hfa, hinv⟩ := h
  have hlt := lt_of_size_ne_zero a ha.1 ha.2.1 hne
  have hl1 : k < a.min_.length := by rw [ha.1.1]; exact hk
  have hl2 : k < a.max_.length := by rw [ha.1.2]; exact hk
  unfold subtractStep
  simp only []
  by_cases hdiff : a.min_.coord k ≠ s.min_.coord k ∨ a.max_.coord k ≠ s.max_.coord k
  · rw [if_pos hdiff]
    by_cases hf : st.2.2 = true
    · rw [if_pos hf]
      exact Or.inl rfl
    · rw [if_neg hf]
      have hst : st.1 = a := hfa (by simpa using hf)
      rw [hst]
      by_cases c1 : s.min_.coord k ≤ a.min_.coord k
      · rw [if_pos c1]
        by_cases c2 : s.max_.coord k ≤ a.max_.coord k
        · -- the lower part is removed
          rw [if_pos c2]
          apply SubOut_finish
          rw [setMin_min_coord, setMin_max]
          simp only [hl1, and_self, if_true]
          intro hcne
          rw [BoxInv_iff]
          refine ⟨⟨by rw [setMin_min_length]; exact ha.1.1, ha.1.2⟩, Or.inl (fun d hd => ?_)⟩
          rw [setMin_min_coord, setMin_max]
          have := hlt d hd
          split_ifs with h
          · obtain ⟨rfl, -⟩ := h; omega
          · exact this
        · -- everything is removed
          rw [if_neg c2]
          apply SubOut_finish
          rw [setMax_max_coord, setMax_min]
          simp only [hl2, and_self, if_true]
          intro hcne
          exact absurd rfl hcne
      · rw [if_neg c1]
        by_cases c2 : s.min_.coord k > a.min_.coord k
        · rw [if_pos c2]
          by_cases c3 : s.max_.coord k < a.max_.coord k
          · rw [if_pos c3]; trivial
          · -- the upper part is removed
            rw [if_neg c3]
            apply SubOut_finish
            rw [setMax_max_coord, setMax_min]
            simp only [hl2, and_self, if_true]
            intro _
            rw [BoxInv_iff]
            refine ⟨⟨ha.1.1, by rw [setMax_max_length]; exact ha.1.2⟩,
              Or.inl (fun d hd => ?_)⟩
            rw [setMax_max_coord, setMax_min]
            have := hlt d hd
            split_ifs with h
            · obtain ⟨rfl, -⟩ := h; omega
            · exact this
        · rw [if_neg c2]; trivial
  · rw [if_neg hdiff]
    exact ⟨hfa, hinv⟩

theorem SubOut_subtractState (a s : AxisAlignedHyperRectangle) (ha : BoxInv a)
    (hne : a.size ≠ 0) : ∀ k, k ≤ a.order_ → SubOut a (subtractState a s k) := by
  intro k
  induction k with
  | zero => intro _; exact ⟨fun _ => rfl, ha⟩
  | succ k ih =>
    intro hk
    rw [subtractState_succ]
    have := ih (by omega)
    cases hprev : subtractState a s k with
    | error r => rw [hprev] at this; exact this
    | ok st =>
      rw [hprev] at this
      exact SubOut_step a s k st ha hne (by omega) this

theorem BoxInv_Subtract (a s : AxisAlignedHyperRectangle) (g : Gradient)
    (r : AxisAlignedHyperRectangle) (ha : BoxInv a)
    (h : a.Subtract s = some (g, r)) : BoxInv r := by
  unfold Subtract at h
  by_cases ho : a.order_ = s.order_
  · rw [if_neg (by simpa using ho)] at h
    by_cases hz : a.size = 0 ∨ s.size = 0
    · rw [if_pos hz] at h
      simp only [Option.some.injEq, Prod.mk.injEq] at h
      rw [← h.2]; exact ha
    · rw [if_neg hz] at h
      cases heq : a.eq s with
      | none => rw [heq] at h; exact absurd h (by simp)
      | some b =>
        rw [heq] at h
        cases b with
        | true =>
          simp only [Option.some.injEq, Prod.mk.injEq] at h
          rw [← h.2]; exact BoxInv_Reset a ha.1
        | false =>
          simp only at h
          split_ifs at h with hno
          · simp only [Option.some.injEq, Prod.mk.injEq] at h
            rw [← h.2]; exact ha
          · have hout := SubOut_subtractState a s ha (fun hc => hz (Or.inl hc)) a.order_
              (le_refl _)
            cases hst : subtractState a s a.order_ with
            | error e =>
              rw [hst] at h hout
              simp only at h
              subst h
              rcases hout with h1 | h1
              · simp only at h1; rw [h1]; exact ha
              · simp only at h1; rw [h1]; exact BoxInv_Reset a ha.1
            | ok st =>
              rw [hst] at h hout
              obtain ⟨updated, gradient, found⟩ := st
              simp only at h
              split_ifs at h
              simp only [Option.some.injEq, Prod.mk.injEq] at h
              rw [← h.2]
              exact hout.2
  · rw [if_pos ho] at h
    exact absurd h (by simp)

theorem BoxInv_minus (flag : Bool) (a s : AxisAlignedHyperRectangle)
    (D a' : AxisAlignedHyperRectangle) (ha : BoxInv a)
    (h : minus flag a s = some (D, a')) : BoxInv D ∧ BoxInv a' := by
  unfold minus at h
  simp only [] at h
  cases hS : a.Subtract s with
  | none => rw [hS] at h; exact absurd h (by simp)
  | some gr =>
    obtain ⟨g, delta⟩ := gr
    rw [hS] at h
    have hdelta := BoxInv_Subtract a s g delta ha hS
    simp only [Option.some.injEq, Prod.mk.injEq] at h
    obtain ⟨h1, h2⟩ := h
    rw [← h1, ← h2]
    split_ifs
    · exact ⟨BoxInv_congr delta _ rfl rfl rfl hdelta, BoxInv_congr a _ rfl rfl rfl ha⟩
    · exact ⟨BoxInv_congr delta _ rfl rfl rfl hdelta, BoxInv_congr a _ rfl rfl rfl ha⟩
    · exact ⟨BoxInv_congr delta _ rfl rfl rfl hdelta, BoxInv_congr a _ rfl rfl rfl ha⟩
    · exact ⟨BoxInv_congr a _ rfl rfl rfl ha, BoxInv_congr a _ rfl rfl rfl ha⟩
    · exact ⟨BoxInv_congr delta _ rfl rfl rfl hdelta, ha⟩

end AxisAlignedHyperRectangle

namespace AxisAlignedHyperRectangle

/-- Every box that the main loop of `MultiSubtract` has put into `retval` is well formed, has
ordered bounds, has non-empty ranges when both operands have, and witnesses an axis on which
`a` has a non-empty range. -/
theorem msState_boxes (a b : AxisAlignedHyperRectangle) (ha : WF a) (hao : Ordered a)
    (hov : ∀ i, i < a.order_ →
      b.min_.coord i < a.max_.coord i ∧ a.min_.coord i < b.max_.coord i)
    (hb : ∀ i, i < a.order_ → b.min_.coord i ≤ b.max_.coord i) :
    ∀ k, k ≤ a.order_ → ∀ x ∈ (msState a b k).2,
      WF x ∧ x.order_ = a.order_ ∧ Ordered x ∧
      ((∀ i, i < a.order_ → a.min_.coord i < a.max_.coord i) →
       (∀ i, i < a.order_ → b.min_.coord i < b.max_.coord i) →
       ∀ i, i < a.order_ → x.min_.coord i < x.max_.coord i) ∧
      ∃ j, j < a.order_ ∧ a.min_.coord j < a.max_.coord j := by
  intro k
  induction k with
  | zero =>
    intro _ x hx
    simp [msState] at hx
  | succ k ih =>
    intro hk x hx
    have hinv := MSInv_msState a b ha hov hb k (by omega)
    rw [msState_succ, multiSubtractStep_snd] at hx
    generalize msState a b k = st at hx hinv ih
    have hkn : k < a.order_ := by omega
    have hmk : st.1.min_.coord k = a.min_.coord k := by
      rw [hinv.cmin k hkn, if_neg (lt_irrefl k)]
    have hMk : st.1.max_.coord k = a.max_.coord k := by
      rw [hinv.cmax k hkn, if_neg (lt_irrefl k)]
    have hmid : ∀ i, i < a.order_ → i ≠ k →
        st.1.min_.coord i ≤ st.1.max_.coord i ∧
        ((∀ i, i < a.order_ → a.min_.coord i < a.max_.coord i) →
         (∀ i, i < a.order_ → b.min_.coord i < b.max_.coord i) →
         st.1.min_.coord i < st.1.max_.coord i) := by
      intro i hi _
      rw [hinv.cmin i hi, hinv.cmax i hi]
      have h1 := hov i hi
      have h2 := hao i hi
      have h3 := hb i hi
      refine ⟨by split_ifs <;> omega, fun hA hB => ?_⟩
      have := hA i hi
      have := hB i hi
      split_ifs <;> omega
    have hovk := hov k hkn
    rw [List.mem_append, List.mem_append] at hx
    rcases hx with (hx | hx) | hx
    · exact ih (by omega) x hx
    · -- the left slice
      split_ifs at hx with hc
      · rw [List.mem_singleton] at hx
        subst hx
        refine ⟨⟨by rw [setMax_min, setMax_order, hinv.ord]; exact hinv.lmin,
          by rw [setMax_max_length, setMax_order, hinv.ord]; exact hinv.lmax⟩, hinv.ord, ?_, ?_,
          ⟨k, hkn, by omega⟩⟩
        · intro i hi
          rw [setMax_order, hinv.ord] at hi
          rw [setMax_min, setMax_max_coord]
          by_cases hik : k = i
          · subst hik
            simp only [hinv.lmax, hkn, and_self, if_true]
            omega
          · simp only [hik, false_and, if_false]
            exact (hmid i hi (fun h => hik h.symm)).1
        · intro hA hB i hi
          rw [setMax_min, setMax_max_coord]
          by_cases hik : k = i
          · subst hik
            simp only [hinv.lmax, hkn, and_self, if_true]
            omega
          · simp only [hik, false_and, if_false]
            exact (hmid i hi (fun h => hik h.symm)).2 hA hB
      · simp at hx
    · -- the right slice
      split_ifs at hx with hc
      · rw [List.mem_singleton] at hx
        subst hx
        refine ⟨⟨by rw [setMin_min_length, setMin_order, hinv.ord]; exact hinv.lmin,
          by rw [setMin_max, setMin_order, hinv.ord]; exact hinv.lmax⟩, hinv.ord, ?_, ?_,
          ⟨k, hkn, by omega⟩⟩
        · intro i hi
          rw [setMin_order, hinv.ord] at hi
          rw [setMin_max, setMin_min_coord]
          by_cases hik : k = i
          · subst hik
            simp only [hinv.lmin, hkn, and_self, if_true]
            omega
          · simp only [hik, false_and, if_false]
            exact (hmid i hi (fun h => hik h.symm)).1
        · intro hA hB i hi
          rw [setMin_max, setMin_min_coord]
          by_cases hik : k = i
          · subst hik
            simp only [hinv.lmin, hkn, and_self, if_true]
            omega
          · simp only [hik, false_and, if_false]
            exact (hmid i hi (fun h => hik h.symm)).2 hA hB
      · simp at hx

/-- The boxes returned by `MultiSubtract` are well formed with ordered bounds, and satisfy the
box invariant when the subtracted box is not empty. -/
theorem BoxInv_MultiSubtract (a b : AxisAlignedHyperRectangle) (ha : BoxInv a)
    (hb : BoxInv b) (ho : b.order_ = a.order_) :
    ∀ x ∈ a.MultiSubtract b, WF x ∧ Ordered x ∧ (b.volume ≠ 0 → BoxInv x) := by
  intro x hx
  by_cases hno : noOverlapLoop a b (List.range a.order_) = true
  · rw [MultiSubtract_of_noOverlap a b hno, List.mem_singleton] at hx
    subst hx
    exact ⟨ha.1, ha.2.1, fun _ => ha⟩
  · rw [MultiSubtract_of_overlap a b hno] at hx
    have hov := overlap_of_noOverlapLoop a b hno
    obtain ⟨hwf, hxo, hord, hlt, j, hj, hjlt⟩ := msState_boxes a b ha.1 ha.2.1 hov
      (fun i hi => hb.2.1 i (by rw [ho]; exact hi)) a.order_ (le_refl _) x hx
    refine ⟨hwf, hord, fun hbne => ?_⟩
    rw [BoxInv_iff]
    refine ⟨hwf, Or.inl ?_⟩
    rw [hxo]
    apply hlt
    · have haz : a.volume ≠ 0 := by
        intro hz
        have := ha.2.2 hz j hj
        omega
      exact lt_of_volume_ne_zero a ha.1 ha.2.1 haz
    · intro i hi
      exact lt_of_volume_ne_zero b hb.1 hb.2.1 hbne i (by rw [ho]; exact hi)

end AxisAlignedHyperRectangle

/-! ## Facts about the inference -/

section Inference

variable {M S : Type}

theorem TilingInfo.assign_isSome (t : TilingInfo M) (e : EinsumId) (m : M)
    (he : (t e).isSome = true) (x : EinsumId) :
    ((t.assign e m) x).isSome = (t x).isSome := by
  unfold TilingInfo.assign
  by_cases hx : x = e
  · subst hx; simp [he]
  · simp [hx]

/-- A tensor without a writer in the fusion set is skipped. -/
theorem tensorStep_skip (ops : IslOps M S) (workload : FusedWorkload M S)
    (reuse : DataSpaceId → Option Nat) (einsums : List EinsumId) (einsum : EinsumId)
    (st : TilingInfo M × List EinsumId) (tensor : DataSpaceId)
    (h : inFusionWriter workload einsums tensor = none) :
    tensorStep ops workload reuse einsums einsum st tensor = some st := by
  unfold inFusionWriter at h
  unfold tensorStep
  cases hw : workload.WriterEinsum tensor with
  | none => rfl
  | some p =>
    rw [hw] at h
    simp only at h ⊢
    by_cases hin : einsums.contains p = true
    · rw [if_pos hin] at h; exact absurd h (by simp)
    · rw [if_pos hin]

/-- A tensor with the writer `p` in the fusion set, when `einsum` has the entry `tiling`:
the step throws when `p` has no entry, and otherwise narrows the entry of `p` and
enqueues `p`. -/
theorem tensorStep_writer (ops : IslOps M S) (workload : FusedWorkload M S)
    (reuse : DataSpaceId → Option Nat) (einsums : List EinsumId) (einsum : EinsumId)
    (st : TilingInfo M × List EinsumId) (tensor : DataSpaceId) (p : EinsumId) (tiling : M)
    (h : inFusionWriter workload einsums tensor = some p) (ht : st.1 einsum = some tiling) :
    tensorStep ops workload reuse einsums einsum st tensor =
      match st.1 p with
      | none => none
      | some prod_tiling =>
        some (st.1.assign p (ops.intersect prod_tiling
          (ops.intersect_range
            (ops.apply_range
              (match reuse tensor with
               | none => ops.apply_range tiling (workload.ReadAccesses einsum tensor)
               | some reuse_level =>
                 ops.coalesce (ops.subtract
                   (ops.apply_range tiling (workload.ReadAccesses einsum tensor))
                   (ops.apply_range (ops.MapToPriorData (ops.dim_in tiling) reuse_level)
                     (ops.apply_range tiling (workload.ReadAccesses einsum tensor)))))
              (ops.reverse (workload.WriteAccesses p tensor)))
            (workload.EinsumOspaceBound p))),
          st.2 ++ [p]) := by
  unfold inFusionWriter at h
  unfold tensorStep
  cases hw : workload.WriterEinsum tensor with
  | none => rw [hw] at h; exact absurd h (by simp)
  | some q =>
    rw [hw] at h
    simp only at h ⊢
    by_cases hin : einsums.contains q = true
    · rw [if_pos hin] at h
      simp only [Option.some.injEq] at h
      subst h
      rw [if_neg (by simpa using hin), ht]
    · rw [if_neg hin] at h; exact absurd h (by simp)

/-- The loop over the tensors read by `einsum` when every in-fusion-set producer it meets has
an entry: no exception, the producers are appended to the queue, and the table keeps its
set of keys. -/
theorem tensorFold_some (ops : IslOps M S) (workload : FusedWorkload M S)
    (reuse : DataSpaceId → Option Nat) (einsums : List EinsumId) (einsum : EinsumId)
    (l : List DataSpaceId) :
    ∀ (table : TilingInfo M) (queue : List EinsumId),
      (table einsum).isSome = true →
      (∀ p ∈ l.filterMap (inFusionWriter workload einsums), (table p).isSome = true) →
      ∃ table', l.foldlM (tensorStep ops workload reuse einsums einsum) (table, queue)
          = some (table', queue ++ l.filterMap (inFusionWriter workload einsums)) ∧
        ∀ x, (table' x).isSome = (table x).isSome := by
  induction l with
  | nil =>
    intro table queue _ _
    exact ⟨table, by simp, fun _ => rfl⟩
  | cons tensor l ih =>
    intro table queue he hp
    rw [List.foldlM_cons]
    cases hw : inFusionWriter workload einsums tensor with
    | none =>
      rw [tensorStep_skip ops workload reuse einsums einsum _ tensor hw]
      simp only [Option.bind_eq_bind, Option.some_bind]
      rw [List.filterMap_cons_none hw] at hp ⊢
      exact ih table queue he hp
    | some p =>
      rw [List.filterMap_cons_some hw] at hp ⊢
      have hpe : (table p).isSome = true := hp p (List.mem_cons_self _ _)
      obtain ⟨tiling, htiling⟩ := Option.isSome_iff_exists.mp he
      obtain ⟨prod_tiling, hprod⟩ := Option.isSome_iff_exists.mp hpe
      rw [tensorStep_writer ops workload reuse einsums einsum _ tensor p tiling hw htiling]
      simp only [hprod, Option.bind_eq_bind, Option.some_bind]
      generalize ops.intersect prod_tiling _ = m
      have hkeys := TilingInfo.assign_isSome table p m hpe
      obtain ⟨table', hfold, hk⟩ := ih (table.assign p m) (queue ++ [p])
        (by rw [hkeys]; exact he)
        (fun q hq => by rw [hkeys]; exact hp q (List.mem_cons_of_mem _ hq))
      refine ⟨table', ?_, fun x => by rw [hk x, hkeys x]⟩
      rw [hfold]
      simp

end Inference

section Inference

variable {M S : Type}

theorem visitCost_pos (workload : FusedWorkload M S) (einsums : List EinsumId) (n : Nat)
    (e : EinsumId) : 1 ≤ visitCost workload einsums n e := by
  cases n with
  | zero => exact le_refl _
  | succ n => unfold visitCost; omega

/-- Once `n` bounds the rank of `e`, the visit cost of `e` no longer depends on `n`. -/
theorem visitCost_stable (workload : FusedWorkload M S) (einsums : List EinsumId)
    (rank : EinsumId → Nat)
    (hrank : ∀ e p, p ∈ producers workload einsums e → rank p < rank e) :
    ∀ n e, rank e ≤ n →
      visitCost workload einsums n e = visitCost workload einsums (rank e) e := by
  intro n
  induction n using Nat.strong_induction_on with
  | _ n ih =>
    intro e he
    by_cases hn : rank e = n
    · rw [hn]
    · obtain ⟨m, rfl⟩ : ∃ m, n = m + 1 := ⟨n - 1, by omega⟩
      cases hre : rank e with
      | zero =>
        have hnil : producers workload einsums e = [] := by
          apply List.eq_nil_iff_forall_not_mem.mpr
          intro p hp
          have := hrank e p hp
          omega
        unfold visitCost
        rw [hnil]
        simp
      | succ r =>
        show 1 + _ = 1 + _
        congr 2
        apply List.map_congr_left
        intro p hp
        have hpr := hrank e p hp
        rw [ih m (by omega) p (by omega), ih r (by omega) p (by omega)]

/-- The visit cost of `e` is one more than the visit costs of its producers. -/
theorem visitCost_rank (workload : FusedWorkload M S) (einsums : List EinsumId)
    (rank : EinsumId → Nat)
    (hrank : ∀ e p, p ∈ producers workload einsums e → rank p < rank e) (e : EinsumId) :
    visitCost workload einsums (rank e) e =
      1 + ((producers workload einsums e).map
        (fun p => visitCost workload einsums (rank p) p)).sum := by
  cases hre : rank e with
  | zero =>
    have hnil : producers workload einsums e = [] := by
      apply List.eq_nil_iff_forall_not_mem.mpr
      intro p hp
      have := hrank e p hp
      omega
    unfold visitCost
    rw [hnil]
    simp
  | succ r =>
    show 1 + _ = 1 + _
    congr 2
    apply List.map_congr_left
    intro p hp
    have hpr := hrank e p hp
    exact visitCost_stable workload einsums rank hrank r p (by omega)

/-- The worklist drains: with entries for every einsum that can be visited and a ranking that
decreases from consumers to producers, the loop finishes without an exception as soon as the
fuel covers the visit costs of the queue, and the table keeps its set of keys. -/
theorem inferLoop_finishes (ops : IslOps M S) (workload : FusedWorkload M S)
    (reuse : DataSpaceId → Option Nat) (einsums : List EinsumId) (start : EinsumId)
    (rank : EinsumId → Nat)
    (hrank : ∀ e p, p ∈ producers workload einsums e → rank p < rank e) :
    ∀ (fuel : Nat) (table : TilingInfo M) (queue : List EinsumId),
      (∀ e ∈ queue, Reach workload einsums start e) →
      (∀ e, Reach workload einsums start e → (table e).isSome = true) →
      (queue.map (fun e => visitCost workload einsums (rank e) e)).sum ≤ fuel →
      ∃ table', inferLoop ops workload reuse einsums fuel table queue
          = Outcome.finished table' ∧
        ∀ x, (table' x).isSome = (table x).isSome := by
  intro fuel
  induction fuel with
  | zero =>
    intro table queue _ _ hsum
    cases queue with
    | nil => exact ⟨table, rfl, fun _ => rfl⟩
    | cons e rest =>
      exfalso
      have := visitCost_pos workload einsums (rank e) e
      simp only [List.map_cons, List.sum_cons] at hsum
      omega
  | succ fuel ih =>
    intro table queue hq ht hsum
    cases queue with
    | nil => exact ⟨table, rfl, fun _ => rfl⟩
    | cons e rest =>
      have hre : Reach workload einsums start e := hq e (List.mem_cons_self _ _)
      have hte := ht e hre
      obtain ⟨tiling, htiling⟩ := Option.isSome_iff_exists.mp hte
      obtain ⟨table', hfold, hkeys⟩ := tensorFold_some ops workload reuse einsums e
        (workload.TensorsReadByEinsum e) table rest hte
        (fun p hp => ht p (Reach.step e p hre hp))
      have hunfold : inferLoop ops workload reuse einsums (fuel + 1) table (e :: rest)
          = inferLoop ops workload reuse einsums fuel table'
              (rest ++ producers workload einsums e) := by
        show (match table e with
          | none => Outcome.threw
          | some _ =>
            match (workload.TensorsReadByEinsum e).foldlM
                (tensorStep ops workload reuse einsums e) (table, rest) with
            | none => Outcome.threw
            | some st => inferLoop ops workload reuse einsums fuel st.1 st.2) = _
        rw [htiling, hfold]
        rfl
      rw [hunfold]
      obtain ⟨table'', hrun, hkeys'⟩ := ih table' (rest ++ producers workload einsums e)
        (by
          intro x hx
          rcases List.mem_append.mp hx with hx | hx
          · exact hq x (List.mem_cons_of_mem _ hx)
          · exact Reach.step e x hre hx)
        (fun x hx => by rw [hkeys x]; exact ht x hx)
        (by
          simp only [List.map_cons, List.sum_cons] at hsum
          rw [visitCost_rank workload einsums rank hrank e] at hsum
          simp only [List.map_append, List.sum_append]
          omega)
      exact ⟨table'', hrun, fun x => by rw [hkeys' x, hkeys x]⟩

end Inference

section Inference

variable {M S : Type}

/-- The loop over tensors none of which has a writer in the fusion set changes nothing. -/
theorem tensorFold_skip (ops : IslOps M S) (workload : FusedWorkload M S)
    (reuse : DataSpaceId → Option Nat) (einsums : List EinsumId) (einsum : EinsumId)
    (l : List DataSpaceId) (st : TilingInfo M × List EinsumId)
    (h : ∀ tensor ∈ l, inFusionWriter workload einsums tensor = none) :
    l.foldlM (tensorStep ops workload reuse einsums einsum) st = some st := by
  induction l with
  | nil => rfl
  | cons tensor l ih =>
    rw [List.foldlM_cons,
      tensorStep_skip ops workload reuse einsums einsum st tensor
        (h tensor (List.mem_cons_self _ _))]
    simp only [Option.bind_eq_bind, Option.some_bind]
    exact ih (fun t ht => h t (List.mem_cons_of_mem _ ht))

theorem inFusionWriter_eq_some (workload : FusedWorkload M S) (einsums : List EinsumId)
    (tensor : DataSpaceId) (p : EinsumId) (hw : workload.WriterEinsum tensor = some p)
    (hp : p ∈ einsums) : inFusionWriter workload einsums tensor = some p := by
  unfold inFusionWriter
  rw [hw]
  simp only
  rw [if_pos (by simpa using hp)]

end Inference

section Inference

variable {M S : Type}

/-- One iteration of the `while` loop of the inference. -/
theorem inferLoop_cons (ops : IslOps M S) (workload : FusedWorkload M S)
    (reuse : DataSpaceId → Option Nat) (einsums : List EinsumId) (fuel : Nat)
    (table : TilingInfo M) (einsum : EinsumId) (queue : List EinsumId) :
    inferLoop ops workload reuse einsums (fuel + 1) table (einsum :: queue) =
      match table einsum with
      | none => Outcome.threw
      | some _ =>
        match (workload.TensorsReadByEinsum einsum).foldlM
            (tensorStep ops workload reuse einsums einsum) (table, queue) with
        | none => Outcome.threw
        | some st => inferLoop ops workload reuse einsums fuel st.1 st.2 := rfl

theorem inferLoop_nil (ops : IslOps M S) (workload : FusedWorkload M S)
    (reuse : DataSpaceId → Option Nat) (einsums : List EinsumId) (fuel : Nat)
    (table : TilingInfo M) :
    inferLoop ops workload reuse einsums fuel table [] = Outcome.finished table := by
  cases fuel <;> rfl

end Inference

/-! ## Further facts about `Subtract`, `Add` and `MergeIfAdjacent` -/

namespace AxisAlignedHyperRectangle

/-- A dimension on which the bounds differ, met after another one was found: the second loop
of `Subtract` returns a zero gradient and leaves `*this` as it was. -/
theorem subtractStep_found (a s : AxisAlignedHyperRectangle)
    (st : AxisAlignedHyperRectangle × Gradient × Bool) (k : Nat) (hf : st.2.2 = true)
    (hdiff : a.min_.coord k ≠ s.min_.coord k ∨ a.max_.coord k ≠ s.max_.coord k) :
    subtractStep a s st k = Except.error (some (Gradient.new a.order_, a)) := by
  unfold subtractStep
  simp only []
  rw [if_pos hdiff, if_pos hf]

/-- After a first differing dimension was handled, a later differing dimension ends the
second loop of `Subtract` with a zero gradient and `*this` unchanged. -/
theorem subtractState_found_range (a s : AxisAlignedHyperRectangle) (k : Nat)
    (st : AxisAlignedHyperRectangle × Gradient × Bool)
    (h : subtractState a s k = Except.ok st) (hf : st.2.2 = true) :
    ∀ m, (∃ i, k ≤ i ∧ i < m ∧
        (a.min_.coord i ≠ s.min_.coord i ∨ a.max_.coord i ≠ s.max_.coord i)) →
      subtractState a s m = Except.error (some (Gradient.new a.order_, a)) := by
  intro m
  induction m with
  | zero => rintro ⟨i, -, hi, -⟩; omega
  | succ m ih =>
    rintro ⟨i, hki, him, hdiff⟩
    by_cases hex : ∃ j, k ≤ j ∧ j < m ∧
        (a.min_.coord j ≠ s.min_.coord j ∨ a.max_.coord j ≠ s.max_.coord j)
    · exact subtractState_error_mono a s m (m + 1) _ (by omega) (ih hex)
    · have him' : i = m := by
        by_contra hc
        exact hex ⟨i, hki, by omega, hdiff⟩
      subst him'
      have hsame : ∀ j, k ≤ j → j < i →
          a.min_.coord j = s.min_.coord j ∧ a.max_.coord j = s.max_.coord j := by
        intro j hkj hji
        by_contra hc
        exact hex ⟨j, hkj, hji, by
          by_cases h1 : a.min_.coord j = s.min_.coord j
          · exact Or.inr (fun h2 => hc ⟨h1, h2⟩)
          · exact Or.inl h1⟩
      rw [subtractState_succ, subtractState_same_range a s k i st hki hsame h]
      exact subtractStep_found a s st i hf hdiff

/-- The result of `Subtract` when the boxes are non-empty, overlap on every dimension, and
their bounds differ on the dimension `d1`, on no earlier dimension, and on a later dimension
`d2`: an assertion fails when `s` lies strictly inside `a` along `d1`, the box is reset when
`s` covers `a` along `d1`, and otherwise nothing changes; the gradient is zero. -/
theorem Subtract_multi (a s : AxisAlignedHyperRectangle) (d1 d2 : Nat)
    (ha : WF a) (ho : a.order_ = s.order_) (hane : a.size ≠ 0) (hsne : s.size ≠ 0)
    (h12 : d1 < d2) (h2 : d2 < a.order_)
    (hov : ∀ i, i < a.order_ →
      s.min_.coord i < a.max_.coord i ∧ a.min_.coord i < s.max_.coord i)
    (hfirst : ∀ i, i < d1 →
      a.min_.coord i = s.min_.coord i ∧ a.max_.coord i = s.max_.coord i)
    (hdiff1 : a.min_.coord d1 ≠ s.min_.coord d1 ∨ a.max_.coord d1 ≠ s.max_.coord d1)
    (hdiff2 : a.min_.coord d2 ≠ s.min_.coord d2 ∨ a.max_.coord d2 ≠ s.max_.coord d2) :
    a.Subtract s =
      if s.min_.coord d1 ≤ a.min_.coord d1 then
        if s.max_.coord d1 < a.max_.coord d1 then some (Gradient.new a.order_, a)
        else some (Gradient.new a.order_, a.Reset)
      else
        if s.max_.coord d1 < a.max_.coord d1 then none
        else some (Gradient.new a.order_, a) := by
  have hd1 : d1 < a.order_ := by omega
  rw [Subtract_general a s ho hane hsne (eq_eq_some_false a s ho d1 hd1 hdiff1) hov]
  have h0 : subtractState a s d1 = Except.ok (a, Gradient.new a.order_, false) :=
    subtractState_same_range a s 0 d1 _ (Nat.zero_le _)
      (fun i _ hi => hfirst i hi) (subtractState_zero a s)
  have h1 : subtractState a s (d1 + 1)
      = subtractStep a s (a, Gradient.new a.order_, false) d1 := by
    rw [subtractState_succ, h0]; rfl
  rw [subtractStep_first a s _ d1 (by rw [ha.1]; exact hd1) (by rw [ha.2]; exact hd1) hdiff1]
    at h1
  by_cases c1 : s.min_.coord d1 ≤ a.min_.coord d1 <;>
  by_cases c2 : s.max_.coord d1 < a.max_.coord d1 <;>
  simp only [c1, c2, if_true, if_false] at h1 ⊢
  · rw [subtractState_found_range a s (d1 + 1) _ h1 rfl a.order_
      ⟨d2, by omega, h2, hdiff2⟩]
  · rw [subtractState_error_mono a s (d1 + 1) a.order_ _ (by omega) h1]
  · rw [subtractState_error_mono a s (d1 + 1) a.order_ _ (by omega) h1]
  · rw [subtractState_found_range a s (d1 + 1) _ h1 rfl a.order_
      ⟨d2, by omega, h2, hdiff2⟩]

end AxisAlignedHyperRectangle

namespace AxisAlignedHyperRectangle

end AxisAlignedHyperRectangle

namespace Point

end Point

namespace AxisAlignedHyperRectangle

end AxisAlignedHyperRectangle

namespace AxisAlignedHyperRectangle

theorem GradOut_finish (a : AxisAlignedHyperRectangle) (k : Nat)
    (updated : AxisAlignedHyperRectangle) (g : Gradient)
    (h : updated.min_.coord k ≠ updated.max_.coord k →
      g.value = 0 → g = Gradient.new a.order_ ∧ updated = a) :
    GradOut a (subtractFinish a k updated g) := by
  unfold subtractFinish
  split_ifs with hc
  · exact ⟨rfl, Or.inr rfl⟩
  · exact ⟨fun hf => absurd hf (by simp), h hc⟩

theorem GradOut_step (a s : AxisAlignedHyperRectangle) (k : Nat)
    (st : AxisAlignedHyperRectangle × Gradient × Bool)
    (hov : s.min_.coord k < a.max_.coord k ∧ a.min_.coord k < s.max_.coord k)
    (h : GradOut a (Except.ok st)) : GradOut a (subtractStep a s st k) := by
  obtain ⟨hfa, hzero⟩ := h
  unfold subtractStep
  simp only []
  by_cases hdiff : a.min_.coord k ≠ s.min_.coord k ∨ a.max_.coord k ≠ s.max_.coord k
  · rw [if_pos hdiff]
    by_cases hf : st.2.2 = true
    · rw [if_pos hf]
      exact ⟨rfl, Or.inl rfl⟩
    · rw [if_neg hf]
      obtain ⟨hst, hg⟩ := hfa (by simpa using hf)
      rw [hst, hg]
      by_cases c1 : s.min_.coord k ≤ a.min_.coord k
      · rw [if_pos c1]
        by_cases c2 : s.max_.coord k ≤ a.max_.coord k
        · -- the lower part is removed: the value of the gradient is positive
          rw [if_pos c2]
          apply GradOut_finish
          intro _ hv
          simp only at hv
          omega
        · -- everything is removed, or `max_` has no coordinate `k` and nothing changes
          rw [if_neg c2]
          apply GradOut_finish
          intro hne _
          refine ⟨rfl, ?_⟩
          rw [setMax_max_coord, setMax_min] at hne
          have hlen : a.max_.length ≤ k := by
            by_contra hc
            rw [if_pos ⟨rfl, by omega⟩] at hne
            exact hne rfl
          unfold setMax Point.setCoord
          rw [List.set_eq_of_length_le hlen]
      · rw [if_neg c1]
        by_cases c2 : s.min_.coord k > a.min_.coord k
        · rw [if_pos c2]
          by_cases c3 : s.max_.coord k < a.max_.coord k
          · rw [if_pos c3]; trivial
          · -- the upper part is removed: the value of the gradient is negative
            rw [if_neg c3]
            apply GradOut_finish
            intro _ hv
            simp only at hv
            omega
        · rw [if_neg c2]; trivial
  · rw [if_neg hdiff]
    exact ⟨hfa, hzero⟩

theorem GradOut_subtractState (a s : AxisAlignedHyperRectangle)
    (hov : ∀ i, i < a.order_ →
      s.min_.coord i < a.max_.coord i ∧ a.min_.coord i < s.max_.coord i) :
    ∀ k, k ≤ a.order_ → GradOut a (subtractState a s k) := by
  intro k
  induction k with
  | zero => intro _; exact ⟨fun _ => ⟨rfl, rfl⟩, fun _ => ⟨rfl, rfl⟩⟩
  | succ k ih =>
    intro hk
    rw [subtractState_succ]
    have := ih (by omega)
    cases hprev : subtractState a s k with
    | error r => rw [hprev] at this; exact this
    | ok st =>
      rw [hprev] at this
      exact GradOut_step a s k st (hov k (by omega)) this

/-- A zero gradient returned by `Subtract` is the initial gradient, and comes with `*this`
unchanged or reset to the canonical empty box. -/
theorem Subtract_zero_gradient (a s : AxisAlignedHyperRectangle) (g : Gradient)
    (delta : AxisAlignedHyperRectangle) (h : a.Subtract s = some (g, delta))
    (hv : g.value = 0) : g = Gradient.new a.order_ ∧ (delta = a ∨ delta = a.Reset) := by
  unfold Subtract at h
  by_cases ho : a.order_ = s.order_
  · rw [if_neg (by simpa using ho)] at h
    by_cases hz : a.size = 0 ∨ s.size = 0
    · rw [if_pos hz] at h
      simp only [Option.some.injEq, Prod.mk.injEq] at h
      exact ⟨h.1.symm, Or.inl h.2.symm⟩
    · rw [if_neg hz] at h
      cases heq : a.eq s with
      | none => rw [heq] at h; exact absurd h (by simp)
      | some b =>
        rw [heq] at h
        cases b with
        | true =>
          simp only [Option.some.injEq, Prod.mk.injEq] at h
          exact ⟨h.1.symm, Or.inr h.2.symm⟩
        | false =>
          simp only at h
          split_ifs at h with hno
          · simp only [Option.some.injEq, Prod.mk.injEq] at h
            exact ⟨h.1.symm, Or.inl h.2.symm⟩
          · have hov : ∀ i, i < a.order_ →
                s.min_.coord i < a.max_.coord i ∧ a.min_.coord i < s.max_.coord i := by
              intro i hi
              by_contra hc
              apply hno
              rw [subtractNoOverlapLoop_iff]
              exact ⟨i, List.mem_range.mpr hi, by omega⟩
            have hout := GradOut_subtractState a s hov a.order_ (le_refl _)
            cases hst : subtractState a s a.order_ with
            | error e =>
              rw [hst] at h hout
              simp only at h
              subst h
              exact hout
            | ok st =>
              rw [hst] at h hout
              obtain ⟨updated, gradient, found⟩ := st
              simp only at h
              split_ifs at h
              simp only [Option.some.injEq, Prod.mk.injEq] at h
              obtain ⟨h1, h2⟩ := h
              subst h1 h2
              obtain ⟨hg, hu⟩ := hout.2 hv
              exact ⟨hg, Or.inl hu⟩
  · rw [if_pos ho] at h
    exact absurd h (by simp)

end AxisAlignedHyperRectangle

/-! ## Well-foundedness of the producer/consumer relation -/

section Inference

variable {M S : Type}

theorem mem_einsums_of_mem_producers (workload : FusedWorkload M S) (einsums : List EinsumId)
    (e p : EinsumId) (h : p ∈ producers workload einsums e) : p ∈ einsums := by
  unfold producers at h
  obtain ⟨tensor, -, ht⟩ := List.mem_filterMap.mp h
  unfold inFusionWriter at ht
  cases hw : workload.WriterEinsum tensor with
  | none => rw [hw] at ht; exact absurd ht (by simp)
  | some q =>
    rw [hw] at ht
    simp only at ht
    by_cases hin : einsums.contains q = true
    · rw [if_pos hin] at ht
      simp only [Option.some.injEq] at ht
      subst ht
      simpa using hin
    · rw [if_neg hin] at ht
      exact absurd ht (by simp)

/-- An acyclic producer/consumer relation is well founded, because every producer lies in the
finite fusion set. -/
theorem IsProducer_wellFounded (workload : FusedWorkload M S) (einsums : List EinsumId)
    (hacyclic : ∀ e, ¬ Relation.TransGen (IsProducer workload einsums) e e) :
    WellFounded (IsProducer workload einsums) := by
  let rF : {x // x ∈ einsums} → {x // x ∈ einsums} → Prop :=
    fun a b => Relation.TransGen (IsProducer workload einsums) a.1 b.1
  haveI : IsTrans {x // x ∈ einsums} rF := ⟨fun _ _ _ h1 h2 => Relation.TransGen.trans h1 h2⟩
  haveI : IsIrrefl {x // x ∈ einsums} rF := ⟨fun a h => hacyclic a.1 h⟩
  have hwf : WellFounded rF := Finite.wellFounded_of_trans_of_irrefl rF
  have hin : ∀ a : {x // x ∈ einsums}, Acc (IsProducer workload einsums) a.1 := by
    intro a
    induction a using hwf.induction with
    | _ a ih =>
      apply Acc.intro
      intro p hp
      exact ih ⟨p, mem_einsums_of_mem_producers workload einsums a.1 p hp⟩
        (Relation.TransGen.single hp)
  refine ⟨fun e => Acc.intro e (fun p hp => ?_)⟩
  exact hin ⟨p, mem_einsums_of_mem_producers workload einsums e p hp⟩

theorem le_foldr_max (l : List Nat) (x : Nat) (h : x ∈ l) : x ≤ l.foldr max 0 := by
  induction l with
  | nil => exact absurd h (List.not_mem_nil x)
  | cons y ys ih =>
    simp only [List.foldr_cons]
    rcases List.mem_cons.mp h with rfl | h
    · exact le_max_left _ _
    · exact le_trans (ih h) (le_max_right _ _)

/-- An acyclic producer/consumer relation has a ranking of the einsums that decreases from
every consumer to its producers. -/
theorem exists_rank_of_acyclic (workload : FusedWorkload M S) (einsums : List EinsumId)
    (hacyclic : ∀ e, ¬ Relation.TransGen (IsProducer workload einsums) e e) :
    ∃ rank : EinsumId → Nat,
      ∀ e p, p ∈ producers workload einsums e → rank p < rank e := by
  have hwf := IsProducer_wellFounded workload einsums hacyclic
  refine ⟨hwf.fix (fun e ih =>
    (((producers workload einsums e).attach.map (fun q => ih q.1 q.2 + 1)).foldr max 0)),
    fun e p hp => ?_⟩
  rw [hwf.fix_eq _ e]
  apply Nat.lt_of_succ_le
  apply le_foldr_max
  rw [List.mem_map]
  exact ⟨⟨p, hp⟩, List.mem_attach _ _, rfl⟩

/-- Every einsum that the propagation can visit is the start einsum or a producer. -/
theorem Reach_cases (workload : FusedWorkload M S) (einsums : List EinsumId)
    (start e : EinsumId) (h : Reach workload einsums start e) :
    e = start ∨ ∃ c, e ∈ producers workload einsums c := by
  cases h with
  | start => exact Or.inl rfl
  | step c _ _ hp => exact Or.inr ⟨c, hp⟩

end Inference

/-! ## The properties of the specification -/

namespace AxisAlignedHyperRectangle

/-- C1: for boxes `A` and `B` of the same order with `min[d] <= max[d]` on every axis, the
volumes of the boxes returned by `A.MultiSubtract(B)` sum to the volume of `A` minus the
volume of the intersection of `A` and `B`, in exact integers, and no two returned boxes
contain a common point. The values of `size()`, which are the volumes modulo `2^64`, satisfy
the same identity modulo `2^64`. -/
theorem MultiSubtract_volume_disjoint (A B : AxisAlignedHyperRectangle)
    (hA : WF A) (ho : B.order_ = A.order_) (hAo : Ordered A) (hBo : Ordered B) :
    ((A.MultiSubtract B).map volume).sum = A.volume - (intersection A B).volume ∧
    (A.MultiSubtract B).Pairwise
      (fun x y => ∀ p, ¬ (x.Contains p = some true ∧ y.Contains p = some true)) ∧
    ((A.MultiSubtract B).map size).sum % 2 ^ 64
      = (A.size - (intersection A B).size) % 2 ^ 64 := by
  have hsz : ∀ l : List AxisAlignedHyperRectangle,
      (l.map volume).sum = A.volume - (intersection A B).volume →
      (l.map size).sum % 2 ^ 64 = (A.size - (intersection A B).size) % 2 ^ 64 := by
    intro l hl
    rw [sum_map_size_emod, hl, size_eq_volume_emod A, size_eq_volume_emod (intersection A B),
      ← Int.sub_emod]
  suffices h : ((A.MultiSubtract B).map volume).sum = A.volume - (intersection A B).volume ∧
      (A.MultiSubtract B).Pairwise
        (fun x y => ∀ p, ¬ (x.Contains p = some true ∧ y.Contains p = some true)) from
    ⟨h.1, h.2, hsz _ h.1⟩
  by_cases hno : noOverlapLoop A B (List.range A.order_) = true
  · -- some rank has no overlap: the result is `[A]`
    rw [MultiSubtract_of_noOverlap A B hno]
    refine ⟨?_, List.pairwise_singleton _ _⟩
    obtain ⟨r, hr, hrank⟩ := (noOverlapLoop_iff A B _).1 hno
    rw [List.mem_range] at hr
    have hz : (intersection A B).volume = 0 := by
      rw [volume_eq_vol _ (by rw [intersection_order]; omega)]
      unfold vol
      rw [intersection_order]
      apply Finset.prod_eq_zero (Finset.mem_range.mpr hr)
      rw [intersection_min_coord A B r hr, intersection_max_coord A B r hr]
      have := hAo r hr
      have := hBo r (by rw [ho]; exact hr)
      omega
    simp [hz]
  · rw [MultiSubtract_of_overlap A B hno]
    have hov := overlap_of_noOverlapLoop A B hno
    have hinv := MSInv_msState A B hA hov (fun i hi => hBo i (by rw [ho]; exact hi))
      A.order_ (le_refl _)
    refine ⟨?_, hinv.disj.imp ?_⟩
    · by_cases hn : A.order_ = 0
      · have h0 : msState A B A.order_ = (A, []) := by
          unfold msState; rw [hn]; rfl
        rw [h0, volume_of_order_zero A hA hn]
        have : (intersection A B).volume = 0 :=
          volume_of_order_zero _ (by unfold WF intersection; simp) hn
        simp [this]
      · have hpos : 0 < A.order_ := Nat.pos_of_ne_zero hn
        have hmap : (msState A B A.order_).2.map volume = (msState A B A.order_).2.map vol := by
          apply List.map_congr_left
          intro x hx
          exact volume_eq_vol x (by rw [hinv.rord x hx]; exact hpos)
        have hmid : vol (msState A B A.order_).1 = vol (intersection A B) := by
          unfold vol
          rw [hinv.ord, intersection_order]
          apply Finset.prod_congr rfl
          intro i hi
          rw [Finset.mem_range] at hi
          rw [hinv.cmin i hi, hinv.cmax i hi, if_pos hi, if_pos hi,
            intersection_min_coord A B i hi, intersection_max_coord A B i hi]
          have := hov i hi
          have := hAo i hi
          have := hBo i (by rw [ho]; exact hi)
          omega
        rw [hmap, volume_eq_vol A hpos,
          volume_eq_vol (intersection A B) (by rw [intersection_order]; exact hpos), ← hmid]
        have := hinv.volsum
        omega
    · intro x y hxy p hp
      exact hxy p ⟨((Contains_eq_some_true x p).1 hp.1).2, ((Contains_eq_some_true y p).1 hp.2).2⟩

/-- Witness for C1: `[0,4) x [0,4)` minus `[1,2) x [1,2)`. -/
theorem MultiSubtract_volume_disjoint_witness :
    ((MultiSubtract (newMinMax 2 [0, 0] [4, 4]) (newMinMax 2 [1, 1] [2, 2])).map volume).sum
      = volume (newMinMax 2 [0, 0] [4, 4])
        - (intersection (newMinMax 2 [0, 0] [4, 4]) (newMinMax 2 [1, 1] [2, 2])).volume ∧
    (MultiSubtract (newMinMax 2 [0, 0] [4, 4]) (newMinMax 2 [1, 1] [2, 2])).Pairwise
      (fun x y => ∀ p, ¬ (x.Contains p = some true ∧ y.Contains p = some true)) ∧
    ((MultiSubtract (newMinMax 2 [0, 0] [4, 4]) (newMinMax 2 [1, 1] [2, 2])).map size).sum
        % 2 ^ 64
      = (size (newMinMax 2 [0, 0] [4, 4])
        - (intersection (newMinMax 2 [0, 0] [4, 4]) (newMinMax 2 [1, 1] [2, 2])).size)
        % 2 ^ 64 :=
  MultiSubtract_volume_disjoint (newMinMax 2 [0, 0] [4, 4]) (newMinMax 2 [1, 1] [2, 2])
    (by decide) (by decide) (by decide) (by decide)

/-- C2: `MultiSubtract` computes the exact set difference: for boxes `A` and `B` of the same
order with `min[d] <= max[d]` on every axis and every point `p`, some box returned by
`A.MultiSubtract(B)` contains `p` if and only if `A` contains `p` and `B` does not. -/
theorem MultiSubtract_exact_difference (A B : AxisAlignedHyperRectangle)
    (hA : WF A) (ho : B.order_ = A.order_) (hBo : Ordered B) (p : Point) :
    (∃ x ∈ A.MultiSubtract B, x.Contains p = some true) ↔
      (A.Contains p = some true ∧ B.Contains p = some false) := by
  by_cases hno : noOverlapLoop A B (List.range A.order_) = true
  · rw [MultiSubtract_of_noOverlap A B hno]
    obtain ⟨r, hr, hrank⟩ := (noOverlapLoop_iff A B _).1 hno
    rw [List.mem_range] at hr
    simp only [List.mem_singleton, exists_eq_left]
    constructor
    · intro hAp
      refine ⟨hAp, ?_⟩
      obtain ⟨hl, hin⟩ := (Contains_eq_some_true A p).1 hAp
      rw [Contains_eq_some_false]
      refine ⟨by rw [ho]; exact hl, fun hB => ?_⟩
      have := hin r hr
      have := hB r (by rw [ho]; exact hr)
      omega
    · exact fun h => h.1
  · rw [MultiSubtract_of_overlap A B hno]
    have hov := overlap_of_noOverlapLoop A B hno
    have hinv := MSInv_msState A B hA hov (fun i hi => hBo i (by rw [ho]; exact hi))
      A.order_ (le_refl _)
    simp only [Contains_eq_some_true, Contains_eq_some_false]
    constructor
    · rintro ⟨x, hx, hl, hxp⟩
      obtain ⟨hap, i, hi, hni⟩ := hinv.sound x hx p hxp
      rw [hinv.rord x hx] at hl
      refine ⟨⟨hl, hap⟩, by rw [ho]; exact hl, fun hB => ?_⟩
      exact hni (hB i (by rw [ho]; exact hi))
    · rintro ⟨⟨hl, hap⟩, -, hnB⟩
      unfold inBox at hnB
      rw [ho] at hnB
      push_neg at hnB
      obtain ⟨i, hi, hni⟩ := hnB
      obtain ⟨x, hx, hxp⟩ := hinv.complete p hap ⟨i, hi, fun hc => by
        have := hni hc.1
        omega⟩
      exact ⟨x, hx, by rw [hinv.rord x hx]; exact hl, hxp⟩

/-- Witness for C2: the point `(0, 3)` of `[0,4) x [0,4)` minus `[1,2) x [1,2)`. -/
theorem MultiSubtract_exact_difference_witness :
    (∃ x ∈ MultiSubtract (newMinMax 2 [0, 0] [4, 4]) (newMinMax 2 [1, 1] [2, 2]),
        x.Contains [0, 3] = some true) ↔
      ((newMinMax 2 [0, 0] [4, 4]).Contains [0, 3] = some true ∧
       (newMinMax 2 [1, 1] [2, 2]).Contains [0, 3] = some false) :=
  MultiSubtract_exact_difference (newMinMax 2 [0, 0] [4, 4]) (newMinMax 2 [1, 1] [2, 2])
    (by decide) (by decide) (by decide) [0, 3]

end AxisAlignedHyperRectangle

namespace AxisAlignedHyperRectangle

/-- Counterexample for C3: `A = [-1,1) x [-1,1)` and the canonical empty box
`B = [0,0) x [0,0)` satisfy the box invariant, and `A.MultiSubtract(B)` returns a box (the
slice `[0,0) x [-1,0)`) of zero volume whose bounds differ on the axis `1`. -/
theorem MultiSubtract_empty_operand_counterexample :
    BoxInv (newMinMax 2 [-1, -1] [1, 1]) ∧ BoxInv (newMinMax 2 [0, 0] [0, 0]) ∧
    ∃ x ∈ MultiSubtract (newMinMax 2 [-1, -1] [1, 1]) (newMinMax 2 [0, 0] [0, 0]),
      x.volume = 0 ∧ x.min_.coord 1 ≠ x.max_.coord 1 := by
  decide

/-- C3 (amended): the box invariant (`min[d] <= max[d]` on every axis, and an empty box has
`min[d] == max[d]` on every axis) holds for the box of the empty constructor and of the
unit-point constructor, and for every box produced from operands satisfying it by `Add`,
`Subtract`, the trend-aware `operator-` (the returned delta and `*this`), `MergeIfAdjacent`
and `Translate`. Every box returned by `MultiSubtract` has `min[d] <= max[d]` on every axis,
and satisfies the whole invariant when the subtracted box is not empty. -/
theorem box_invariant :
    (∀ n, BoxInv (new n)) ∧
    (∀ n p x, newUnit n p = some x → BoxInv x) ∧
    (∀ A S extrude R, BoxInv A → BoxInv S → A.Add S extrude = some R → BoxInv R) ∧
    (∀ A S g R, BoxInv A → BoxInv S → A.Subtract S = some (g, R) → BoxInv R) ∧
    (∀ flag A S D A', BoxInv A → BoxInv S → minus flag A S = some (D, A') →
      BoxInv D ∧ BoxInv A') ∧
    (∀ A B, BoxInv A → BoxInv B → B.order_ = A.order_ →
      ∀ x ∈ A.MultiSubtract B, WF x ∧ Ordered x ∧ (B.volume ≠ 0 → BoxInv x)) ∧
    (∀ A p ok R, BoxInv A → A.MergeIfAdjacent p = some (ok, R) → BoxInv R) ∧
    (∀ A p R, BoxInv A → A.Translate p = some R → BoxInv R) :=
  ⟨BoxInv_new,
   BoxInv_newUnit,
   fun A S extrude R hA hS h => BoxInv_Add A S extrude R hA hS h,
   fun A S g R hA _ h => BoxInv_Subtract A S g R hA h,
   fun flag A S D A' hA _ h => BoxInv_minus flag A S D A' hA h,
   BoxInv_MultiSubtract,
   fun A p ok R hA h => BoxInv_MergeIfAdjacent A p ok R hA h,
   fun A p R hA h => BoxInv_Translate A p R hA h⟩

/-- Witness for C3 (amended): the union of `[0,2)` and `[2,4)`, and the boxes of
`[0,4) x [0,4)` minus `[1,2) x [1,2)`. -/
theorem box_invariant_witness :
    BoxInv (newMinMax 1 [0] [4]) ∧
    ∀ x ∈ MultiSubtract (newMinMax 2 [0, 0] [4, 4]) (newMinMax 2 [1, 1] [2, 2]),
      WF x ∧ Ordered x ∧ ((newMinMax 2 [1, 1] [2, 2]).volume ≠ 0 → BoxInv x) :=
  ⟨box_invariant.2.2.1 (newMinMax 1 [0] [2]) (newMinMax 1 [2] [4]) false
      (newMinMax 1 [0] [4]) (by decide) (by decide) (by decide),
   box_invariant.2.2.2.2.2.1 (newMinMax 2 [0, 0] [4, 4]) (newMinMax 2 [1, 1] [2, 2])
      (by decide) (by decide) (by decide)⟩

end AxisAlignedHyperRectangle

namespace AxisAlignedHyperRectangle

/-- Counterexample for C4, in three parts. First, `A = [0,6)` and `B = [2,4)` are non-empty,
differ along exactly one axis and overlap, `A.Add(B)` leaves `[0,6)`, and the following
`Subtract(B)` hits the fracture assertion instead of completing. Second,
`A = [0,65536)^4` and `B = [1,65537) x [0,65536)^3` are non-empty, differ along the first
axis only and overlap, but their volume is `2^64`, so `size()` is `0` for both: `A.Add(B)`
replaces `A` by `B`, the following `Subtract(B)` returns at once, and the box that is left is
`B`, whose volume is not the volume of `A` minus the volume of the overlap. Third,
`A = [0,65535) x [0,65536)^3` and `B = [1,65536) x [0,65536)^3` have a non-zero `size()`,
but their union `[0,65536)^4` has not: `Subtract(B)` returns at once and leaves the union,
whose volume is again not the volume of `A` minus the volume of the overlap. -/
theorem Add_then_Subtract_counterexample :
    ((newMinMax 1 [0] [6]).volume ≠ 0 ∧ (newMinMax 1 [2] [4]).volume ≠ 0 ∧
     (newMinMax 1 [0] [6]).Contains [3] = some true ∧
     (newMinMax 1 [2] [4]).Contains [3] = some true ∧
     Add (newMinMax 1 [0] [6]) (newMinMax 1 [2] [4]) false = some (newMinMax 1 [0] [6]) ∧
     Add (newMinMax 1 [0] [6]) (newMinMax 1 [2] [4]) true = some (newMinMax 1 [0] [6]) ∧
     Subtract (newMinMax 1 [0] [6]) (newMinMax 1 [2] [4]) = none) ∧
    ((newMinMax 4 [0, 0, 0, 0] [65536, 65536, 65536, 65536]).volume ≠ 0 ∧
     (newMinMax 4 [1, 0, 0, 0] [65537, 65536, 65536, 65536]).volume ≠ 0 ∧
     (newMinMax 4 [0, 0, 0, 0] [65536, 65536, 65536, 65536]).Contains [1, 0, 0, 0]
       = some true ∧
     (newMinMax 4 [1, 0, 0, 0] [65537, 65536, 65536, 65536]).Contains [1, 0, 0, 0]
       = some true ∧
     (newMinMax 4 [0, 0, 0, 0] [65536, 65536, 65536, 65536]).size = 0 ∧
     (newMinMax 4 [1, 0, 0, 0] [65537, 65536, 65536, 65536]).size = 0 ∧
     Add (newMinMax 4 [0, 0, 0, 0] [65536, 65536, 65536, 65536])
         (newMinMax 4 [1, 0, 0, 0] [65537, 65536, 65536, 65536]) false
       = some (newMinMax 4 [1, 0, 0, 0] [65537, 65536, 65536, 65536]) ∧
     Subtract (newMinMax 4 [1, 0, 0, 0] [65537, 65536, 65536, 65536])
         (newMinMax 4 [1, 0, 0, 0] [65537, 65536, 65536, 65536])
       = some (Gradient.new 4, newMinMax 4 [1, 0, 0, 0] [65537, 65536, 65536, 65536]) ∧
     (newMinMax 4 [1, 0, 0, 0] [65537, 65536, 65536, 65536]).volume
       ≠ (newMinMax 4 [0, 0, 0, 0] [65536, 65536, 65536, 65536]).volume
         - (intersection (newMinMax 4 [0, 0, 0, 0] [65536, 65536, 65536, 65536])
             (newMinMax 4 [1, 0, 0, 0] [65537, 65536, 65536, 65536])).volume) ∧
    ((newMinMax 4 [0, 0, 0, 0] [65535, 65536, 65536, 65536]).size ≠ 0 ∧
     (newMinMax 4 [1, 0, 0, 0] [65536, 65536, 65536, 65536]).size ≠ 0 ∧
     (newMinMax 4 [0, 0, 0, 0] [65535, 65536, 65536, 65536]).Contains [1, 0, 0, 0]
       = some true ∧
     (newMinMax 4 [1, 0, 0, 0] [65536, 65536, 65536, 65536]).Contains [1, 0, 0, 0]
       = some true ∧
     Add (newMinMax 4 [0, 0, 0, 0] [65535, 65536, 65536, 65536])
         (newMinMax 4 [1, 0, 0, 0] [65536, 65536, 65536, 65536]) false
       = some (newMinMax 4 [0, 0, 0, 0] [65536, 65536, 65536, 65536]) ∧
     (newMinMax 4 [0, 0, 0, 0] [65536, 65536, 65536, 65536]).size = 0 ∧
     Subtract (newMinMax 4 [0, 0, 0, 0] [65536, 65536, 65536, 65536])
         (newMinMax 4 [1, 0, 0, 0] [65536, 65536, 65536, 65536])
       = some (Gradient.new 4, newMinMax 4 [0, 0, 0, 0] [65536, 65536, 65536, 65536]) ∧
     (newMinMax 4 [0, 0, 0, 0] [65536, 65536, 65536, 65536]).volume
       ≠ (newMinMax 4 [0, 0, 0, 0] [65535, 65536, 65536, 65536]).volume
         - (intersection (newMinMax 4 [0, 0, 0, 0] [65535, 65536, 65536, 65536])
             (newMinMax 4 [1, 0, 0, 0] [65536, 65536, 65536, 65536])).volume) := by
  decide

/-- C4 (amended): for boxes `A` and `B` with a non-zero `size()` (the volume modulo `2^64`)
whose bounds differ along exactly one axis `d`, which overlap, and where `B` does not lie
strictly inside `A` along `d` (`B` covers at least one end of `A`), starting from `A`,
`Add(B)` followed by `Subtract(B)` completes, and when `size()` of the union is not zero
either, it leaves a box whose volume equals the volume of `A` minus the volume of the
overlap of `A` and `B`. -/
theorem Add_then_Subtract_volume (A B : AxisAlignedHyperRectangle) (extrude : Bool) (d : Nat)
    (hA : WF A) (ho : A.order_ = B.order_) (hAo : Ordered A) (hBo : Ordered B)
    (hAne : A.size ≠ 0) (hBne : B.size ≠ 0) (hBwf : WF B) (hd : d < A.order_)
    (hsame : ∀ i, i < A.order_ → i ≠ d →
      A.min_.coord i = B.min_.coord i ∧ A.max_.coord i = B.max_.coord i)
    (hdiff : A.min_.coord d ≠ B.min_.coord d ∨ A.max_.coord d ≠ B.max_.coord d)
    (hov : B.min_.coord d < A.max_.coord d ∧ A.min_.coord d < B.max_.coord d)
    (hcover : B.min_.coord d ≤ A.min_.coord d ∨ B.max_.coord d ≥ A.max_.coord d) :
    ∃ U g R, A.Add B extrude = some U ∧ U.Subtract B = some (g, R) ∧
      (U.size ≠ 0 → R.volume = A.volume - (intersection A B).volume) := by
  obtain ⟨U, hU, hUo, hUwf, -, hUmin, hUmax⟩ :=
    Add_single A B extrude d hA ho hAo hBo hAne hBne hd hsame hdiff
      (by unfold Touches; omega)
  by_cases hUne : U.size = 0
  · refine ⟨U, Gradient.new U.order_, U, hU, ?_, fun h => absurd hUne h⟩
    unfold Subtract
    rw [if_neg (by rw [hUo, ho]; simp), if_pos (Or.inl hUne)]
  suffices h : ∃ g R, U.Subtract B = some (g, R) ∧
      R.volume = A.volume - (intersection A B).volume by
    obtain ⟨g, R, h1, h2⟩ := h
    exact ⟨U, g, R, hU, h1, fun _ => h2⟩
  have hAlt := lt_of_size_ne_zero A hA hAo hAne
  have hBlt := lt_of_size_ne_zero B hBwf hBo hBne
  have hpos : 0 < A.order_ := by omega
  have hAd := hAlt d hd
  have hBd := hBlt d (by omega)
  -- the volumes of `A` and of the intersection, relative to the axis `d`
  have hvA := vol_of_agree A A d hd rfl (fun i _ _ => ⟨rfl, rfl⟩)
  have hvI := vol_of_agree A (intersection A B) d hd (intersection_order A B) (by
    intro i hi hid
    rw [intersection_min_coord A B i hi, intersection_max_coord A B i hi]
    have := hsame i hi hid
    have := hAlt i hi
    omega)
  rw [intersection_min_coord A B d hd, intersection_max_coord A B d hd] at hvI
  rw [volume_eq_vol A hpos,
    volume_eq_vol (intersection A B) (by rw [intersection_order]; exact hpos), hvA, hvI]
  have hUB : U.order_ = B.order_ := by rw [hUo, ho]
  have hUd : d < U.order_ := by omega
  by_cases hcov : B.min_.coord d ≤ A.min_.coord d ∧ B.max_.coord d ≥ A.max_.coord d
  · -- `B` covers `A`: the union is `B`, and the difference is empty
    have heq : U.eq B = some true := by
      apply eq_eq_some_true U B hUB
      intro i hi
      rw [hUo] at hi
      rw [hUmin i hi, hUmax i hi]
      by_cases hid : i = d
      · subst hid; omega
      · have := hsame i hi hid
        omega
    refine ⟨Gradient.new U.order_, U.Reset, ?_, ?_⟩
    · unfold Subtract
      rw [if_neg (by simpa using hUB), if_neg (by simp [hUne, hBne]), heq]
    · rw [volume_Reset U]
      have h1 : max (A.min_.coord d) (B.min_.coord d) = A.min_.coord d := by omega
      have h2 : min (A.max_.coord d) (B.max_.coord d) = A.max_.coord d := by omega
      rw [h1, h2]
      have h3 : max (A.min_.coord d) (A.max_.coord d) = A.max_.coord d := by omega
      rw [h3]; ring
  · have hS := Subtract_single U B d hUwf hUB hUne hBne hUd
      (by
        intro i hi
        rw [hUo] at hi
        rw [hUmin i hi, hUmax i hi]
        have := hBlt i (by omega)
        omega)
      (by
        intro i hi hid
        rw [hUo] at hi
        rw [hUmin i hi, hUmax i hi]
        have := hsame i hi hid
        omega)
      (by
        rw [hUmin d hd, hUmax d hd]
        omega)
    rw [hUmin d hd, hUmax d hd] at hS
    by_cases c1 : B.min_.coord d ≤ A.min_.coord d
    · have c2 : B.max_.coord d < A.max_.coord d := by omega
      rw [if_pos (by omega), if_pos (by omega)] at hS
      refine ⟨_, _, hS, ?_⟩
      have hvR := vol_of_agree A (U.setMin d (B.max_.coord d)) d hd (by rw [setMin_order, hUo])
        (by
          intro i hi hid
          rw [setMin_min_coord, setMin_max, if_neg (by rintro ⟨h, -⟩; exact hid h.symm),
            hUmin i hi, hUmax i hi]
          have := hsame i hi hid
          omega)
      rw [setMin_min_coord, setMin_max, hUmax d hd, if_pos ⟨rfl, by rw [hUwf.1]; exact hUd⟩]
        at hvR
      rw [volume_eq_vol _ (by rw [setMin_order]; omega), hvR]
      have h1 : max (A.max_.coord d) (B.max_.coord d) = A.max_.coord d := by omega
      have h2 : max (A.min_.coord d) (B.min_.coord d) = A.min_.coord d := by omega
      have h3 : min (A.max_.coord d) (B.max_.coord d) = B.max_.coord d := by omega
      rw [h1, h2, h3]
      have h4 : max (A.min_.coord d) (B.max_.coord d) = B.max_.coord d := by omega
      rw [h4]; ring
    · have c2 : B.max_.coord d ≥ A.max_.coord d := by omega
      rw [if_neg (by omega), if_neg (by omega)] at hS
      refine ⟨_, _, hS, ?_⟩
      have hvR := vol_of_agree A (U.setMax d (B.min_.coord d)) d hd (by rw [setMax_order, hUo])
        (by
          intro i hi hid
          rw [setMax_max_coord, setMax_min, if_neg (by rintro ⟨h, -⟩; exact hid h.symm),
            hUmin i hi, hUmax i hi]
          have := hsame i hi hid
          omega)
      rw [setMax_max_coord, setMax_min, hUmin d hd, if_pos ⟨rfl, by rw [hUwf.2]; exact hUd⟩]
        at hvR
      rw [volume_eq_vol _ (by rw [setMax_order]; omega), hvR]
      have h1 : min (A.min_.coord d) (B.min_.coord d) = A.min_.coord d := by omega
      have h2 : max (A.min_.coord d) (B.min_.coord d) = B.min_.coord d := by omega
      have h3 : min (A.max_.coord d) (B.max_.coord d) = A.max_.coord d := by omega
      rw [h1, h2, h3]
      have h4 : max (B.min_.coord d) (A.max_.coord d) = A.max_.coord d := by omega
      rw [h4]; ring

/-- Witness for C4 (amended): `A = [0,4) x [0,2)` and `B = [2,6) x [0,2)`. -/
theorem Add_then_Subtract_volume_witness :
    ∃ U g R, Add (newMinMax 2 [0, 0] [4, 2]) (newMinMax 2 [2, 0] [6, 2]) false = some U ∧
      U.Subtract (newMinMax 2 [2, 0] [6, 2]) = some (g, R) ∧
      (U.size ≠ 0 → R.volume = (newMinMax 2 [0, 0] [4, 2]).volume
        - (intersection (newMinMax 2 [0, 0] [4, 2]) (newMinMax 2 [2, 0] [6, 2])).volume) :=
  Add_then_Subtract_volume (newMinMax 2 [0, 0] [4, 2]) (newMinMax 2 [2, 0] [6, 2]) false 0
    (by decide) (by decide) (by decide) (by decide) (by decide) (by decide) (by decide)
    (by decide) (by decide) (by decide) (by decide) (by decide)

end AxisAlignedHyperRectangle

namespace AxisAlignedHyperRectangle

/-- Counterexample for C5, in two parts. First, the sequence that consists of
`B(0) = [0,4) x [0,4)` alone (`n = 0`), with a zero stored gradient: the next box
`X = [0,4) x [1,5)` is `B(0)` shifted along the axis `1`, and evaluating `X - B(0)` stores
the gradient `3` along the axis `1` in `X`, not zero, because the stored gradient of `B(0)`
is zero and the newly computed gradient is adopted. Second, `B(0) = [0,65536)^4` and
`B(1) = [0,65536) x [1,65537) x [0,65536)^2`, which is `B(0)` shifted by `1` along the axis
`1`: the volume is `2^64`, `size()` is `0`, and evaluating `B(1) - B(0)` stores the zero
gradient (axis `0`, value `0`) in `B(1)`, not a gradient along the axis `1`. -/
theorem gradient_trend_continuity_counterexample :
    ((newMinMax 2 [0, 0] [4, 4]).gradient_.value = 0 ∧
     IsShift (newMinMax 2 [0, 0] [4, 4]) (newMinMax 2 [0, 1] [4, 5]) 1 1 ∧
     trendRun (fun _ => newMinMax 2 [0, 0] [4, 4]) 0 = some (newMinMax 2 [0, 0] [4, 4]) ∧
     (minus true (newMinMax 2 [0, 1] [4, 5]) (newMinMax 2 [0, 0] [4, 4])).map
         (fun r => r.2.gradient_)
       = some { order := 2, dimension := 1, value := 3 }) ∧
    ((newMinMax 4 [0, 0, 0, 0] [65536, 65536, 65536, 65536]).gradient_.value = 0 ∧
     IsShift (newMinMax 4 [0, 0, 0, 0] [65536, 65536, 65536, 65536])
       (newMinMax 4 [0, 1, 0, 0] [65536, 65537, 65536, 65536]) 1 1 ∧
     (newMinMax 4 [0, 0, 0, 0] [65536, 65536, 65536, 65536]).Contains [0, 1, 0, 0]
       = some true ∧
     (newMinMax 4 [0, 1, 0, 0] [65536, 65537, 65536, 65536]).Contains [0, 1, 0, 0]
       = some true ∧
     (newMinMax 4 [0, 0, 0, 0] [65536, 65536, 65536, 65536]).size = 0 ∧
     (trendRun
         (fun i => newMinMax 4 [0, (i : Int), 0, 0] [65536, (i : Int) + 65536, 65536, 65536])
         1).map (fun r => r.gradient_)
       = some { order := 4, dimension := 0, value := 0 }) := by
  decide

/-- C5 (amended): gradient trend continuity, with `gResetOnStrideChange` on. Let `B(0)` be a
box with non-empty ranges, a non-zero `size()` (the volume modulo `2^64`) and a zero stored
gradient, and let each `B(i+1)`, `i < n`, have the bounds of `B(i)` shifted by the same
non-zero offset `delta` along the axis `a`, smaller in absolute value than the extent along
`a`, so that consecutive boxes overlap. Evaluating `B(i+1) - B(i)` in order completes and
stores the same non-zero gradient, along the axis `a`, in every `B(i+1)`. If, after at least
one such step (`n >= 1`), the next box is `B(n)` shifted along a different axis `b`,
evaluating it minus `B(n)` completes and leaves its stored gradient equal to zero. -/
theorem gradient_trend_continuity (Bs : Nat → AxisAlignedHyperRectangle) (n a : Nat)
    (delta : Int)
    (h0lt : ∀ j, j < (Bs 0).order_ → (Bs 0).min_.coord j < (Bs 0).max_.coord j)
    (h0sz : (Bs 0).size ≠ 0)
    (h0g : (Bs 0).gradient_.value = 0)
    (ha : a < (Bs 0).order_) (hd0 : delta ≠ 0)
    (hsmall : -((Bs 0).max_.coord a - (Bs 0).min_.coord a) < delta ∧
      delta < (Bs 0).max_.coord a - (Bs 0).min_.coord a)
    (hseq : ∀ i, i < n → IsShift (Bs i) (Bs (i + 1)) a delta) :
    (∃ v, v ≠ 0 ∧ ∀ i, i < n → ∃ B', trendRun Bs (i + 1) = some B' ∧
      B'.min_ = (Bs (i + 1)).min_ ∧ B'.max_ = (Bs (i + 1)).max_ ∧
      B'.gradient_.dimension = a ∧ B'.gradient_.value = v) ∧
    (∀ (b : Nat) (eps : Int) (X : AxisAlignedHyperRectangle),
      1 ≤ n → b < (Bs 0).order_ → b ≠ a → IsShift (Bs n) X b eps →
      ∃ Bn' D X', trendRun Bs n = some Bn' ∧ minus true X Bn' = some (D, X') ∧
        X'.gradient_ = Gradient.new X.order_) := by
  have hspec := trendRun_spec Bs n a delta h0lt h0sz h0g ha hd0 hsmall hseq
  constructor
  · refine ⟨if 0 < delta then (Bs 0).max_.coord a - (Bs 0).min_.coord a - delta
        else -((Bs 0).max_.coord a - (Bs 0).min_.coord a) - delta, ?_, fun i hi => ?_⟩
    · split_ifs <;> omega
    · obtain ⟨B', hrun, -, hmin, hmax, -, -, -, -, -, hg⟩ := hspec (i + 1) (by omega)
      exact ⟨B', hrun, hmin, hmax, (hg (by omega)).1, (hg (by omega)).2⟩
  · intro b eps X hn hb hab hX
    obtain ⟨Bn', hrun, hBo, hBmin, hBmax, hord, hsz, hlt, -, -, hg⟩ := hspec n (le_refl _)
    have hX' : IsShift Bn' X b eps := by
      unfold IsShift at hX ⊢
      rw [hBo, hBmin, hBmax]
      exact hX
    obtain ⟨D, X', hm, hgX⟩ := minus_shift_break Bn' X a b eps
      (by rw [hBo, hBmin, hBmax, hord]; exact hlt)
      (by rw [size_congr (Bs n) Bn' hBo hBmin hBmax]; exact hsz)
      (by rw [hBo, hord]; exact hb) hab hX'
      ⟨(hg (by omega)).1, by
        rw [(hg (by omega)).2]
        split_ifs <;> omega⟩
    exact ⟨Bn', D, X', hrun, hm, hgX⟩

end AxisAlignedHyperRectangle

namespace AxisAlignedHyperRectangle

/-- Witness for C5 (amended): the boxes `[i, i+4) x [0,4)` for `i = 0, 1, 2`, a window
sliding by `1` along the axis `0`. -/
theorem gradient_trend_continuity_witness :
    (∃ v, v ≠ 0 ∧ ∀ i, i < 2 → ∃ B',
      trendRun (fun i => newMinMax 2 [(i : Int), 0] [(i : Int) + 4, 4]) (i + 1) = some B' ∧
      B'.min_ = (newMinMax 2 [((i + 1 : Nat) : Int), 0] [((i + 1 : Nat) : Int) + 4, 4]).min_ ∧
      B'.max_ = (newMinMax 2 [((i + 1 : Nat) : Int), 0] [((i + 1 : Nat) : Int) + 4, 4]).max_ ∧
      B'.gradient_.dimension = 0 ∧ B'.gradient_.value = v) ∧
    (∀ (b : Nat) (eps : Int) (X : AxisAlignedHyperRectangle),
      1 ≤ 2 → b < (newMinMax 2 [((0 : Nat) : Int), 0] [((0 : Nat) : Int) + 4, 4]).order_ →
      b ≠ 0 →
      IsShift (newMinMax 2 [((2 : Nat) : Int), 0] [((2 : Nat) : Int) + 4, 4]) X b eps →
      ∃ Bn' D X',
        trendRun (fun i => newMinMax 2 [(i : Int), 0] [(i : Int) + 4, 4]) 2 = some Bn' ∧
        minus true X Bn' = some (D, X') ∧ X'.gradient_ = Gradient.new X.order_) :=
  gradient_trend_continuity (fun i => newMinMax 2 [(i : Int), 0] [(i : Int) + 4, 4]) 2 0 1
    (by decide) (by decide) (by decide) (by decide) (by decide) (by decide) (by decide)

end AxisAlignedHyperRectangle

namespace AxisAlignedHyperRectangle

end AxisAlignedHyperRectangle

namespace AxisAlignedHyperRectangle

end AxisAlignedHyperRectangle

section Inference

/-- C8: the propagation scenario without buffering. The consumer einsum `C` reads only the
tensor `T`, which the einsum `P` of the fusion set writes; `P` reads no tensor with a writer
in the fusion set; `C` reads `T` at the coordinate of its iteration and `P` writes it with
the identity; the reuse-level table has no entry for `T`; the tiling of `C` relates its
tiles to the iteration points `[0, 4)`. Then the inference started at `C` completes, and
leaves for `P` the tiling entry that relates a tile to exactly the points of `[0, 4)` that
lie in the legal iteration-space bound of `P` and were related to the tile by the prior entry
of `P`. -/
theorem propagation_scenario_no_buffering
    (dim_in : (Point → Point → Prop) → Nat)
    (MapToPriorData : Nat → Nat → Point → Point → Prop)
    (workload : FusedWorkload (Point → Point → Prop) (Point → Prop))
    (reuse : DataSpaceId → Option Nat) (einsums : List EinsumId)
    (table : TilingInfo (Point → Point → Prop)) (P C : EinsumId) (T : DataSpaceId)
    (tilingC priorP : Point → Point → Prop) (tiles : Point → Prop)
    (hreadsC : workload.TensorsReadByEinsum C = [T])
    (hwriter : workload.WriterEinsum T = some P)
    (hP : P ∈ einsums)
    (hreadsP : producers workload einsums P = [])
    (hread : workload.ReadAccesses C T = fun i x => x = i)
    (hwrite : workload.WriteAccesses P T = fun i x => x = i)
    (hreuse : reuse T = none)
    (htC : table C = some tilingC) (htP : table P = some priorP)
    (hcover : ∀ t i, tilingC t i ↔ (tiles t ∧ ∃ k : Int, i = [k] ∧ 0 ≤ k ∧ k < 4)) :
    ∃ fuel table' newP,
      ConsumerBasedTileShapeInference (relOps dim_in MapToPriorData) table reuse einsums
        workload C fuel = Outcome.finished table' ∧
      table' P = some newP ∧
      ∀ t i, newP t i ↔
        (priorP t i ∧ (tiles t ∧ ∃ k : Int, i = [k] ∧ 0 ≤ k ∧ k < 4) ∧
          workload.EinsumOspaceBound P i) := by
  have hw := inFusionWriter_eq_some workload einsums T P hwriter hP
  have hskip : ∀ tensor ∈ workload.TensorsReadByEinsum P,
      inFusionWriter workload einsums tensor = none := by
    intro tensor ht
    unfold producers at hreadsP
    rw [List.filterMap_eq_nil_iff] at hreadsP
    exact hreadsP tensor ht
  let ops := relOps dim_in MapToPriorData
  let newP : Point → Point → Prop :=
    ops.intersect priorP
      (ops.intersect_range
        (ops.apply_range (ops.apply_range tilingC (workload.ReadAccesses C T))
          (ops.reverse (workload.WriteAccesses P T)))
        (workload.EinsumOspaceBound P))
  have hstep : tensorStep ops workload reuse einsums C (table, []) T
      = some (table.assign P newP, [P]) := by
    rw [tensorStep_writer ops workload reuse einsums C _ T P tilingC hw htC]
    simp only [htP, hreuse, List.nil_append]
  have hPentry : (table.assign P newP) P = some newP := by
    simp only [TilingInfo.assign, if_true]
  refine ⟨2, table.assign P newP, newP, ?_, hPentry, ?_⟩
  · unfold ConsumerBasedTileShapeInference
    rw [inferLoop_cons, htC, hreadsC]
    simp only [List.foldlM_cons, List.foldlM_nil, hstep, Option.bind_eq_bind, Option.some_bind,
      Option.pure_def]
    rw [inferLoop_cons, hPentry, tensorFold_skip ops workload reuse einsums P _ _ hskip]
    exact inferLoop_nil ops workload reuse einsums 0 _
  · intro t i
    simp only [newP, ops, relOps, hread, hwrite, hcover]
    constructor
    · rintro ⟨h1, ⟨y, ⟨y', hy', rfl⟩, rfl⟩, h3⟩
      exact ⟨h1, hy', h3⟩
    · rintro ⟨h1, h2, h3⟩
      exact ⟨h1, ⟨i, ⟨i, h2, rfl⟩, rfl⟩, h3⟩

/-- Witness for C8: the two-stage pipeline over relations, with the consumer `1`, the
producer `0`, the tensor `0`, one tile relation for both einsums and the legal bound
`[0, 3)` for the producer. -/
theorem propagation_scenario_no_buffering_witness :
    ∃ fuel table' newP,
      ConsumerBasedTileShapeInference (relOps (fun _ => 1) (fun _ _ _ _ => False))
        (fun _ => some (fun _ i => True ∧ ∃ k : Int, i = [k] ∧ 0 ≤ k ∧ k < 4))
        (fun _ => none) [0, 1] twoStageRel 1 fuel = Outcome.finished table' ∧
      table' 0 = some newP ∧
      ∀ t i, newP t i ↔
        ((True ∧ ∃ k : Int, i = [k] ∧ 0 ≤ k ∧ k < 4) ∧
         (True ∧ ∃ k : Int, i = [k] ∧ 0 ≤ k ∧ k < 4) ∧
          twoStageRel.EinsumOspaceBound 0 i) :=
  propagation_scenario_no_buffering (fun _ => 1) (fun _ _ _ _ => False) twoStageRel
    (fun _ => none) [0, 1]
    (fun _ => some (fun _ i => True ∧ ∃ k : Int, i = [k] ∧ 0 ≤ k ∧ k < 4)) 0 1 0
    (fun _ i => True ∧ ∃ k : Int, i = [k] ∧ 0 ≤ k ∧ k < 4)
    (fun _ i => True ∧ ∃ k : Int, i = [k] ∧ 0 ≤ k ∧ k < 4) (fun _ => True)
    rfl rfl (by decide) rfl rfl rfl rfl rfl rfl (fun _ _ => Iff.rfl)

end Inference

section Inference

/-- Counterexample for C9: in the two-stage pipeline with both einsums in the fusion set and
a table that has an entry for the start einsum `1` only, the propagation throws (the lookup
`tiling_info.at(prod_einsum)` of the producer `0` fails), whatever the fuel: it never
completes. -/
theorem inference_missing_producer_counterexample :
    ((fun e => if e = 1 then some () else none : TilingInfo Unit) 1).isSome = true ∧
    ConsumerBasedTileShapeInference unitOps (fun e => if e = 1 then some () else none)
      (fun _ => none) [0, 1] twoStage 1 5 = Outcome.threw ∧
    ¬ ∃ fuel table', ConsumerBasedTileShapeInference unitOps
      (fun e => if e = 1 then some () else none) (fun _ => none) [0, 1] twoStage 1 fuel
        = Outcome.finished table' := by
  refine ⟨rfl, rfl, ?_⟩
  rintro ⟨fuel, table', h⟩
  cases fuel with
  | zero => exact Outcome.noConfusion h
  | succ fuel => exact Outcome.noConfusion h

/-- C9 (amended): for every workload whose producer relation decreases a ranking of the
einsums (it is acyclic) and every fusion set, if the tiling table has an entry for the start
einsum and for every upstream producer that can be visited, the propagation completes
without error, and afterwards the table has an entry for every visited einsum; its set of
keys is the one it had before. -/
theorem inference_completes_with_entries {M S : Type} (ops : IslOps M S)
    (workload : FusedWorkload M S) (reuse : DataSpaceId → Option Nat)
    (einsums : List EinsumId) (start : EinsumId) (table : TilingInfo M)
    (rank : EinsumId → Nat)
    (hrank : ∀ e p, p ∈ producers workload einsums e → rank p < rank e)
    (hentries : ∀ e, Reach workload einsums start e → (table e).isSome = true) :
    ∃ fuel table',
      ConsumerBasedTileShapeInference ops table reuse einsums workload start fuel
        = Outcome.finished table' ∧
      (∀ e, Reach workload einsums start e → (table' e).isSome = true) ∧
      ∀ x, (table' x).isSome = (table x).isSome := by
  obtain ⟨table', hrun, hkeys⟩ := inferLoop_finishes ops workload reuse einsums start rank
    hrank (visitCost workload einsums (rank start) start) table [start]
    (by
      intro e he
      rw [List.mem_singleton] at he
      subst he
      exact Reach.start)
    hentries (by simp)
  exact ⟨_, table', hrun, fun e he => by rw [hkeys e]; exact hentries e he, hkeys⟩

/-- Witness for C9 (amended): the two-stage pipeline with entries for both einsums. -/
theorem inference_completes_with_entries_witness :
    ∃ fuel table',
      ConsumerBasedTileShapeInference unitOps (fun _ => some ()) (fun _ => none) [0, 1]
        twoStage 1 fuel = Outcome.finished table' ∧
      (∀ e, Reach twoStage [0, 1] 1 e → (table' e).isSome = true) ∧
      ∀ x, (table' x).isSome = ((fun _ => some () : TilingInfo Unit) x).isSome :=
  inference_completes_with_entries unitOps twoStage (fun _ => none) [0, 1] 1
    (fun _ => some ()) (fun e => e)
    (by
      intro e p hp
      unfold producers twoStage at hp
      by_cases he : e = 1
      · subst he
        simp [inFusionWriter] at hp
        subst hp
        exact Nat.zero_lt_one
      · simp [he] at hp)
    (fun _ _ => rfl)

end Inference

namespace AxisAlignedHyperRectangle

/-- Counterexample for C10, in two parts. First, the non-empty boxes `[0,2) x [0,2)` and
`[0,1) x [0,1)` have different extents on both axes, and `Add` returns normally (leaving
`*this` unchanged), with and without extrusion. Second, `A = [0,65536)^4` and
`S = [0,65537)^2 x [0,65536)^2` are non-empty and `S` reaches beyond `A` on two axes, but
the volume of `A` is `2^64`, so `size()` is `0` for `A`, and `Add` returns normally with `A`
replaced by `S`. -/
theorem Add_two_axes_differ_counterexample :
    ((newMinMax 2 [0, 0] [2, 2]).volume ≠ 0 ∧ (newMinMax 2 [0, 0] [1, 1]).volume ≠ 0 ∧
     (newMinMax 2 [0, 0] [2, 2]).max_.coord 0 ≠ (newMinMax 2 [0, 0] [1, 1]).max_.coord 0 ∧
     (newMinMax 2 [0, 0] [2, 2]).max_.coord 1 ≠ (newMinMax 2 [0, 0] [1, 1]).max_.coord 1 ∧
     Add (newMinMax 2 [0, 0] [2, 2]) (newMinMax 2 [0, 0] [1, 1]) false
       = some (newMinMax 2 [0, 0] [2, 2]) ∧
     Add (newMinMax 2 [0, 0] [2, 2]) (newMinMax 2 [0, 0] [1, 1]) true
       = some (newMinMax 2 [0, 0] [2, 2])) ∧
    ((newMinMax 4 [0, 0, 0, 0] [65536, 65536, 65536, 65536]).volume ≠ 0 ∧
     (newMinMax 4 [0, 0, 0, 0] [65537, 65537, 65536, 65536]).volume ≠ 0 ∧
     Extends (newMinMax 4 [0, 0, 0, 0] [65536, 65536, 65536, 65536])
       (newMinMax 4 [0, 0, 0, 0] [65537, 65537, 65536, 65536]) 0 ∧
     Extends (newMinMax 4 [0, 0, 0, 0] [65536, 65536, 65536, 65536])
       (newMinMax 4 [0, 0, 0, 0] [65537, 65537, 65536, 65536]) 1 ∧
     (newMinMax 4 [0, 0, 0, 0] [65536, 65536, 65536, 65536]).size = 0 ∧
     Add (newMinMax 4 [0, 0, 0, 0] [65536, 65536, 65536, 65536])
         (newMinMax 4 [0, 0, 0, 0] [65537, 65537, 65536, 65536]) false
       = some (newMinMax 4 [0, 0, 0, 0] [65537, 65537, 65536, 65536]) ∧
     Add (newMinMax 4 [0, 0, 0, 0] [65536, 65536, 65536, 65536])
         (newMinMax 4 [0, 0, 0, 0] [65537, 65537, 65536, 65536]) true
       = some (newMinMax 4 [0, 0, 0, 0] [65537, 65537, 65536, 65536])) := by
  decide

/-- C10 (amended): for boxes `A` and `S` of the same order with ordered bounds and a
non-zero `size()` (the volume modulo `2^64`), if `S` reaches beyond the range of `A` (below
its minimum or above its maximum) on more than one axis, `A.Add(S, extrude)` hits an
assertion, for either value of `extrude`. -/
theorem Add_fatal_of_two_extending_axes (A S : AxisAlignedHyperRectangle) (extrude : Bool)
    (hA : WF A) (ho : A.order_ = S.order_) (hAo : Ordered A) (hSo : Ordered S)
    (hAne : A.size ≠ 0) (hSne : S.size ≠ 0)
    (d1 d2 : Nat) (h12 : d1 ≠ d2) (h1 : d1 < A.order_) (h2 : d2 < A.order_)
    (hE1 : Extends A S d1) (hE2 : Extends A S d2) :
    A.Add S extrude = none := by
  have hneq : A.eq S = some false :=
    eq_eq_some_false A S ho d1 h1 (by unfold Extends at hE1; omega)
  rw [Add_general A S extrude ho hAne hSne hneq]
  have hso : ∀ d, d < A.order_ → S.min_.coord d ≤ S.max_.coord d :=
    fun d hd => hSo d (by rw [← ho]; exact hd)
  rcases Nat.lt_or_gt_of_ne h12 with h | h
  · rw [addState_none_of_two A S extrude hA hAo hso d1 d2 h h2 hE1 hE2]; rfl
  · rw [addState_none_of_two A S extrude hA hAo hso d2 d1 h h1 hE2 hE1]; rfl

/-- Witness for C10 (amended): `[0,2) x [0,2)` and `[0,3) x [0,3)`, with extrusion. -/
theorem Add_fatal_of_two_extending_axes_witness :
    Add (newMinMax 2 [0, 0] [2, 2]) (newMinMax 2 [0, 0] [3, 3]) true = none :=
  Add_fatal_of_two_extending_axes (newMinMax 2 [0, 0] [2, 2]) (newMinMax 2 [0, 0] [3, 3]) true
    (by decide) (by decide) (by decide) (by decide) (by decide) (by decide)
    0 1 (by decide) (by decide) (by decide) (by decide) (by decide)

end AxisAlignedHyperRectangle

namespace AxisAlignedHyperRectangle

/-- Counterexample for C11, in two parts. First, the non-empty boxes `A = [0,6) x [0,6)` and
`S = [2,8) x [3,8)` overlap on both axes and differ on both, and `A.Subtract(S)` returns
normally, with a zero gradient and `A` unchanged. Second, `A = [0,65536)^4` and
`S = [1,2) x [0,65537) x [0,65536)^2` are non-empty, overlap on every axis, differ on the
first two axes, and `S` lies strictly inside `A` along the first one, but the volume of `A`
is `2^64`, so `size()` is `0` for `A`, and `A.Subtract(S)` returns normally. -/
theorem Subtract_two_axes_differ_counterexample :
    ((newMinMax 2 [0, 0] [6, 6]).volume ≠ 0 ∧ (newMinMax 2 [2, 3] [8, 8]).volume ≠ 0 ∧
     (newMinMax 2 [0, 0] [6, 6]).Contains [3, 4] = some true ∧
     (newMinMax 2 [2, 3] [8, 8]).Contains [3, 4] = some true ∧
     (newMinMax 2 [0, 0] [6, 6]).min_.coord 0 ≠ (newMinMax 2 [2, 3] [8, 8]).min_.coord 0 ∧
     (newMinMax 2 [0, 0] [6, 6]).min_.coord 1 ≠ (newMinMax 2 [2, 3] [8, 8]).min_.coord 1 ∧
     Subtract (newMinMax 2 [0, 0] [6, 6]) (newMinMax 2 [2, 3] [8, 8])
       = some (Gradient.new 2, newMinMax 2 [0, 0] [6, 6])) ∧
    ((newMinMax 4 [0, 0, 0, 0] [65536, 65536, 65536, 65536]).volume ≠ 0 ∧
     (newMinMax 4 [1, 0, 0, 0] [2, 65537, 65536, 65536]).volume ≠ 0 ∧
     (newMinMax 4 [0, 0, 0, 0] [65536, 65536, 65536, 65536]).Contains [1, 0, 0, 0] = some true ∧
     (newMinMax 4 [1, 0, 0, 0] [2, 65537, 65536, 65536]).Contains [1, 0, 0, 0] = some true ∧
     (newMinMax 4 [0, 0, 0, 0] [65536, 65536, 65536, 65536]).min_.coord 0
       ≠ (newMinMax 4 [1, 0, 0, 0] [2, 65537, 65536, 65536]).min_.coord 0 ∧
     (newMinMax 4 [0, 0, 0, 0] [65536, 65536, 65536, 65536]).max_.coord 1
       ≠ (newMinMax 4 [1, 0, 0, 0] [2, 65537, 65536, 65536]).max_.coord 1 ∧
     (newMinMax 4 [0, 0, 0, 0] [65536, 65536, 65536, 65536]).size = 0 ∧
     Subtract (newMinMax 4 [0, 0, 0, 0] [65536, 65536, 65536, 65536])
         (newMinMax 4 [1, 0, 0, 0] [2, 65537, 65536, 65536])
       = some (Gradient.new 4, newMinMax 4 [0, 0, 0, 0] [65536, 65536, 65536, 65536])) := by
  decide

/-- C11 (amended): for boxes `A` and `S` of the same order with a non-zero `size()` (the
volume modulo `2^64`) that overlap on every axis and whose bounds differ along two or more
axes, `d1` being the first of them, `A.Subtract(S)` fails an assertion exactly when `S` lies
strictly inside `A` along `d1`; otherwise it returns normally, with a zero gradient, and
leaves `A` unchanged or reset to the canonical empty box. -/
theorem Subtract_multi_axis_fatal_iff (A S : AxisAlignedHyperRectangle) (d1 d2 : Nat)
    (hA : WF A) (ho : A.order_ = S.order_) (hAne : A.size ≠ 0) (hSne : S.size ≠ 0)
    (h12 : d1 < d2) (h2 : d2 < A.order_)
    (hov : ∀ i, i < A.order_ →
      S.min_.coord i < A.max_.coord i ∧ A.min_.coord i < S.max_.coord i)
    (hfirst : ∀ i, i < d1 →
      A.min_.coord i = S.min_.coord i ∧ A.max_.coord i = S.max_.coord i)
    (hdiff1 : A.min_.coord d1 ≠ S.min_.coord d1 ∨ A.max_.coord d1 ≠ S.max_.coord d1)
    (hdiff2 : A.min_.coord d2 ≠ S.min_.coord d2 ∨ A.max_.coord d2 ≠ S.max_.coord d2) :
    (A.Subtract S = none ↔
      (S.min_.coord d1 > A.min_.coord d1 ∧ S.max_.coord d1 < A.max_.coord d1)) ∧
    (¬ (S.min_.coord d1 > A.min_.coord d1 ∧ S.max_.coord d1 < A.max_.coord d1) →
      ∃ R, A.Subtract S = some (Gradient.new A.order_, R) ∧ (R = A ∨ R = A.Reset)) := by
  have hS := Subtract_multi A S d1 d2 hA ho hAne hSne h12 h2 hov hfirst hdiff1 hdiff2
  by_cases c1 : S.min_.coord d1 ≤ A.min_.coord d1 <;>
  by_cases c2 : S.max_.coord d1 < A.max_.coord d1 <;>
  simp only [c1, c2, if_true, if_false] at hS <;>
  rw [hS]
  · exact ⟨⟨fun h => absurd h (by simp), fun h => by omega⟩, fun _ => ⟨A, rfl, Or.inl rfl⟩⟩
  · exact ⟨⟨fun h => absurd h (by simp), fun h => by omega⟩,
      fun _ => ⟨A.Reset, rfl, Or.inr rfl⟩⟩
  · exact ⟨⟨fun _ => ⟨by omega, c2⟩, fun _ => rfl⟩, fun h => absurd ⟨by omega, c2⟩ h⟩
  · exact ⟨⟨fun h => absurd h (by simp), fun h => by omega⟩, fun _ => ⟨A, rfl, Or.inl rfl⟩⟩

/-- Witness for C11 (amended): `A = [0,6) x [0,6)` and `S = [2,4) x [3,8)`, with `S` strictly
inside `A` along the first axis. -/
theorem Subtract_multi_axis_fatal_iff_witness :
    (Subtract (newMinMax 2 [0, 0] [6, 6]) (newMinMax 2 [2, 3] [4, 8]) = none ↔
      ((newMinMax 2 [2, 3] [4, 8]).min_.coord 0 > (newMinMax 2 [0, 0] [6, 6]).min_.coord 0 ∧
       (newMinMax 2 [2, 3] [4, 8]).max_.coord 0 < (newMinMax 2 [0, 0] [6, 6]).max_.coord 0)) ∧
    (¬ ((newMinMax 2 [2, 3] [4, 8]).min_.coord 0 > (newMinMax 2 [0, 0] [6, 6]).min_.coord 0 ∧
        (newMinMax 2 [2, 3] [4, 8]).max_.coord 0 < (newMinMax 2 [0, 0] [6, 6]).max_.coord 0) →
      ∃ R, Subtract (newMinMax 2 [0, 0] [6, 6]) (newMinMax 2 [2, 3] [4, 8])
          = some (Gradient.new (newMinMax 2 [0, 0] [6, 6]).order_, R) ∧
        (R = newMinMax 2 [0, 0] [6, 6] ∨ R = (newMinMax 2 [0, 0] [6, 6]).Reset)) :=
  Subtract_multi_axis_fatal_iff (newMinMax 2 [0, 0] [6, 6]) (newMinMax 2 [2, 3] [4, 8]) 0 1
    (by decide) (by decide) (by decide) (by decide) (by decide) (by decide) (by decide)
    (by decide) (by decide) (by decide)

end AxisAlignedHyperRectangle

namespace AxisAlignedHyperRectangle

end AxisAlignedHyperRectangle

namespace AxisAlignedHyperRectangle

/-- Counterexample for C15, in two parts. First, the box `A = [5,5)` and the empty box
`E = [0,0)` have the same order, and `A.Add(E)` replaces `A` by `E` (because `A` is empty
too), so the bounds of `A` change from `5` to `0`. Second, for `A = [0,65536)^4`, whose
volume is `2^64` and whose `size()` is therefore `0`, and the empty box `E` of order `4`,
`A.Add(E)` replaces `A` by `E` as well, so the maximum of `A` changes. -/
theorem Add_empty_to_empty_counterexample :
    ((new 1).volume = 0 ∧ BoxInv (newMinMax 1 [5] [5]) ∧ BoxInv (new 1) ∧
     Add (newMinMax 1 [5] [5]) (new 1) false = some (new 1) ∧
     Add (newMinMax 1 [5] [5]) (new 1) true = some (new 1) ∧
     (new 1).min_ ≠ (newMinMax 1 [5] [5]).min_) ∧
    ((new 4).volume = 0 ∧ BoxInv (newMinMax 4 [0, 0, 0, 0] [65536, 65536, 65536, 65536]) ∧
     (newMinMax 4 [0, 0, 0, 0] [65536, 65536, 65536, 65536]).volume ≠ 0 ∧
     (newMinMax 4 [0, 0, 0, 0] [65536, 65536, 65536, 65536]).size = 0 ∧
     Add (newMinMax 4 [0, 0, 0, 0] [65536, 65536, 65536, 65536]) (new 4) false = some (new 4) ∧
     Add (newMinMax 4 [0, 0, 0, 0] [65536, 65536, 65536, 65536]) (new 4) true = some (new 4) ∧
     (new 4).max_ ≠ (newMinMax 4 [0, 0, 0, 0] [65536, 65536, 65536, 65536]).max_) := by
  decide

/-- C15 (amended): union identity. For boxes `A` and `S` of the same order and either value
of `extrude`, no call fails, and: when `A` is empty (its volume is zero), `A.Add(S)` makes
`A` equal to `S`; when `size()` of `A` (the volume modulo `2^64`) is not zero and `S` is
empty, `A.Add(S)` leaves `A` unchanged; and `A.Add(A)` leaves `A` unchanged. -/
theorem Add_identity (A S : AxisAlignedHyperRectangle) (extrude : Bool)
    (ho : A.order_ = S.order_) :
    (A.volume = 0 → A.Add S extrude = some S) ∧
    (A.size ≠ 0 → S.volume = 0 → A.Add S extrude = some A) ∧
    A.Add A extrude = some A := by
  refine ⟨fun hA => ?_, fun hA hS => ?_, ?_⟩
  · unfold Add
    rw [if_neg (by simpa using ho), if_pos (size_eq_zero_of_volume_eq_zero A hA)]
  · unfold Add
    rw [if_neg (by simpa using ho), if_neg hA, if_pos (size_eq_zero_of_volume_eq_zero S hS)]
  · unfold Add
    rw [if_neg (by simp)]
    by_cases hA : A.size = 0
    · rw [if_pos hA]
    · rw [if_neg hA, if_neg hA, eq_eq_some_true A A rfl (fun _ _ => ⟨rfl, rfl⟩)]

/-- Witness for C15 (amended): `A = [0,2) x [0,3)` and the empty box `E` of order `2`:
`E.Add(A)` gives `A`, `A.Add(E)` leaves `A`, and `A.Add(A)` leaves `A`. -/
theorem Add_identity_witness :
    Add (new 2) (newMinMax 2 [0, 0] [2, 3]) false = some (newMinMax 2 [0, 0] [2, 3]) ∧
    Add (newMinMax 2 [0, 0] [2, 3]) (new 2) false = some (newMinMax 2 [0, 0] [2, 3]) ∧
    Add (newMinMax 2 [0, 0] [2, 3]) (newMinMax 2 [0, 0] [2, 3]) false
      = some (newMinMax 2 [0, 0] [2, 3]) :=
  ⟨(Add_identity (new 2) (newMinMax 2 [0, 0] [2, 3]) false (by decide)).1 (by decide),
   (Add_identity (newMinMax 2 [0, 0] [2, 3]) (new 2) false (by decide)).2.1
     (by decide) (by decide),
   (Add_identity (newMinMax 2 [0, 0] [2, 3]) (new 2) false (by decide)).2.2⟩

end AxisAlignedHyperRectangle

namespace AxisAlignedHyperRectangle

/-- C17: containment boundary. For every point `p` (of positive order), the unit box
constructed from `p` has size `1` (`size()` returns `1`, and the volume is `1`) and contains
`p`, and for every axis `d` it does not contain the point obtained from `p` by adding `1` to
the coordinate `d`. -/
theorem unit_box_containment (p : Point) (hp : 0 < p.Order) :
    ∃ u, newUnit p.Order p = some u ∧ u.size = 1 ∧ u.volume = 1 ∧
      u.Contains p = some true ∧
      ∀ d, d < p.Order → u.Contains (p.setCoord d (p.coord d + 1)) = some false := by
  unfold Point.Order at hp ⊢
  have hvol : volume { new p.length with min_ := p, max_ := p.map (fun c => c + 1) } = 1 := by
    rw [volume_eq_vol _ hp]
    unfold vol
    apply Finset.prod_eq_one
    intro i hi
    have hi' : i < p.length := Finset.mem_range.mp hi
    simp only
    rw [coord_map_succ p i hi']
    ring
  refine ⟨{ new p.length with min_ := p, max_ := p.map (fun c => c + 1) }, ?_, ?_, hvol, ?_, ?_⟩
  · unfold newUnit
    rw [if_neg (by simp [Point.Order])]
  · rw [size_eq_volume_emod, hvol]
    rfl
  · rw [Contains_eq_some_true]
    refine ⟨rfl, fun i hi => ?_⟩
    have hi' : i < p.length := hi
    simp only
    rw [coord_map_succ p i hi']
    omega
  · intro d hd
    rw [Contains_eq_some_false]
    refine ⟨Point.length_setCoord p d _, fun hin => ?_⟩
    have := hin d hd
    simp only at this
    rw [Point.coord_setCoord, if_pos ⟨rfl, hd⟩, coord_map_succ p d hd] at this
    omega

/-- Witness for C17: the point `(3, -2)`. -/
theorem unit_box_containment_witness :
    ∃ u, newUnit (Point.Order [3, -2]) [3, -2] = some u ∧ u.size = 1 ∧ u.volume = 1 ∧
      u.Contains [3, -2] = some true ∧
      ∀ d, d < Point.Order [3, -2] →
        u.Contains (Point.setCoord [3, -2] d (Point.coord [3, -2] d + 1)) = some false :=
  unit_box_containment [3, -2] (by decide)

/-- C20: trend break in the trend-aware `operator-`, with `gResetOnStrideChange` on. When the
stored gradient of `S` is not zero and the gradient `g` returned by the raw `Subtract` of `S`
from a copy of `A` is on another axis or has another sign than the stored gradient of `S`
(and it is not the case that `g` is zero with an empty remainder, one of zero volume),
`A - S` returns a box with the bounds of `A` and a zero gradient, and `A` keeps its bounds
and stores a zero gradient. -/
theorem minus_trend_break (A S : AxisAlignedHyperRectangle) (g : Gradient)
    (delta : AxisAlignedHyperRectangle)
    (hS : A.Subtract S = some (g, delta))
    (hsg : S.gradient_.value ≠ 0)
    (hnz : ¬ (g.value = 0 ∧ delta.volume = 0))
    (hbreak : S.gradient_.dimension ≠ g.dimension ∨ S.gradient_.Sign ≠ g.Sign) :
    ∃ D A', minus true A S = some (D, A') ∧
      D.order_ = A.order_ ∧ D.min_ = A.min_ ∧ D.max_ = A.max_ ∧
      D.gradient_ = Gradient.new A.order_ ∧
      A'.order_ = A.order_ ∧ A'.min_ = A.min_ ∧ A'.max_ = A.max_ ∧
      A'.gradient_ = Gradient.new A.order_ := by
  refine ⟨{ A with gradient_ := Gradient.new A.order_ },
    { A with gradient_ := Gradient.new A.order_ }, ?_, rfl, rfl, rfl, rfl, rfl, rfl, rfl, rfl⟩
  unfold minus
  simp only [hS, if_true]
  rw [if_neg hsg]
  by_cases c2 : g.value = 0 ∧ delta.size = 0
  · -- `size()` of the remainder is zero although the remainder is not empty
    obtain ⟨hg, hd⟩ := Subtract_zero_gradient A S g delta hS c2.1
    have hda : delta = A := by
      rcases hd with h | h
      · exact h
      · exact absurd ⟨c2.1, by rw [h]; exact volume_Reset A⟩ hnz
    rw [if_pos c2, hda, hg]
  · rw [if_neg c2, if_neg (by
      rintro ⟨h1, h2⟩
      rcases hbreak with h | h
      · exact h h1
      · exact h h2)]

/-- Witness for C20: `S = [0,4) x [-1,3)` with the stored gradient `3` along the axis `0`,
and `A = [0,4) x [0,4)`, which is `S` shifted along the axis `1`. -/
theorem minus_trend_break_witness :
    ∃ D A', minus true (newMinMax 2 [0, 0] [4, 4])
        { newMinMax 2 [0, -1] [4, 3] with
          gradient_ := { order := 2, dimension := 0, value := 3 } } = some (D, A') ∧
      D.order_ = (newMinMax 2 [0, 0] [4, 4]).order_ ∧
      D.min_ = (newMinMax 2 [0, 0] [4, 4]).min_ ∧ D.max_ = (newMinMax 2 [0, 0] [4, 4]).max_ ∧
      D.gradient_ = Gradient.new (newMinMax 2 [0, 0] [4, 4]).order_ ∧
      A'.order_ = (newMinMax 2 [0, 0] [4, 4]).order_ ∧
      A'.min_ = (newMinMax 2 [0, 0] [4, 4]).min_ ∧ A'.max_ = (newMinMax 2 [0, 0] [4, 4]).max_ ∧
      A'.gradient_ = Gradient.new (newMinMax 2 [0, 0] [4, 4]).order_ :=
  minus_trend_break (newMinMax 2 [0, 0] [4, 4])
    { newMinMax 2 [0, -1] [4, 3] with gradient_ := { order := 2, dimension := 0, value := 3 } }
    { order := 2, dimension := 1, value := 3 } (newMinMax 2 [0, 3] [4, 4])
    (by decide) (by decide) (by decide) (by decide)

end AxisAlignedHyperRectangle

section Inference

/-- C18: the propagation terminates. For every workload whose producer/consumer relation
between einsums (through the tensors written inside the fusion set, a finite list) is
acyclic, and every tiling table with entries for the start einsum and for all
in-fusion-set producers, the worklist of `ConsumerBasedTileShapeInference` drains after
finitely many iterations, without an exception. -/
theorem propagation_terminates {M S : Type} (ops : IslOps M S)
    (workload : FusedWorkload M S) (reuse : DataSpaceId → Option Nat)
    (einsums : List EinsumId) (start : EinsumId) (table : TilingInfo M)
    (hacyclic : ∀ e, ¬ Relation.TransGen (IsProducer workload einsums) e e)
    (hstart : (table start).isSome = true)
    (hprod : ∀ e p, p ∈ producers workload einsums e → (table p).isSome = true) :
    ∃ fuel table',
      ConsumerBasedTileShapeInference ops table reuse einsums workload start fuel
        = Outcome.finished table' := by
  obtain ⟨rank, hrank⟩ := exists_rank_of_acyclic workload einsums hacyclic
  obtain ⟨table', hrun, -⟩ := inferLoop_finishes ops workload reuse einsums start rank
    hrank (visitCost workload einsums (rank start) start) table [start]
    (by
      intro e he
      rw [List.mem_singleton] at he
      subst he
      exact Reach.start)
    (by
      intro e he
      rcases Reach_cases workload einsums start e he with rfl | ⟨c, hc⟩
      · exact hstart
      · exact hprod c e hc)
    (by simp)
  exact ⟨_, table', hrun⟩

end Inference

section Inference

/-- Witness for C18: the two-stage pipeline with entries for both einsums, where the only
producer/consumer pair is the einsum `0` producing for the einsum `1`. -/
theorem propagation_terminates_witness :
    ∃ fuel table',
      ConsumerBasedTileShapeInference unitOps (fun _ => some ()) (fun _ => none) [0, 1]
        twoStage 1 fuel = Outcome.finished table' :=
  propagation_terminates unitOps twoStage (fun _ => none) [0, 1] 1 (fun _ => some ())
    (by
      have hlt : ∀ p c, IsProducer twoStage [0, 1] p c → p < c := by
        intro p c hp
        unfold IsProducer producers twoStage at hp
        by_cases hc : c = 1
        · subst hc
          simp [inFusionWriter] at hp
          subst hp
          exact Nat.zero_lt_one
        · simp [hc] at hp
      have htrans : ∀ a b, Relation.TransGen (IsProducer twoStage [0, 1]) a b → a < b := by
        intro a b h
        induction h with
        | single h => exact hlt _ _ h
        | tail _ h ih => exact lt_trans ih (hlt _ _ h)
      intro e he
      exact absurd (htrans e e he) (lt_irrefl e))
    rfl (fun _ _ _ => rfl)

end Inference

namespace AxisAlignedHyperRectangle

end AxisAlignedHyperRectangle

namespace AxisAlignedHyperRectangle

/-- Counterexample for C21: non-empty boxes that overlap on both axes and differ on both.
With `A = [0,6) x [0,6)` and `S = [2,4) x [3,8)`, where `S` lies strictly inside `A` along
the first axis, `A.Subtract(S)` fails an assertion; with `A = [0,4) x [0,4)` and
`S = [-1,5) x [2,6)`, where `S` covers `A` along the first axis, `A.Subtract(S)` resets `A`
to the canonical empty box, so its bounds change. -/
theorem Subtract_keeps_source_counterexample :
    ((newMinMax 2 [0, 0] [6, 6]).volume ≠ 0 ∧ (newMinMax 2 [2, 3] [4, 8]).volume ≠ 0 ∧
     (newMinMax 2 [0, 0] [6, 6]).Contains [3, 4] = some true ∧
     (newMinMax 2 [2, 3] [4, 8]).Contains [3, 4] = some true ∧
     (newMinMax 2 [0, 0] [6, 6]).min_.coord 0 ≠ (newMinMax 2 [2, 3] [4, 8]).min_.coord 0 ∧
     (newMinMax 2 [0, 0] [6, 6]).min_.coord 1 ≠ (newMinMax 2 [2, 3] [4, 8]).min_.coord 1 ∧
     Subtract (newMinMax 2 [0, 0] [6, 6]) (newMinMax 2 [2, 3] [4, 8]) = none) ∧
    ((newMinMax 2 [0, 0] [4, 4]).volume ≠ 0 ∧ (newMinMax 2 [-1, 2] [5, 6]).volume ≠ 0 ∧
     (newMinMax 2 [0, 0] [4, 4]).Contains [1, 3] = some true ∧
     (newMinMax 2 [-1, 2] [5, 6]).Contains [1, 3] = some true ∧
     (newMinMax 2 [0, 0] [4, 4]).min_.coord 0 ≠ (newMinMax 2 [-1, 2] [5, 6]).min_.coord 0 ∧
     (newMinMax 2 [0, 0] [4, 4]).min_.coord 1 ≠ (newMinMax 2 [-1, 2] [5, 6]).min_.coord 1 ∧
     Subtract (newMinMax 2 [0, 0] [4, 4]) (newMinMax 2 [-1, 2] [5, 6])
       = some (Gradient.new 2, (newMinMax 2 [0, 0] [4, 4]).Reset) ∧
     (newMinMax 2 [0, 0] [4, 4]).Reset.max_ ≠ (newMinMax 2 [0, 0] [4, 4]).max_) := by
  decide

/-- C21 (amended): for boxes `A` and `S` of the same order, non-empty or not, that overlap on
every axis and whose bounds differ along two or more axes, where along the first differing
axis `d1` the box `S` neither lies strictly inside `A` nor covers the whole range of `A`,
`A.Subtract(S)` returns a zero gradient and leaves `A` unchanged. -/
theorem Subtract_multi_axis_keeps_source (A S : AxisAlignedHyperRectangle) (d1 d2 : Nat)
    (hA : WF A) (ho : A.order_ = S.order_) (h12 : d1 < d2) (h2 : d2 < A.order_)
    (hov : ∀ i, i < A.order_ →
      S.min_.coord i < A.max_.coord i ∧ A.min_.coord i < S.max_.coord i)
    (hfirst : ∀ i, i < d1 →
      A.min_.coord i = S.min_.coord i ∧ A.max_.coord i = S.max_.coord i)
    (hdiff1 : A.min_.coord d1 ≠ S.min_.coord d1 ∨ A.max_.coord d1 ≠ S.max_.coord d1)
    (hdiff2 : A.min_.coord d2 ≠ S.min_.coord d2 ∨ A.max_.coord d2 ≠ S.max_.coord d2)
    (hinside : ¬ (S.min_.coord d1 > A.min_.coord d1 ∧ S.max_.coord d1 < A.max_.coord d1))
    (hcover : ¬ (S.min_.coord d1 ≤ A.min_.coord d1 ∧ S.max_.coord d1 ≥ A.max_.coord d1)) :
    A.Subtract S = some (Gradient.new A.order_, A) := by
  by_cases hz : A.size = 0 ∨ S.size = 0
  · -- `size()` of an operand is zero: `Subtract` returns at once
    unfold Subtract
    rw [if_neg (by simpa using ho), if_pos hz]
  · rw [Subtract_multi A S d1 d2 hA ho (fun h => hz (Or.inl h)) (fun h => hz (Or.inr h))
      h12 h2 hov hfirst hdiff1 hdiff2]
    by_cases c1 : S.min_.coord d1 ≤ A.min_.coord d1
    · rw [if_pos c1, if_pos (by omega)]
    · rw [if_neg c1, if_neg (by omega)]

/-- Witness for C21 (amended): `A = [0,6) x [0,6)` and `S = [2,8) x [3,8)`. -/
theorem Subtract_multi_axis_keeps_source_witness :
    Subtract (newMinMax 2 [0, 0] [6, 6]) (newMinMax 2 [2, 3] [8, 8])
      = some (Gradient.new (newMinMax 2 [0, 0] [6, 6]).order_, newMinMax 2 [0, 0] [6, 6]) :=
  Subtract_multi_axis_keeps_source (newMinMax 2 [0, 0] [6, 6]) (newMinMax 2 [2, 3] [8, 8]) 0 1
    (by decide) (by decide) (by decide) (by decide) (by decide) (by decide) (by decide)
    (by decide) (by decide) (by decide)

end AxisAlignedHyperRectangle
